import Mathlib

/-!
# A header-level model of `src/src/osmem.c`

The allocator keeps an intrusive doubly linked list of `struct block_meta`
headers in raw memory.  The development below embeds the C code at the level
of those headers:

* memory is a total map from addresses to headers; address `0` is `NULL` and
  every access through it is a fault (`Outcome.segv`);
* `size_t` arithmetic is arithmetic modulo `2^64`; pointer arithmetic is left
  unwrapped (overflowing a pointer is undefined behaviour in C);
* the kernel (program break, anonymous mappings) is part of the state, and
  every successful kernel call is appended to a log;
* each `while` loop is a recursive function on a fuel argument, running out
  of fuel is `Outcome.timeout`;
* `DIE` is `Outcome.die`;
* payload bytes are not modelled: `memset` and `memcpy` only touch payloads.
-/

namespace Osmem

/-! ## Constants and machine words -/

/-- The number of values of a `size_t` (64-bit target). -/
def WORD : Nat := 18446744073709551616

/-- The macro `MMAP_THRESHOLD`, `128 * 1024`. -/
def MMAP_THRESHOLD : Nat := 128 * 1024

/-- The macro `ALIGNMENT`. -/
def ALIGNMENT : Nat := 8

/-- The constant `INT_MAX` of `limits.h` for a 32-bit `int`. -/
def INT_MAX : Nat := 2147483647

/-- Addition of two `size_t` values. -/
def wadd (a b : Nat) : Nat := (a + b) % WORD

/-- Subtraction of two `size_t` values. -/
def wsub (a b : Nat) : Nat := (a % WORD + (WORD - b % WORD)) % WORD

/-- The macro `ALIGN(size)`, `((size) + (ALIGNMENT - 1)) & ~(ALIGNMENT - 1)`,
computed on a `size_t`: the addition wraps, the mask clears the low three
bits. -/
def ALIGN (size : Nat) : Nat :=
  (size + (ALIGNMENT - 1)) % WORD / ALIGNMENT * ALIGNMENT

/-- Modelled from the spec: the values of the `status` field, declared in
`utils/block_meta.h` (not under src/); the spec names them FREE,
HEAP_ALLOCATED and MAPPING_BACKED. -/
inductive Status where
  | STATUS_FREE
  | STATUS_ALLOC
  | STATUS_MAPPED
  deriving DecidableEq, Repr

open Status

/-- Modelled from the spec: `struct block_meta`, declared in
`utils/block_meta.h` (not under src/): payload size, status tag and the two
list links; links are addresses, `0` is `NULL`. -/
structure block_meta where
  size : Nat
  status : Status
  prev : Nat
  next : Nat
  deriving DecidableEq, Repr

/-- What the code takes from its platform: `sizeof(struct block_meta)`
(the macro `BLOCK_META_SIZE`) and `getpagesize()` (the macro `PAGE_SIZE`). -/
structure Platform where
  BLOCK_META_SIZE : Nat
  PAGE_SIZE : Nat
  deriving DecidableEq, Repr

/-- Header memory. -/
abbrev Mem := Nat → block_meta

/-- The assignment `a->size = v`. -/
def set_size (m : Mem) (a v : Nat) : Mem :=
  Function.update m a { m a with size := v }

/-- The assignment `a->status = v`. -/
def set_status (m : Mem) (a : Nat) (v : Status) : Mem :=
  Function.update m a { m a with status := v }

/-- The assignment `a->prev = v`. -/
def set_prev (m : Mem) (a v : Nat) : Mem :=
  Function.update m a { m a with prev := v }

/-- The assignment `a->next = v`. -/
def set_next (m : Mem) (a v : Nat) : Mem :=
  Function.update m a { m a with next := v }

/-- A successful kernel call, as recorded in the log. -/
inductive Syscall where
  | sbrk (increment : Nat)
  | mmap (length addr : Nat)
  | munmap (addr length : Nat)
  deriving DecidableEq, Repr

/-- The globals of `osmem.c` (`list`, `first_alloc`, `current_threshold`),
the header memory, and the kernel side: where the heap started, the program
break, the live anonymous mappings as (base, length), and the log of kernel
calls. -/
structure State where
  mem : Mem
  list : Nat
  first_alloc : Nat
  current_threshold : Nat
  heap_start : Nat
  brk : Nat
  maps : List (Nat × Nat)
  log : List Syscall

/-- How a call ends: it returns, it dereferences `NULL`, it ends in `DIE`
after a failed kernel call, or a loop is cut off by the fuel bound. -/
inductive Outcome (α : Type) where
  | ok (a : α)
  | segv
  | die
  | timeout

/-- Sequencing: carry on with `f` when `x` returned, stop where `x` stopped
otherwise. -/
def Outcome.bind {α β : Type} (x : Outcome α) (f : α → Outcome β) : Outcome β :=
  match x with
  | Outcome.ok a => f a
  | Outcome.segv => Outcome.segv
  | Outcome.die => Outcome.die
  | Outcome.timeout => Outcome.timeout

/-- The pattern `if (result == FAIL_CODE) DIE(...)` after a kernel call. -/
def or_die {α : Type} (r : Option α) : Outcome α :=
  match r with
  | some a => Outcome.ok a
  | none => Outcome.die

/-- The state at process start: empty registry, latch clear, default
threshold, no mapping, no kernel call made; the memory content and the
initial program break are whatever the process starts with. -/
def initial (mem : Mem) (brk0 : Nat) : State :=
  { mem := mem, list := 0, first_alloc := 0, current_threshold := MMAP_THRESHOLD,
    heap_start := brk0, brk := brk0, maps := [], log := [] }

/-! ## The kernel -/

/-- The byte ranges `[a, a + la)` and `[b, b + lb)` do not meet. -/
def disjoint (a la b lb : Nat) : Prop := a + la ≤ b ∨ b + lb ≤ a

instance (a la b lb : Nat) : Decidable (disjoint a la b lb) := by
  unfold disjoint; infer_instance

/-- The call `sbrk(increment)`: the argument is read as a signed word.  The
call moves the break and returns the previous one; it fails when the new
break would leave the address space, run into a mapping, or fall below
the start of the heap. -/
def sbrk (s : State) (increment : Nat) : Option (State × Nat) :=
  let d := increment % WORD
  if d < WORD / 2 then
    if s.brk + d < WORD ∧ ∀ r ∈ s.maps, disjoint s.brk d r.1 r.2 then
      some ({ s with brk := s.brk + d, log := s.log ++ [Syscall.sbrk d] }, s.brk)
    else none
  else
    if s.heap_start + (WORD - d) ≤ s.brk then
      some ({ s with brk := s.brk - (WORD - d), log := s.log ++ [Syscall.sbrk d] }, s.brk)
    else none

/-- The call `mmap(NULL, length, ...)` for an anonymous private mapping.  The
kernel chooses the base address `addr`; the call succeeds when that address
is a non-null page boundary and the range is inside the address space and
meets neither the heap nor a live mapping, and fails otherwise. -/
def mmap (P : Platform) (s : State) (length addr : Nat) : Option (State × Nat) :=
  if addr ≠ 0 ∧ addr % P.PAGE_SIZE = 0 ∧ addr + length < WORD ∧
      disjoint addr length s.heap_start (s.brk - s.heap_start) ∧
      ∀ r ∈ s.maps, disjoint addr length r.1 r.2 then
    some ({ s with maps := (addr, length) :: s.maps,
                   log := s.log ++ [Syscall.mmap length addr] }, addr)
  else none

/-- The call `munmap(addr, length)`: fails on an address that is not a page
boundary, otherwise the mappings based at `addr` are gone. -/
def munmap (P : Platform) (s : State) (addr length : Nat) : Option State :=
  if addr % P.PAGE_SIZE = 0 then
    some { s with maps := s.maps.filter (fun r => r.1 ≠ addr),
                  log := s.log ++ [Syscall.munmap addr length] }
  else none

/-! ## `coalesce_blocks` -/

/-- The merge in the loop of `coalesce_blocks`: `current` takes in the
header `next = current->next`. -/
def merge_next (P : Platform) (m : Mem) (current : Nat) : Mem :=
  let next := (m current).next
  let m1 := set_size m current
    (wadd (m current).size (wadd (m next).size P.BLOCK_META_SIZE))
  let m2 := set_next m1 current (m1 next).next
  if (m2 next).next ≠ 0 then set_prev m2 (m2 next).next current else m2

/-- The loop of `coalesce_blocks`, from `current`. -/
def coalesce_loop (P : Platform) : Nat → Mem → Nat → Outcome Mem
  | 0, _, _ => Outcome.timeout
  | fuel + 1, m, current =>
    if current = 0 then Outcome.ok m
    else if (m current).next = 0 then Outcome.ok m
    else
      let next := (m current).next
      if (m current).status = STATUS_FREE ∧ (m next).status = STATUS_FREE then
        coalesce_loop P fuel (merge_next P m current) current
      else
        coalesce_loop P fuel m (m current).next

/-- The function `coalesce_blocks`. -/
def coalesce_blocks (P : Platform) (fuel : Nat) (s : State) : Outcome State :=
  (coalesce_loop P fuel s.mem s.list).bind fun m => Outcome.ok { s with mem := m }

/-! ## `add_mapped_elem` -/

/-- The loop of `add_mapped_elem`: walks `current` to `NULL`, remembering the
node before it in `last`. -/
def tail_loop : Nat → Mem → Nat → Nat → Outcome Nat
  | 0, _, _, _ => Outcome.timeout
  | fuel + 1, m, current, last =>
    if current ≠ 0 then tail_loop fuel m (m current).next current
    else Outcome.ok last

/-- The function `add_mapped_elem`. -/
def add_mapped_elem (fuel : Nat) (s : State) (new_block : Nat) : Outcome State :=
  if new_block = 0 then Outcome.segv
  else if s.first_alloc = 0 then
    let m1 := set_next s.mem new_block 0
    let m2 := set_prev m1 new_block 0
    Outcome.ok { s with list := new_block, mem := m2 }
  else
    (tail_loop fuel s.mem s.list 0).bind fun last =>
      if last = 0 then Outcome.segv
      else
        let m1 := set_next s.mem last new_block
        let m2 := set_prev m1 new_block last
        let m3 := set_next m2 new_block 0
        Outcome.ok { s with mem := m3 }

/-! ## `find_best_free_block` -/

/-- The search loop of `find_best_free_block`; returns `best_block`. -/
def search_loop : Nat → Mem → Nat → Nat → Nat → Nat → Outcome Nat
  | 0, _, _, _, _, _ => Outcome.timeout
  | fuel + 1, m, size, current, min_size, best_block =>
    if current = 0 then Outcome.ok best_block
    else if (m current).status = STATUS_FREE ∧
        (m current).size ≥ size ∧ (m current).size < min_size then
      search_loop fuel m size (m current).next (m current).size current
    else
      search_loop fuel m size (m current).next min_size best_block

/-- The loop `while (last->next) last = last->next;` for a non-null `last`. -/
def last_loop : Nat → Mem → Nat → Outcome Nat
  | 0, _, _ => Outcome.timeout
  | fuel + 1, m, last =>
    if (m last).next ≠ 0 then last_loop fuel m (m last).next
    else Outcome.ok last

/-- The block that "try and split the block" carves out of `block`, whose
header goes `total_size` bytes after the header of `block`; `size` is the new
size of `block`.  The same statements, with `ALIGN(size)` for `size`, make the
split of `os_realloc`.  The subtraction cannot wrap, the caller has checked
`block->size > total_size`. -/
def split_block (m : Mem) (block total_size size : Nat) : Mem :=
  let new_block := block + total_size
  let m1 := set_status m new_block STATUS_FREE
  let m2 := set_size m1 new_block ((m1 block).size - total_size)
  let m3 := set_prev m2 new_block block
  let m4 := set_next m3 new_block (m3 block).next
  let m5 := if (m4 block).next ≠ 0 then set_prev m4 (m4 block).next new_block else m4
  let m6 := set_next m5 block new_block
  set_size m6 block size

/-- The end of `find_best_free_block`, "didn't find a block, need to try and
extend the heap": grow the last block when it is free, else put a new block at
the program break. -/
def extend_heap (P : Platform) (fuel : Nat) (s : State) (size : Nat) :
    Outcome (State × Nat) :=
  if s.list = 0 then Outcome.segv
  else
    (last_loop fuel s.mem s.list).bind fun last =>
      if (s.mem last).status = STATUS_FREE then
        (or_die (sbrk s (wsub size (s.mem last).size))).bind fun r =>
          let m1 := set_size s.mem last (wadd (s.mem last).size (wsub size (s.mem last).size))
          let m2 := set_status m1 last STATUS_ALLOC
          Outcome.ok ({ r.1 with mem := m2 }, last)
      else
        (or_die (sbrk s (wadd size P.BLOCK_META_SIZE))).bind fun r =>
          let new_block := r.2
          if new_block = 0 then Outcome.segv
          else
            let m1 := set_size s.mem new_block size
            let m2 := set_prev m1 new_block last
            let m3 := set_next m2 new_block 0
            let m4 := set_status m3 new_block STATUS_ALLOC
            let m5 := set_next m4 last new_block
            Outcome.ok ({ r.1 with mem := m5 }, new_block)

/-- The function `find_best_free_block`; returns the state and the block. -/
def find_best_free_block (P : Platform) (fuel : Nat) (s : State) (size : Nat) :
    Outcome (State × Nat) :=
  (coalesce_blocks P fuel s).bind fun s1 =>
    (search_loop fuel s1.mem size s1.list INT_MAX 0).bind fun best_block =>
      let total_size := wadd size P.BLOCK_META_SIZE
      let m2 :=
        if best_block ≠ 0 ∧ (s1.mem best_block).size > total_size then
          split_block s1.mem best_block total_size size
        else s1.mem
      if best_block ≠ 0 then
        Outcome.ok ({ s1 with mem := set_status m2 best_block STATUS_ALLOC }, best_block)
      else
        extend_heap P fuel { s1 with mem := m2 } size

/-! ## `os_malloc` -/

/-- The block "because we didn t pass the threshold, use sbrk" of `os_malloc`:
on the first heap allocation, reserve `MMAP_THRESHOLD` bytes and make them
the one free block of the list. -/
def heap_prelude (P : Platform) (s : State) : Outcome State :=
  if s.first_alloc = 0 then
    (or_die (sbrk { s with first_alloc := 1 } MMAP_THRESHOLD)).bind fun r =>
      let first_block := r.2
      if first_block = 0 then Outcome.segv
      else
        let m1 := set_status r.1.mem first_block STATUS_FREE
        let m2 := set_size m1 first_block (wsub MMAP_THRESHOLD P.BLOCK_META_SIZE)
        let m3 := set_next m2 first_block 0
        let m4 := set_prev m3 first_block 0
        Outcome.ok { r.1 with mem := m4, list := first_block }
  else Outcome.ok s

/-- The mapping branch of `os_malloc`, "if the size is bigger than the
threshold, we need to use mmap instead of sbrk"; `size` is the aligned size
and `at_addr` the base the kernel chooses. -/
def map_block (P : Platform) (fuel at_addr : Nat) (s : State) (size total_size : Nat) :
    Outcome (State × Nat) :=
  (or_die (mmap P s total_size at_addr)).bind fun r =>
    let new_block := r.2
    if new_block = 0 then Outcome.segv
    else
      let m1 := set_size r.1.mem new_block size
      let m2 := set_status m1 new_block STATUS_MAPPED
      (add_mapped_elem fuel { r.1 with mem := m2 } new_block).bind fun s2 =>
        Outcome.ok (s2, new_block + P.BLOCK_META_SIZE)

/-- The function `os_malloc`; `at_addr` is the base the kernel would choose
for a mapping made by this call.  A returned pointer `block + 1` is the
address `block + BLOCK_META_SIZE`. -/
def os_malloc (P : Platform) (fuel at_addr : Nat) (s : State) (size : Nat) :
    Outcome (State × Nat) :=
  if size = 0 then Outcome.ok (s, 0)
  else
    let size := ALIGN size
    let total_size := wadd size (ALIGN P.BLOCK_META_SIZE)
    if total_size > s.current_threshold then
      map_block P fuel at_addr s size total_size
    else
      (heap_prelude P s).bind fun s1 =>
        (find_best_free_block P fuel s1 size).bind fun r =>
          Outcome.ok (r.1, r.2 + P.BLOCK_META_SIZE)

/-! ## `os_free` -/

/-- The function `os_free`.  The header `(struct block_meta *)ptr - 1` is at
`ptr - BLOCK_META_SIZE`; the assignment `list = NULL` comes before the test of
the value `munmap` returned, which makes no difference to a caller. -/
def os_free (P : Platform) (s : State) (ptr : Nat) : Outcome State :=
  if ptr = 0 then Outcome.ok s
  else
    let block := ptr - P.BLOCK_META_SIZE
    if block = 0 then Outcome.segv
    else if (s.mem block).status = STATUS_FREE then Outcome.ok s
    else if (s.mem block).status = STATUS_ALLOC then
      Outcome.ok { s with mem := set_status s.mem block STATUS_FREE }
    else
      (or_die (munmap P s block (wadd (s.mem block).size P.BLOCK_META_SIZE))).bind fun s1 =>
        Outcome.ok { s1 with list := 0 }

/-! ## `os_calloc` -/

/-- The function `os_calloc`.  The product is a `size_t` product; the
`memset` writes payload bytes only. -/
def os_calloc (P : Platform) (fuel at_addr : Nat) (s : State) (nmemb size : Nat) :
    Outcome (State × Nat) :=
  if nmemb = 0 ∨ size = 0 then Outcome.ok (s, 0)
  else
    (os_malloc P fuel at_addr { s with current_threshold := P.PAGE_SIZE }
        (nmemb * size % WORD)).bind fun r =>
      Outcome.ok ({ r.1 with current_threshold := MMAP_THRESHOLD }, r.2)

/-! ## `os_realloc` -/

/-- The tail shared by the two relocating paths of `os_realloc`:
`os_malloc(size)`, the copy, `os_free(ptr)`.  In the first path
(`checked = false`) the copy goes through `new_ptr` unchecked, in the last
path (`checked = true`) a null `new_ptr` is returned before it. -/
def relocate (P : Platform) (fuel at_addr : Nat) (s : State) (ptr size : Nat)
    (checked : Bool) : Outcome (State × Nat) :=
  (os_malloc P fuel at_addr s size).bind fun r =>
    let new_ptr := r.2
    if new_ptr = 0 then (if checked then Outcome.ok (r.1, 0) else Outcome.segv)
    else
      (os_free P r.1 ptr).bind fun s2 => Outcome.ok (s2, new_ptr)

/-- The function `os_realloc`. -/
def os_realloc (P : Platform) (fuel at_addr : Nat) (s : State) (ptr size : Nat) :
    Outcome (State × Nat) :=
  if ptr = 0 then os_malloc P fuel at_addr s size
  else if size = 0 then
    (os_free P s ptr).bind fun s1 => Outcome.ok (s1, 0)
  else
    let old_block := ptr - P.BLOCK_META_SIZE
    if old_block = 0 then Outcome.segv
    else if (s.mem old_block).status = STATUS_FREE then Outcome.ok (s, 0)
    else
      let new_total_size := wadd (ALIGN size) (ALIGN P.BLOCK_META_SIZE)
      let old_size := (s.mem old_block).size
      if (s.mem old_block).status = STATUS_MAPPED ∨ new_total_size ≥ MMAP_THRESHOLD then
        relocate P fuel at_addr s ptr size false
      else if old_size = ALIGN size then Outcome.ok (s, ptr)
      else if old_size > ALIGN size ∧ old_size > new_total_size then
        let m1 := split_block s.mem old_block new_total_size (ALIGN size)
        let m2 := set_status m1 old_block STATUS_ALLOC
        Outcome.ok ({ s with mem := m2 }, old_block + P.BLOCK_META_SIZE)
      else
        relocate P fuel at_addr s ptr size true

/-! ## Vocabulary of the statements -/

/-- A list of kernel calls that holds program-break adjustments only. -/
def only_sbrk (l : List Syscall) : Prop := ∀ c ∈ l, ∃ d, c = Syscall.sbrk d

/-! ## A concrete platform, for the scenarios -/

/-- A 64-bit Linux: the header takes 32 bytes, a page 4096. -/
def linux64 : Platform := { BLOCK_META_SIZE := 32, PAGE_SIZE := 4096 }

/-- A memory of zeroes. -/
def zero_mem : Mem := fun _ => { size := 0, status := STATUS_FREE, prev := 0, next := 0 }

/-- The process starts with its program break at `65536`. -/
def start : State := initial zero_mem 65536

/-- The state a call leaves, when the call returned (`start` otherwise). -/
def state_of {α : Type} (r : Outcome (State × α)) : State :=
  match r with
  | Outcome.ok a => a.1
  | _ => start

/-- The state a call of `os_free` leaves, when the call returned (`start`
otherwise). -/
def freed (r : Outcome State) : State :=
  match r with
  | Outcome.ok a => a
  | _ => start

/-! ## Clients and reachable states -/

/-- A call of one of the four entry points. -/
inductive Call where
  | malloc (size : Nat)
  | free (ptr : Nat)
  | calloc (nmemb size : Nat)
  | realloc (ptr size : Nat)
  deriving DecidableEq, Repr

/-- The state a call leaves and the pointer it returns (`os_free` returns
nothing, which is `0` here). -/
def run_call (P : Platform) (fuel at_addr : Nat) (s : State) : Call → Outcome (State × Nat)
  | Call.malloc size => os_malloc P fuel at_addr s size
  | Call.free ptr => (os_free P s ptr).bind fun s1 => Outcome.ok (s1, 0)
  | Call.calloc nmemb size => os_calloc P fuel at_addr s nmemb size
  | Call.realloc ptr size => os_realloc P fuel at_addr s ptr size

/-- A client passes to `os_free` and `os_realloc` either `NULL` or one of the
pointers `live` that it was given and has not freed since. -/
def valid_call (live : List Nat) : Call → Prop
  | Call.malloc _ => True
  | Call.free ptr => ptr = 0 ∨ ptr ∈ live
  | Call.calloc _ _ => True
  | Call.realloc ptr _ => ptr = 0 ∨ ptr ∈ live

/-- The pointers the client holds after a call that returned `r`. -/
def live_after (live : List Nat) : Call → Nat → List Nat
  | Call.malloc _, r => if r = 0 then live else r :: live
  | Call.free ptr, _ => live.filter (fun p => p ≠ ptr)
  | Call.calloc _ _, r => if r = 0 then live else r :: live
  | Call.realloc ptr size, r =>
    if ptr = 0 then (if r = 0 then live else r :: live)
    else if size = 0 then live.filter (fun p => p ≠ ptr)
    else if r = 0 then live
    else if r = ptr then live
    else r :: live.filter (fun p => p ≠ ptr)

/-- The request, as `os_malloc` receives it, of a call that allocates. -/
def request_of : Call → Option Nat
  | Call.malloc size => some size
  | Call.free _ => none
  | Call.calloc nmemb size => if nmemb = 0 ∨ size = 0 then none else some (nmemb * size % WORD)
  | Call.realloc _ size => if size = 0 then none else some size

/-- A state that a client reaches from process start with program break
`brk0`, through calls that returned and whose requests satisfy `allowed`,
together with the pointers the client holds in it. -/
inductive Reachable (P : Platform) (allowed : Nat → Prop) (brk0 : Nat) :
    State → List Nat → Prop
  | at_start (mem : Mem) : Reachable P allowed brk0 (initial mem brk0) []
  | step (s : State) (live : List Nat) (c : Call) (fuel at_addr : Nat) (s' : State) (r : Nat) :
      Reachable P allowed brk0 s live → valid_call live c →
      (∀ n, request_of c = some n → allowed n) →
      run_call P fuel at_addr s c = Outcome.ok (s', r) →
      Reachable P allowed brk0 s' (live_after live c r)

/-- Every request is admitted. -/
def any_request : Nat → Prop := fun _ => True

/-- The header at `a` is on the list that starts at `head`: `a` is met when
following `next` links from `head`, before `NULL`. -/
inductive OnList (m : Mem) : Nat → Nat → Prop
  | head (h : Nat) : h ≠ 0 → OnList m h h
  | tail (h a : Nat) : h ≠ 0 → OnList m (m h).next a → OnList m h a

/-- A set of headers that is closed under `next` and whose members have
8-aligned addresses and sizes. -/
def Clean (S : Nat → Prop) (m : Mem) : Prop :=
  ∀ x, S x → x % 8 = 0 ∧ (m x).size % 8 = 0 ∧ ((m x).next = 0 ∨ S (m x).next)

/-- The alignment invariant, for a set `S` of headers: the program break is
8-aligned, `S` is clean and holds the head of the list. -/
def Tidy (S : Nat → Prop) (s : State) : Prop :=
  s.brk % 8 = 0 ∧ Clean S s.mem ∧ (s.list = 0 ∨ S s.list)

/-- The pointer `p` is `NULL` or the payload of a header in `S`. -/
def payload_of (P : Platform) (S : Nat → Prop) (p : Nat) : Prop :=
  p = 0 ∨ ∃ b, p = b + P.BLOCK_META_SIZE ∧ S b

/-- The alignment invariant of a state and of the pointers a client holds. -/
def Aligned (P : Platform) (s : State) (live : List Nat) : Prop :=
  ∃ S : Nat → Prop, Tidy S s ∧ ∀ p ∈ live, payload_of P S p

/-! ## The list, as the spec sees it -/

/-- An entry of the registry: where its header is, its payload size, its
status. -/
structure Blk where
  addr : Nat
  size : Nat
  status : Status
  deriving DecidableEq, Repr

/-- The header addresses of a list of entries. -/
def addrs (bs : List Blk) : List Nat := bs.map Blk.addr

/-- The memory `m` holds, from `head` on, a `next`-linked run of non-null
headers whose entries are `bs`, in this order, and whose last `next` link is
`stop`. -/
def Seg (m : Mem) : Nat → List Blk → Nat → Prop
  | h, [], stop => h = stop
  | h, b :: l, stop => h = b.addr ∧ b.addr ≠ 0 ∧ (m b.addr).size = b.size ∧
      (m b.addr).status = b.status ∧ Seg m (m b.addr).next l stop

/-- The memory `m` holds, from `head` on, a `next`-linked list of non-null
headers that ends in `NULL` and whose entries are `bs`, in this order. -/
abbrev Rep (m : Mem) (head : Nat) (bs : List Blk) : Prop := Seg m head bs 0

/-- What `coalesce_blocks` makes of the entries after `cur`, with `cur` the
entry the walk is at: a free entry that follows a free `cur` goes into
`cur`, size and header. -/
def coalesce_from (hs : Nat) (cur : Blk) : List Blk → List Blk
  | [] => [cur]
  | b :: l =>
    if cur.status = STATUS_FREE ∧ b.status = STATUS_FREE then
      coalesce_from hs { cur with size := wadd cur.size (wadd b.size hs) } l
    else cur :: coalesce_from hs b l

/-- What `coalesce_blocks` makes of a list of entries. -/
def coalesce_list (hs : Nat) : List Blk → List Blk
  | [] => []
  | b :: l => coalesce_from hs b l

/-- What the search loop of `find_best_free_block` returns on a list of
entries, from the running `min_size` and `best_block`. -/
def search_list (size : Nat) : List Blk → Nat → Nat → Nat
  | [], _, best_block => best_block
  | b :: l, min_size, best_block =>
    if b.status = STATUS_FREE ∧ b.size ≥ size ∧ b.size < min_size then
      search_list size l b.size b.addr
    else search_list size l min_size best_block

/-! ## Well-formed states -/

/-- The heap entries of `bs` (those not mapping-backed) lie end to end from
`pos` to `stop`, each taking its header and its payload; each mapping-backed
entry lies inside a live mapping. -/
def tiles (hs : Nat) (maps : List (Nat × Nat)) : Nat → List Blk → Nat → Prop
  | pos, [], stop => pos = stop
  | pos, b :: l, stop =>
    (b.status = STATUS_MAPPED →
      (∃ len, (b.addr, len) ∈ maps ∧ hs + b.size ≤ len) ∧ tiles hs maps pos l stop) ∧
    (b.status ≠ STATUS_MAPPED → b.addr = pos ∧ tiles hs maps (pos + hs + b.size) l stop)

/-- What the platform has to be for the invariants: a header size that is a
non-zero multiple of 8 and fits the prelude, a page size that is an `int`. -/
def sane (P : Platform) : Prop :=
  P.BLOCK_META_SIZE % 8 = 0 ∧ 0 < P.BLOCK_META_SIZE ∧ P.BLOCK_META_SIZE ≤ MMAP_THRESHOLD ∧
    P.PAGE_SIZE ≤ INT_MAX

/-- The kernel side of a state: the heap is `[heap_start, brk)`, above
address zero and inside the address space, and no live mapping is empty or
meets it. -/
def kernel_ok (s : State) : Prop :=
  0 < s.heap_start ∧ s.heap_start ≤ s.brk ∧ s.brk < WORD ∧
    ∀ r ∈ s.maps, 0 < r.2 ∧ (r.1 + r.2 ≤ s.heap_start ∨ s.brk ≤ r.1)

/-- A well-formed state, with the entries `bs` of its list: the list is in
memory, no header is on it twice, the kernel side is in order, the heap
entries of a non-empty list lie end to end from the start of the heap to the
program break, and the heap is empty while the latch is clear. -/
def Wf (P : Platform) (s : State) (bs : List Blk) : Prop :=
  Rep s.mem s.list bs ∧ (addrs bs).Nodup ∧ kernel_ok s ∧
    (bs ≠ [] → tiles P.BLOCK_META_SIZE s.maps s.heap_start bs s.brk) ∧
    (s.first_alloc = 0 → s.brk = s.heap_start)

/-- No two neighbours of a list of entries are both free. -/
def no_adj_free : List Blk → Prop
  | [] => True
  | [_] => True
  | a :: b :: l => ¬ (a.status = STATUS_FREE ∧ b.status = STATUS_FREE) ∧ no_adj_free (b :: l)

/-- What `find_best_free_block` makes of the entries `cl` of the coalesced
list, by the branch it takes: the entry `c` it found, split when it is larger
than the request and a header; the last entry `z` grown to the request; a new
last entry at the program break `brk`. -/
def served (hs size brk b : Nat) (cl bs' : List Blk) : Prop :=
  (∃ pre c post, cl = pre ++ c :: post ∧ c.addr = b ∧ c.status = STATUS_FREE ∧
      size ≤ c.size ∧ c.size < INT_MAX ∧
      bs' = pre ++ (if size + hs < c.size then
          [{ addr := c.addr, size := size, status := STATUS_ALLOC },
           { addr := c.addr + (size + hs), size := c.size - (size + hs), status := STATUS_FREE }]
        else [{ c with status := STATUS_ALLOC }]) ++ post) ∨
  (search_list size cl INT_MAX 0 = 0 ∧ ∃ init z, cl = init ++ [z] ∧
      z.status = STATUS_FREE ∧ b = z.addr ∧
      bs' = init ++ [{ addr := z.addr, size := size, status := STATUS_ALLOC }]) ∨
  (search_list size cl INT_MAX 0 = 0 ∧ ∃ init z, cl = init ++ [z] ∧
      z.status ≠ STATUS_FREE ∧ b = brk ∧ brk ∉ addrs cl ∧
      bs' = cl ++ [{ addr := brk, size := size, status := STATUS_ALLOC }])

/-- What a call of `os_malloc` that returned `p` for the aligned size `size`
leaves, from a well-formed state with entries `bs`: a well-formed state with
entries `bs'`; statuses change on the list only; with the latch set, the
entries that are not free are still there and `p` is the payload of none of
them; the latch stays clear only if the list holds mappings only; `p` is the
payload of an entry that is allocated or mapped and large enough. -/
def Grown (P : Platform) (s : State) (bs : List Blk) (s' : State) (bs' : List Blk)
    (p size : Nat) : Prop :=
  Wf P s' bs' ∧
  (∀ x, x ∉ addrs bs' → (s'.mem x).status = (s.mem x).status) ∧
  (s.first_alloc ≠ 0 → s'.first_alloc ≠ 0 ∧
    ∀ c ∈ bs, c.status ≠ STATUS_FREE → c ∈ bs' ∧ c.addr + P.BLOCK_META_SIZE ≠ p) ∧
  (s'.first_alloc = 0 → s.first_alloc = 0 ∧ ∀ b ∈ bs', b.status = STATUS_MAPPED) ∧
  s'.current_threshold = s.current_threshold ∧ s'.heap_start = s.heap_start ∧
  ∃ b ∈ bs', p = b.addr + P.BLOCK_META_SIZE ∧
    (b.status = STATUS_ALLOC ∨ b.status = STATUS_MAPPED) ∧ size ≤ b.size

/-! ## States reached through requests that fit a `size_t` -/

/-- A request whose aligned size and the aligned header size add up inside a
`size_t`. -/
def fits (P : Platform) : Nat → Prop :=
  fun n => ALIGN n + ALIGN P.BLOCK_META_SIZE < WORD

/-- The invariant of a state and of the pointers a client holds in it: the
state is well-formed; each pointer is the payload of a header, and a header of
it that is marked allocated is on the list unless the list is empty; no header
of it is marked allocated while the latch is clear. -/
def Sound (P : Platform) (s : State) (live : List Nat) : Prop :=
  ∃ bs, Wf P s bs ∧
    (∀ p ∈ live, P.BLOCK_META_SIZE ≤ p ∧
      ((s.mem (p - P.BLOCK_META_SIZE)).status = STATUS_ALLOC →
        bs = [] ∨ p - P.BLOCK_META_SIZE ∈ addrs bs)) ∧
    (s.first_alloc = 0 →
      ∀ p ∈ live, (s.mem (p - P.BLOCK_META_SIZE)).status ≠ STATUS_ALLOC)

/-! ## Scenario states -/

/-- The state after `os_malloc(100)` twice from `start`; the calls returned
`65568` and `65704`. -/
def two_blocks : State :=
  state_of (os_malloc linux64 4 0 (state_of (os_malloc linux64 2 0 start 100)) 100)

/-- The state after `os_malloc(8)` and `os_malloc(SIZE_MAX - 31)` from `start`;
the calls returned `65568` and `65608`. -/
def wrapped : State :=
  state_of (os_malloc linux64 4 0 (state_of (os_malloc linux64 2 0 start 8)) (WORD - 32))

/-- The state after `os_malloc(SIZE_MAX - 31)` from `start`; the call returned
`65568` and took the program break back to `65536`. -/
def shrunk : State := state_of (os_malloc linux64 3 0 start (WORD - 32))

/-- The state after `os_malloc(8)`, which returned `65568`, and `os_free` of
that pointer, from `shrunk`. -/
def looped : State :=
  freed (os_free linux64 (state_of (os_malloc linux64 3 0 shrunk 8)) 65568)

/-- The state after `p1 = os_malloc(100)`, `p2 = os_malloc(200)`,
`os_free(p1)`, `os_free(p2)` from `start`, with `p1 = 65568` and
`p2 = 65704`. -/
def two_freed : State :=
  freed (os_free linux64 (freed (os_free linux64
    (state_of (os_malloc linux64 4 0 (state_of (os_malloc linux64 3 0 start 100)) 200))
    65568)) 65704)

/-- The state after `os_malloc(200000)` from `start`, mapped at `117440512`;
the call returned `117440544`. -/
def one_mapping : State := state_of (os_malloc linux64 2 117440512 start 200000)

/-- The state after a second `os_malloc(200000)`, mapped at `134217728`; the
call returned `134217760`. -/
def two_mappings : State := state_of (os_malloc linux64 2 134217728 one_mapping 200000)

/-- The state after `os_malloc(8)`, `p = os_malloc(200000)` mapped at
`117440512`, and `os_free(p)`, from `start`; the calls returned `65568` and
`p = 117440544`. -/
def wiped : State :=
  freed (os_free linux64 (state_of (os_malloc linux64 4 117440512
    (state_of (os_malloc linux64 3 0 start 8)) 200000)) 117440544)

/-- A heap of `16385 * 131072` bytes that is one free block, as the search of
`find_best_free_block` meets it once `16385` blocks of `131040` bytes, all
freed, are coalesced. -/
def huge : State :=
  { mem := Function.update zero_mem 65536
      { size := 2147614688, status := STATUS_FREE, prev := 0, next := 0 },
    list := 65536, first_alloc := 1, current_threshold := MMAP_THRESHOLD,
    heap_start := 65536, brk := 2147680256, maps := [], log := [] }

/-- The state after `os_malloc(131040)`, which returned `65568`, and `os_free`
of that pointer, from `start`: the list is one free block of `131040`
bytes. -/
def one_free : State :=
  freed (os_free linux64 (state_of (os_malloc linux64 3 0 start 131040)) 65568)

/-- The state after `os_malloc(8)` from `shrunk`; the call returned `65568`
and put its block on the header at `65536`. -/
def knotted : State := state_of (os_malloc linux64 3 0 shrunk 8)

/-! ## Coalescing, as the spec defines it -/

/-- Whether an entry is free. -/
def is_free (b : Blk) : Bool := decide (b.status = STATUS_FREE)

/-- The reference definition of coalescing, in the words of the spec: every
maximal run of `k >= 1` list-adjacent free entries is replaced by a single
free entry at the run's first header, with size the sum of the run's sizes
plus `(k - 1) * hs`, and every other entry is kept.  The flag tells whether
the entry before the list is free: a free entry after a free one is inside a
run and goes, a free entry after any other starts a run, which is the free
entries that follow it. -/
def merge_runs_from (hs : Nat) : Bool → List Blk → List Blk
  | _, [] => []
  | inside, b :: l =>
    if b.status = STATUS_FREE then
      if inside then merge_runs_from hs true l
      else
        { addr := b.addr,
          size := b.size + ((l.takeWhile is_free).map Blk.size).sum
            + (l.takeWhile is_free).length * hs,
          status := STATUS_FREE } :: merge_runs_from hs true l
    else b :: merge_runs_from hs false l

/-- The reference definition of coalescing on a registry. -/
def merge_runs (hs : Nat) (bs : List Blk) : List Blk := merge_runs_from hs false bs

/-- The bytes a list of entries takes: each its payload and a header. -/
def footprint (hs : Nat) (bs : List Blk) : Nat := (bs.map fun b => b.size + hs).sum

/-- The `prev` links of the entries `bs` are in order: each holds the header
before it, and the first holds `p`. -/
def Linked (m : Mem) : Nat → List Blk → Prop
  | _, [] => True
  | p, b :: l => (m b.addr).prev = p ∧ Linked m b.addr l

/-! ## The program break across a call -/

/-- From `s` to `s'` the program break did not go down, and the kernel calls
made are the log of `s` and then calls whose program-break adjustments are
non-negative when their argument is read as a signed word. -/
def grows (s s' : State) : Prop :=
  s.brk ≤ s'.brk ∧
    ∃ l, s'.log = s.log ++ l ∧ ∀ d, Syscall.sbrk d ∈ l → d < WORD / 2

/-! ## Reading a header after an assignment -/

@[simp] theorem set_size_size (m : Mem) (a v x : Nat) :
    (set_size m a v x).size = if x = a then v else (m x).size := by
  by_cases h : x = a <;> simp [set_size, Function.update, h]

@[simp] theorem set_size_status (m : Mem) (a v x : Nat) :
    (set_size m a v x).status = (m x).status := by
  by_cases h : x = a <;> simp [set_size, Function.update, h]

@[simp] theorem set_size_prev (m : Mem) (a v x : Nat) :
    (set_size m a v x).prev = (m x).prev := by
  by_cases h : x = a <;> simp [set_size, Function.update, h]

@[simp] theorem set_size_next (m : Mem) (a v x : Nat) :
    (set_size m a v x).next = (m x).next := by
  by_cases h : x = a <;> simp [set_size, Function.update, h]

@[simp] theorem set_status_size (m : Mem) (a : Nat) (v : Status) (x : Nat) :
    (set_status m a v x).size = (m x).size := by
  by_cases h : x = a <;> simp [set_status, Function.update, h]

@[simp] theorem set_status_status (m : Mem) (a : Nat) (v : Status) (x : Nat) :
    (set_status m a v x).status = if x = a then v else (m x).status := by
  by_cases h : x = a <;> simp [set_status, Function.update, h]

@[simp] theorem set_status_prev (m : Mem) (a : Nat) (v : Status) (x : Nat) :
    (set_status m a v x).prev = (m x).prev := by
  by_cases h : x = a <;> simp [set_status, Function.update, h]

@[simp] theorem set_status_next (m : Mem) (a : Nat) (v : Status) (x : Nat) :
    (set_status m a v x).next = (m x).next := by
  by_cases h : x = a <;> simp [set_status, Function.update, h]

@[simp] theorem set_prev_size (m : Mem) (a v x : Nat) :
    (set_prev m a v x).size = (m x).size := by
  by_cases h : x = a <;> simp [set_prev, Function.update, h]

@[simp] theorem set_prev_status (m : Mem) (a v x : Nat) :
    (set_prev m a v x).status = (m x).status := by
  by_cases h : x = a <;> simp [set_prev, Function.update, h]

@[simp] theorem set_prev_prev (m : Mem) (a v x : Nat) :
    (set_prev m a v x).prev = if x = a then v else (m x).prev := by
  by_cases h : x = a <;> simp [set_prev, Function.update, h]

@[simp] theorem set_prev_next (m : Mem) (a v x : Nat) :
    (set_prev m a v x).next = (m x).next := by
  by_cases h : x = a <;> simp [set_prev, Function.update, h]

@[simp] theorem set_next_size (m : Mem) (a v x : Nat) :
    (set_next m a v x).size = (m x).size := by
  by_cases h : x = a <;> simp [set_next, Function.update, h]

@[simp] theorem set_next_status (m : Mem) (a v x : Nat) :
    (set_next m a v x).status = (m x).status := by
  by_cases h : x = a <;> simp [set_next, Function.update, h]

@[simp] theorem set_next_prev (m : Mem) (a v x : Nat) :
    (set_next m a v x).prev = (m x).prev := by
  by_cases h : x = a <;> simp [set_next, Function.update, h]

@[simp] theorem set_next_next (m : Mem) (a v x : Nat) :
    (set_next m a v x).next = if x = a then v else (m x).next := by
  by_cases h : x = a <;> simp [set_next, Function.update, h]

theorem set_size_other (m : Mem) (a v x : Nat) (h : x ≠ a) : set_size m a v x = m x := by
  simp [set_size, Function.update, h]

theorem set_status_other (m : Mem) (a : Nat) (v : Status) (x : Nat) (h : x ≠ a) :
    set_status m a v x = m x := by
  simp [set_status, Function.update, h]

theorem set_prev_other (m : Mem) (a v x : Nat) (h : x ≠ a) : set_prev m a v x = m x := by
  simp [set_prev, Function.update, h]

theorem set_next_other (m : Mem) (a v x : Nat) (h : x ≠ a) : set_next m a v x = m x := by
  simp [set_next, Function.update, h]

/-- Two headers with the same four fields are the same header. -/
theorem block_meta_ext (b c : block_meta) (h1 : b.size = c.size) (h2 : b.status = c.status)
    (h3 : b.prev = c.prev) (h4 : b.next = c.next) : b = c := by
  cases b; cases c; simp_all

/-! ## Machine arithmetic -/

theorem ALIGN_mod (n : Nat) : ALIGN n % 8 = 0 := by
  unfold ALIGN ALIGNMENT WORD; omega

theorem ALIGN_lt (n : Nat) : ALIGN n < WORD := by
  unfold ALIGN ALIGNMENT WORD; omega

theorem le_ALIGN (n : Nat) (h : n + 7 < WORD) : n ≤ ALIGN n := by
  unfold ALIGN ALIGNMENT; unfold WORD at *; omega

theorem ALIGN_lt_add (n : Nat) (h : n + 7 < WORD) : ALIGN n < n + 8 := by
  unfold ALIGN ALIGNMENT; unfold WORD at *; omega

theorem ALIGN_of_mod (n : Nat) (h : n % 8 = 0) (hn : n < WORD) : ALIGN n = n := by
  unfold ALIGN ALIGNMENT; unfold WORD at *; omega

theorem wadd_wsub (a b : Nat) : wadd a (wsub b a) = b % WORD := by
  unfold wadd wsub WORD; omega

theorem wadd_of_lt (a b : Nat) (h : a + b < WORD) : wadd a b = a + b := by
  unfold wadd; exact Nat.mod_eq_of_lt h

theorem wsub_of_le (a b : Nat) (h : b ≤ a) (ha : a < WORD) : wsub a b = a - b := by
  unfold wsub; unfold WORD at *; omega

theorem wadd_lt (a b : Nat) : wadd a b < WORD := by
  unfold wadd WORD; omega

/-! ## Sequencing -/

theorem Outcome.bind_eq_ok {α β : Type} (x : Outcome α) (f : α → Outcome β) (b : β) :
    x.bind f = Outcome.ok b ↔ ∃ a, x = Outcome.ok a ∧ f a = Outcome.ok b := by
  cases x <;> simp [Outcome.bind]

@[simp] theorem Outcome.bind_ok {α β : Type} (a : α) (f : α → Outcome β) :
    (Outcome.ok a).bind f = f a := rfl

theorem or_die_eq_ok {α : Type} (r : Option α) (a : α) :
    or_die r = Outcome.ok a ↔ r = some a := by
  cases r <;> simp [or_die]

@[simp] theorem or_die_some {α : Type} (a : α) : or_die (some a) = Outcome.ok a := rfl

/-! ## What the loops of `find_best_free_block` return -/

theorem search_loop_fits (fuel : Nat) (m : Mem) (size : Nat) :
    ∀ (current min_size best_block r : Nat),
      search_loop fuel m size current min_size best_block = Outcome.ok r →
      (best_block = 0 ∨ ((m best_block).status = STATUS_FREE ∧ size ≤ (m best_block).size)) →
      (r = 0 ∨ ((m r).status = STATUS_FREE ∧ size ≤ (m r).size)) := by
  induction fuel with
  | zero => intro c mn b r h; simp [search_loop] at h
  | succ n ih =>
    intro c mn b r h hb
    unfold search_loop at h
    by_cases hc : c = 0
    · simp [hc] at h; subst h; exact hb
    · simp only [hc, if_false] at h
      split at h
      · rename_i hcond
        exact ih _ _ _ _ h (Or.inr ⟨hcond.1, hcond.2.1⟩)
      · exact ih _ _ _ _ h hb

theorem last_loop_ne_zero (fuel : Nat) (m : Mem) :
    ∀ (last r : Nat), last_loop fuel m last = Outcome.ok r → last ≠ 0 → r ≠ 0 := by
  induction fuel with
  | zero => intro l r h; simp [last_loop] at h
  | succ n ih =>
    intro l r h hl
    unfold last_loop at h
    split at h
    · rename_i hn; exact ih _ _ h hn
    · simp at h; subst h; exact hl

theorem split_block_size (m : Mem) (block total_size size : Nat) :
    (split_block m block total_size size block).size = size := by
  simp [split_block]

theorem coalesce_blocks_ok (P : Platform) (fuel : Nat) (s s1 : State)
    (h : coalesce_blocks P fuel s = Outcome.ok s1) :
    ∃ m, coalesce_loop P fuel s.mem s.list = Outcome.ok m ∧ s1 = { s with mem := m } := by
  unfold coalesce_blocks at h
  rw [Outcome.bind_eq_ok] at h
  obtain ⟨m, hm, h⟩ := h
  simp at h
  exact ⟨m, hm, h.symm⟩

/-- The block returned by the heap extension is not null, is marked
allocated and has the requested size. -/
theorem extend_heap_header (P : Platform) (fuel : Nat) (s s' : State) (size b : Nat)
    (hsize : size < WORD)
    (h : extend_heap P fuel s size = Outcome.ok (s', b)) :
    b ≠ 0 ∧ (s'.mem b).status = STATUS_ALLOC ∧ (s'.mem b).size = size := by
  unfold extend_heap at h
  by_cases hl : s.list = 0
  · simp [hl] at h
  · simp only [hl, if_false] at h
    rw [Outcome.bind_eq_ok] at h
    obtain ⟨last, hlast, h⟩ := h
    have hlast0 := last_loop_ne_zero _ _ _ _ hlast hl
    split at h
    · rw [Outcome.bind_eq_ok] at h
      obtain ⟨r, _, h⟩ := h
      simp at h
      obtain ⟨h1, h2⟩ := h
      subst h1 h2
      simp [wadd_wsub, Nat.mod_eq_of_lt hsize, hlast0]
    · rw [Outcome.bind_eq_ok] at h
      obtain ⟨r, _, h⟩ := h
      by_cases hnb : r.2 = 0
      · simp [hnb] at h
      · simp only [hnb, if_false] at h
        simp at h
        obtain ⟨h1, h2⟩ := h
        subst h1 h2
        simp [hnb]

/-- The block returned by `find_best_free_block` is not null, is marked
allocated and is at least as large as the request. -/
theorem find_best_free_block_header (P : Platform) (fuel : Nat) (s s' : State) (size b : Nat)
    (hsize : size < WORD)
    (h : find_best_free_block P fuel s size = Outcome.ok (s', b)) :
    b ≠ 0 ∧ (s'.mem b).status = STATUS_ALLOC ∧ size ≤ (s'.mem b).size := by
  unfold find_best_free_block at h
  rw [Outcome.bind_eq_ok] at h
  obtain ⟨s1, hc, h⟩ := h
  rw [Outcome.bind_eq_ok] at h
  obtain ⟨best, hs, h⟩ := h
  have hfit := search_loop_fits fuel s1.mem size _ _ _ _ hs (Or.inl rfl)
  by_cases hb : best = 0
  · simp only [hb, ne_eq, not_true_eq_false, false_and, if_false] at h
    obtain ⟨h1, h2, h3⟩ := extend_heap_header P fuel _ _ _ _ hsize h
    exact ⟨h1, h2, le_of_eq h3.symm⟩
  · simp only [hb, ne_eq, not_false_eq_true, true_and, if_true] at h
    simp at h
    obtain ⟨h1, h2⟩ := h
    subst h1 h2
    refine ⟨hb, by simp, ?_⟩
    rcases hfit with h0 | ⟨_, hge⟩
    · exact absurd h0 hb
    · simp only [set_status_size]
      split
      · rw [split_block_size]
      · exact hge

/-! ## What the kernel calls leave alone -/

theorem sbrk_spec (s : State) (increment : Nat) (r : State × Nat)
    (h : sbrk s increment = some r) :
    r.2 = s.brk ∧
      r.1 = { s with brk := r.1.brk, log := s.log ++ [Syscall.sbrk (increment % WORD)] } := by
  unfold sbrk at h
  simp only at h
  split at h
  · split at h
    · simp at h; subst h; simp
    · simp at h
  · split at h
    · simp at h; subst h; simp
    · simp at h

theorem mmap_spec (P : Platform) (s : State) (length addr : Nat) (r : State × Nat)
    (h : mmap P s length addr = some r) :
    r.2 = addr ∧ addr ≠ 0 ∧
      r.1 = { s with maps := (addr, length) :: s.maps,
                     log := s.log ++ [Syscall.mmap length addr] } := by
  unfold mmap at h
  split at h
  · rename_i hc
    simp at h; subst h
    exact ⟨rfl, hc.1, rfl⟩
  · simp at h

/-- The search of `add_mapped_elem` writes links only, and makes no kernel
call. -/
theorem add_mapped_elem_spec (fuel : Nat) (s s2 : State) (new_block : Nat)
    (h : add_mapped_elem fuel s new_block = Outcome.ok s2) :
    (∀ x, (s2.mem x).size = (s.mem x).size ∧ (s2.mem x).status = (s.mem x).status) ∧
      s2.first_alloc = s.first_alloc ∧ s2.current_threshold = s.current_threshold ∧
      s2.heap_start = s.heap_start ∧ s2.brk = s.brk ∧ s2.maps = s.maps ∧ s2.log = s.log := by
  unfold add_mapped_elem at h
  split at h
  · simp at h
  · split at h
    · simp at h; subst h; simp
    · rw [Outcome.bind_eq_ok] at h
      obtain ⟨last, _, h⟩ := h
      split at h
      · simp at h
      · simp at h; subst h; simp

/-- The mapping branch of `os_malloc`: the header it returns, and its one
kernel call. -/
theorem map_block_spec (P : Platform) (fuel at_addr : Nat) (s s' : State)
    (size total_size p : Nat)
    (h : map_block P fuel at_addr s size total_size = Outcome.ok (s', p)) :
    p = at_addr + P.BLOCK_META_SIZE ∧ at_addr ≠ 0 ∧
      (s'.mem at_addr).status = STATUS_MAPPED ∧ (s'.mem at_addr).size = size ∧
      s'.brk = s.brk ∧ s'.heap_start = s.heap_start ∧
      s'.first_alloc = s.first_alloc ∧ s'.current_threshold = s.current_threshold ∧
      s'.maps = (at_addr, total_size) :: s.maps ∧
      s'.log = s.log ++ [Syscall.mmap total_size at_addr] := by
  unfold map_block at h
  rw [Outcome.bind_eq_ok] at h
  obtain ⟨r, hr, h⟩ := h
  rw [or_die_eq_ok] at hr
  obtain ⟨hr2, hne, hr1⟩ := mmap_spec P s total_size at_addr r hr
  simp only [hr2, hne, if_false] at h
  rw [Outcome.bind_eq_ok] at h
  obtain ⟨s2, hadd, h⟩ := h
  simp at h
  obtain ⟨h1, h2⟩ := h
  subst h1 h2
  obtain ⟨hmem, h3, h4, h5, h6, h7, h8⟩ := add_mapped_elem_spec _ _ _ _ hadd
  rw [hr1] at h3 h4 h5 h6 h7 h8
  simp only at h3 h4 h5 h6 h7 h8
  refine ⟨rfl, hne, ?_, ?_, h6, h5, h3, h4, h7, h8⟩
  · rw [(hmem at_addr).2]; simp
  · rw [(hmem at_addr).1]; simp

/-! ## The headers after a split -/

theorem split_block_size_eq (m : Mem) (block T size x : Nat) (hT : T ≠ 0) :
    (split_block m block T size x).size =
      if x = block then size else if x = block + T then (m block).size - T
      else (m x).size := by
  have h1 : block ≠ block + T := by omega
  unfold split_block
  by_cases hn : (m block).next = 0 <;> simp [h1, hn]

theorem split_block_status_eq (m : Mem) (block T size x : Nat) (hT : T ≠ 0) :
    (split_block m block T size x).status =
      if x = block + T then STATUS_FREE else (m x).status := by
  have h1 : block ≠ block + T := by omega
  unfold split_block
  by_cases hn : (m block).next = 0 <;> simp [h1, hn]

theorem split_block_next_eq (m : Mem) (block T size x : Nat) (hT : T ≠ 0) :
    (split_block m block T size x).next =
      if x = block then block + T else if x = block + T then (m block).next
      else (m x).next := by
  have h1 : block ≠ block + T := by omega
  unfold split_block
  by_cases hn : (m block).next = 0 <;> simp [h1, hn]

theorem split_block_prev_eq (m : Mem) (block T size x : Nat) (hT : T ≠ 0) :
    (split_block m block T size x).prev =
      if x = (m block).next ∧ (m block).next ≠ 0 then block + T
      else if x = block + T then block else (m x).prev := by
  have h1 : block ≠ block + T := by omega
  unfold split_block
  by_cases hn : (m block).next = 0
  · simp [h1, hn]
  · simp [h1, hn]


/-! ## Kernel calls of the heap path -/

theorem extend_heap_kernel (P : Platform) (fuel : Nat) (s s' : State) (size b : Nat)
    (h : extend_heap P fuel s size = Outcome.ok (s', b)) :
    s'.list = s.list ∧ s'.first_alloc = s.first_alloc ∧
      s'.current_threshold = s.current_threshold ∧ s'.heap_start = s.heap_start ∧
      s'.maps = s.maps ∧ ∃ d, s'.log = s.log ++ [Syscall.sbrk d] := by
  unfold extend_heap at h
  split at h
  · simp at h
  · rw [Outcome.bind_eq_ok] at h
    obtain ⟨last, _, h⟩ := h
    split at h
    · rw [Outcome.bind_eq_ok] at h
      obtain ⟨r, hr, h⟩ := h
      rw [or_die_eq_ok] at hr
      obtain ⟨_, hr1⟩ := sbrk_spec _ _ _ hr
      simp at h
      obtain ⟨h1, _⟩ := h
      subst h1
      rw [hr1]
      exact ⟨rfl, rfl, rfl, rfl, rfl, _, rfl⟩
    · rw [Outcome.bind_eq_ok] at h
      obtain ⟨r, hr, h⟩ := h
      rw [or_die_eq_ok] at hr
      obtain ⟨_, hr1⟩ := sbrk_spec _ _ _ hr
      by_cases hnb : r.2 = 0
      · simp [hnb] at h
      · simp [hnb] at h
        obtain ⟨h1, _⟩ := h
        subst h1
        rw [hr1]
        exact ⟨rfl, rfl, rfl, rfl, rfl, _, rfl⟩

theorem find_best_free_block_kernel (P : Platform) (fuel : Nat) (s s' : State) (size b : Nat)
    (h : find_best_free_block P fuel s size = Outcome.ok (s', b)) :
    s'.list = s.list ∧ s'.first_alloc = s.first_alloc ∧
      s'.current_threshold = s.current_threshold ∧ s'.heap_start = s.heap_start ∧
      s'.maps = s.maps ∧ ∃ l, s'.log = s.log ++ l ∧ only_sbrk l := by
  unfold find_best_free_block at h
  rw [Outcome.bind_eq_ok] at h
  obtain ⟨s1, hc, h⟩ := h
  obtain ⟨m, _, hs1⟩ := coalesce_blocks_ok _ _ _ _ hc
  rw [Outcome.bind_eq_ok] at h
  obtain ⟨best, _, h⟩ := h
  simp only at h
  split at h
  · simp at h
    obtain ⟨h1, _⟩ := h
    subst h1 hs1
    exact ⟨rfl, rfl, rfl, rfl, rfl, [], by simp, by simp [only_sbrk]⟩
  · obtain ⟨h1, h2, h3, h4, h5, d, h6⟩ := extend_heap_kernel _ _ _ _ _ _ h
    subst hs1
    simp only at h1 h2 h3 h4 h5 h6
    refine ⟨h1, h2, h3, h4, h5, [Syscall.sbrk d], h6, ?_⟩
    intro c hcm
    simp at hcm
    exact ⟨d, hcm⟩

theorem heap_prelude_kernel (P : Platform) (s s1 : State)
    (h : heap_prelude P s = Outcome.ok s1) :
    s1.current_threshold = s.current_threshold ∧ s1.heap_start = s.heap_start ∧
      s1.maps = s.maps ∧ ∃ l, s1.log = s.log ++ l ∧ only_sbrk l := by
  unfold heap_prelude at h
  split at h
  · rw [Outcome.bind_eq_ok] at h
    obtain ⟨r, hr, h⟩ := h
    rw [or_die_eq_ok] at hr
    obtain ⟨_, hr1⟩ := sbrk_spec _ _ _ hr
    by_cases hnb : r.2 = 0
    · simp [hnb] at h
    · simp [hnb] at h
      subst h
      rw [hr1]
      refine ⟨rfl, rfl, rfl, [Syscall.sbrk (MMAP_THRESHOLD % WORD)], rfl, ?_⟩
      intro c hcm
      simp at hcm
      exact ⟨_, hcm⟩
  · simp at h
    subst h
    exact ⟨rfl, rfl, rfl, [], by simp, by simp [only_sbrk]⟩

/-- The heap branch of `os_malloc`: the header it returns, and its kernel
calls. -/
theorem heap_branch_spec (P : Platform) (fuel : Nat) (s s' : State) (size p : Nat)
    (hsize : size < WORD)
    (h : ((heap_prelude P s).bind fun s1 =>
        (find_best_free_block P fuel s1 size).bind fun r =>
          Outcome.ok (r.1, r.2 + P.BLOCK_META_SIZE)) = Outcome.ok (s', p)) :
    ∃ b, p = b + P.BLOCK_META_SIZE ∧ b ≠ 0 ∧
      (s'.mem b).status = STATUS_ALLOC ∧ size ≤ (s'.mem b).size ∧
      s'.current_threshold = s.current_threshold ∧ s'.heap_start = s.heap_start ∧
      s'.maps = s.maps ∧ ∃ l, s'.log = s.log ++ l ∧ only_sbrk l := by
  rw [Outcome.bind_eq_ok] at h
  obtain ⟨s1, hpre, h⟩ := h
  rw [Outcome.bind_eq_ok] at h
  obtain ⟨r, hfind, h⟩ := h
  simp at h
  obtain ⟨h1, h2⟩ := h
  subst h1 h2
  obtain ⟨hb0, hst, hsz⟩ := find_best_free_block_header P fuel s1 r.1 size r.2 hsize hfind
  obtain ⟨_, _, k3, k4, k5, l2, k6, k7⟩ := find_best_free_block_kernel P fuel s1 r.1 size r.2 hfind
  obtain ⟨q3, q4, q5, l1, q6, q7⟩ := heap_prelude_kernel P s s1 hpre
  refine ⟨r.2, rfl, hb0, hst, hsz, k3.trans q3, k4.trans q4, k5.trans q5, l1 ++ l2, ?_, ?_⟩
  · rw [k6, q6, List.append_assoc]
  · intro c hcm
    rcases List.mem_append.mp hcm with hc1 | hc2
    · exact q7 c hc1
    · exact k7 c hc2

/-- The first heap allocation, from the state at process start: the prelude
is reserved, its block is split, and the pointer is just past the header at
the old program break (scenario S1 for any request that the prelude
holds). -/
theorem first_heap_malloc (P : Platform) (mem : Mem) (brk0 fuel at_addr requested : Nat)
    (hfuel : 2 ≤ fuel) (hbrk0 : brk0 ≠ 0) (hroom : brk0 + MMAP_THRESHOLD < WORD)
    (hal : P.BLOCK_META_SIZE % 8 = 0) (hpos : 0 < P.BLOCK_META_SIZE)
    (hreq : requested ≠ 0)
    (hfit : ALIGN requested + P.BLOCK_META_SIZE + P.BLOCK_META_SIZE < MMAP_THRESHOLD) :
    ∃ s1, os_malloc P fuel at_addr (initial mem brk0) requested
        = Outcome.ok (s1, brk0 + P.BLOCK_META_SIZE) ∧
      s1.list = brk0 ∧ s1.brk = brk0 + MMAP_THRESHOLD ∧
      s1.first_alloc = 1 ∧ s1.current_threshold = MMAP_THRESHOLD ∧
      s1.maps = [] ∧ s1.heap_start = brk0 ∧
      (s1.mem brk0).size = ALIGN requested ∧ (s1.mem brk0).status = STATUS_ALLOC ∧
      (s1.mem brk0).next = brk0 + (ALIGN requested + P.BLOCK_META_SIZE) ∧
      (s1.mem (brk0 + (ALIGN requested + P.BLOCK_META_SIZE))).size
        = MMAP_THRESHOLD - P.BLOCK_META_SIZE - (ALIGN requested + P.BLOCK_META_SIZE) ∧
      (s1.mem (brk0 + (ALIGN requested + P.BLOCK_META_SIZE))).status = STATUS_FREE ∧
      (s1.mem (brk0 + (ALIGN requested + P.BLOCK_META_SIZE))).next = 0 := by
  obtain ⟨n, rfl⟩ : ∃ n, fuel = n + 2 := ⟨fuel - 2, by omega⟩
  have hthr : MMAP_THRESHOLD = 131072 := by decide
  have hW : WORD = 18446744073709551616 := rfl
  have hIM : INT_MAX = 2147483647 := rfl
  have hA : ALIGN P.BLOCK_META_SIZE = P.BLOCK_META_SIZE := ALIGN_of_mod _ hal (by omega)
  have h1 : wadd (ALIGN requested) P.BLOCK_META_SIZE = ALIGN requested + P.BLOCK_META_SIZE :=
    wadd_of_lt _ _ (by omega)
  have h2 : wsub MMAP_THRESHOLD P.BLOCK_META_SIZE = MMAP_THRESHOLD - P.BLOCK_META_SIZE :=
    wsub_of_le _ _ (by omega) (by omega)
  have h3 : ¬ (ALIGN requested + P.BLOCK_META_SIZE > MMAP_THRESHOLD) := by omega
  have h4 : MMAP_THRESHOLD % WORD = MMAP_THRESHOLD := Nat.mod_eq_of_lt (by omega)
  have h5 : MMAP_THRESHOLD < WORD / 2 := by decide
  have hT0 : ALIGN requested + P.BLOCK_META_SIZE ≠ 0 := by omega
  have h6 : ¬ (brk0 + (ALIGN requested + P.BLOCK_META_SIZE) = brk0) := by omega
  have h7 : ALIGN requested ≤ MMAP_THRESHOLD - P.BLOCK_META_SIZE := by omega
  have h8 : MMAP_THRESHOLD - P.BLOCK_META_SIZE < INT_MAX := by omega
  have h9 : ALIGN requested + P.BLOCK_META_SIZE < MMAP_THRESHOLD - P.BLOCK_META_SIZE := by omega
  refine ⟨{ initial mem brk0 with
      mem := set_status (split_block (set_prev (set_next (set_size (set_status mem brk0
        STATUS_FREE) brk0 (MMAP_THRESHOLD - P.BLOCK_META_SIZE)) brk0 0) brk0 0) brk0
        (ALIGN requested + P.BLOCK_META_SIZE) (ALIGN requested)) brk0 STATUS_ALLOC,
      list := brk0, first_alloc := 1, brk := brk0 + MMAP_THRESHOLD,
      log := [Syscall.sbrk MMAP_THRESHOLD] }, ?_, ?_⟩
  · simp [os_malloc, hreq, hA, h1, h3, heap_prelude, initial, sbrk, h4, h5, hroom, hbrk0, h2,
      find_best_free_block, coalesce_blocks, coalesce_loop, search_loop, h7, h8, h9]
  · simp [initial, split_block_size_eq _ _ _ _ _ hT0, split_block_status_eq _ _ _ _ _ hT0,
      split_block_next_eq _ _ _ _ _ hT0, h6]

/-- The two branches of `os_malloc`, by what they leave behind. -/
theorem os_malloc_route_spec (P : Platform) (fuel at_addr : Nat) (s s' : State)
    (requested p : Nat) (hreq : requested ≠ 0)
    (h : os_malloc P fuel at_addr s requested = Outcome.ok (s', p)) :
    (s.current_threshold < wadd (ALIGN requested) (ALIGN P.BLOCK_META_SIZE) →
        (s'.mem (p - P.BLOCK_META_SIZE)).status = STATUS_MAPPED ∧
        (s'.mem (p - P.BLOCK_META_SIZE)).size = ALIGN requested ∧
        s'.brk = s.brk ∧
        s'.log = s.log ++
          [Syscall.mmap (wadd (ALIGN requested) (ALIGN P.BLOCK_META_SIZE)) at_addr]) ∧
      (wadd (ALIGN requested) (ALIGN P.BLOCK_META_SIZE) ≤ s.current_threshold →
        (s'.mem (p - P.BLOCK_META_SIZE)).status = STATUS_ALLOC ∧
        s'.maps = s.maps ∧ ∃ l, s'.log = s.log ++ l ∧ only_sbrk l) ∧
      ((s'.mem (p - P.BLOCK_META_SIZE)).status = STATUS_MAPPED ↔
        s.current_threshold < wadd (ALIGN requested) (ALIGN P.BLOCK_META_SIZE)) ∧
      (s.current_threshold = MMAP_THRESHOLD →
        wadd (ALIGN requested) (ALIGN P.BLOCK_META_SIZE) = MMAP_THRESHOLD →
        (s'.mem (p - P.BLOCK_META_SIZE)).status = STATUS_ALLOC ∧ s'.maps = s.maps) := by
  unfold os_malloc at h
  simp only [hreq, if_false] at h
  by_cases hT : wadd (ALIGN requested) (ALIGN P.BLOCK_META_SIZE) > s.current_threshold
  · simp only [hT, if_true] at h
    obtain ⟨h1, _, h3, h4, h5, _, _, _, _, h10⟩ := map_block_spec _ _ _ _ _ _ _ _ h
    subst h1
    simp only [Nat.add_sub_cancel]
    refine ⟨fun _ => ⟨h3, h4, h5, h10⟩, fun hle => absurd hT (by omega), ?_, ?_⟩
    · exact ⟨fun _ => hT, fun _ => h3⟩
    · intro e1 e2; omega
  · simp only [hT, if_false] at h
    obtain ⟨b, h1, _, h3, _, _, _, h7, h8⟩ := heap_branch_spec P fuel s s' _ p (ALIGN_lt _) h
    subst h1
    simp only [Nat.add_sub_cancel]
    refine ⟨fun hlt => absurd hlt hT, fun _ => ⟨h3, h7, h8⟩, ?_, fun _ _ => ⟨h3, h7⟩⟩
    constructor
    · intro hm; rw [h3] at hm; cases hm
    · intro hlt; exact absurd hlt hT

/-- C5: `os_free` on a pointer whose header is heap-allocated returns, marks
that header free and changes nothing else: the header keeps its size and both
links, every other header is as it was (nothing is coalesced), and the list
head, the first-allocation latch, the threshold, the program break, the
mappings and the record of kernel calls are unchanged. -/
theorem os_free_heap_frame (P : Platform) (s : State) (ptr : Nat)
    (hblock : ptr - P.BLOCK_META_SIZE ≠ 0)
    (hstatus : (s.mem (ptr - P.BLOCK_META_SIZE)).status = STATUS_ALLOC) :
    ∃ s', os_free P s ptr = Outcome.ok s' ∧
      (s'.mem (ptr - P.BLOCK_META_SIZE)).status = STATUS_FREE ∧
      (s'.mem (ptr - P.BLOCK_META_SIZE)).size = (s.mem (ptr - P.BLOCK_META_SIZE)).size ∧
      (s'.mem (ptr - P.BLOCK_META_SIZE)).prev = (s.mem (ptr - P.BLOCK_META_SIZE)).prev ∧
      (s'.mem (ptr - P.BLOCK_META_SIZE)).next = (s.mem (ptr - P.BLOCK_META_SIZE)).next ∧
      (∀ a, a ≠ ptr - P.BLOCK_META_SIZE → s'.mem a = s.mem a) ∧
      s'.list = s.list ∧ s'.first_alloc = s.first_alloc ∧
      s'.current_threshold = s.current_threshold ∧ s'.heap_start = s.heap_start ∧
      s'.brk = s.brk ∧ s'.maps = s.maps ∧ s'.log = s.log := by
  have hptr : ptr ≠ 0 := by omega
  refine ⟨{ s with mem := set_status s.mem (ptr - P.BLOCK_META_SIZE) STATUS_FREE }, ?_, ?_⟩
  · unfold os_free
    simp [hptr, hblock, hstatus]
  · simp only [set_status_status, set_status_size, set_status_prev, set_status_next, if_true]
    refine ⟨trivial, trivial, trivial, trivial, ?_, trivial, trivial, trivial, trivial, trivial,
      trivial, trivial⟩
    intro a ha
    exact set_status_other _ _ _ _ ha

theorem os_free_heap_frame_witness :
    65568 - linux64.BLOCK_META_SIZE ≠ 0 ∧
      ((state_of (os_malloc linux64 2 0 start 100)).mem
        (65568 - linux64.BLOCK_META_SIZE)).status = STATUS_ALLOC ∧
      ∃ s', os_free linux64 (state_of (os_malloc linux64 2 0 start 100)) 65568 = Outcome.ok s' ∧
        (s'.mem (65568 - linux64.BLOCK_META_SIZE)).status = STATUS_FREE ∧
        s'.brk = (state_of (os_malloc linux64 2 0 start 100)).brk :=
  ⟨by decide, by decide,
    match os_free_heap_frame linux64 (state_of (os_malloc linux64 2 0 start 100)) 65568
        (by decide) (by decide) with
    | ⟨s', h1, h2, _, _, _, _, _, _, _, _, h11, _⟩ => ⟨s', h1, h2, h11⟩⟩

/-- The in-place split of `os_realloc`, header by header. -/
theorem os_realloc_split_spec (P : Platform) (fuel at_addr : Nat) (s : State)
    (ptr new_requested : Nat)
    (hreq : new_requested ≠ 0)
    (hstride : 0 < ALIGN P.BLOCK_META_SIZE)
    (hblock : ptr - P.BLOCK_META_SIZE ≠ 0)
    (hstatus : (s.mem (ptr - P.BLOCK_META_SIZE)).status = STATUS_ALLOC)
    (hT : ALIGN new_requested + ALIGN P.BLOCK_META_SIZE < MMAP_THRESHOLD)
    (hold : ALIGN new_requested + ALIGN P.BLOCK_META_SIZE
      < (s.mem (ptr - P.BLOCK_META_SIZE)).size) :
    ∃ s', os_realloc P fuel at_addr s ptr new_requested = Outcome.ok (s', ptr) ∧
      (s'.mem (ptr - P.BLOCK_META_SIZE)).size = ALIGN new_requested ∧
      (s'.mem (ptr - P.BLOCK_META_SIZE)).status = STATUS_ALLOC ∧
      (s'.mem (ptr - P.BLOCK_META_SIZE)).next
        = ptr - P.BLOCK_META_SIZE + (ALIGN new_requested + ALIGN P.BLOCK_META_SIZE) ∧
      (s'.mem (ptr - P.BLOCK_META_SIZE
        + (ALIGN new_requested + ALIGN P.BLOCK_META_SIZE))).status = STATUS_FREE ∧
      (s'.mem (ptr - P.BLOCK_META_SIZE
        + (ALIGN new_requested + ALIGN P.BLOCK_META_SIZE))).size
        = (s.mem (ptr - P.BLOCK_META_SIZE)).size
          - (ALIGN new_requested + ALIGN P.BLOCK_META_SIZE) ∧
      (s'.mem (ptr - P.BLOCK_META_SIZE
        + (ALIGN new_requested + ALIGN P.BLOCK_META_SIZE))).next
        = (s.mem (ptr - P.BLOCK_META_SIZE)).next ∧
      ((s.mem (ptr - P.BLOCK_META_SIZE)).next ≠ 0 →
        (s'.mem (s.mem (ptr - P.BLOCK_META_SIZE)).next).prev
          = ptr - P.BLOCK_META_SIZE + (ALIGN new_requested + ALIGN P.BLOCK_META_SIZE)) ∧
      ((s.mem (ptr - P.BLOCK_META_SIZE)).next ≠ ptr - P.BLOCK_META_SIZE →
        (s'.mem (ptr - P.BLOCK_META_SIZE)).prev = (s.mem (ptr - P.BLOCK_META_SIZE)).prev) ∧
      ((s.mem (ptr - P.BLOCK_META_SIZE)).next
          ≠ ptr - P.BLOCK_META_SIZE + (ALIGN new_requested + ALIGN P.BLOCK_META_SIZE) →
        (s'.mem (ptr - P.BLOCK_META_SIZE
          + (ALIGN new_requested + ALIGN P.BLOCK_META_SIZE))).prev
          = ptr - P.BLOCK_META_SIZE) ∧
      (∀ a, a ≠ ptr - P.BLOCK_META_SIZE →
        a ≠ ptr - P.BLOCK_META_SIZE + (ALIGN new_requested + ALIGN P.BLOCK_META_SIZE) →
        (s'.mem a).size = (s.mem a).size ∧ (s'.mem a).status = (s.mem a).status ∧
        (s'.mem a).next = (s.mem a).next ∧
        (a ≠ (s.mem (ptr - P.BLOCK_META_SIZE)).next → s'.mem a = s.mem a)) ∧
      s'.list = s.list ∧ s'.first_alloc = s.first_alloc ∧
      s'.current_threshold = s.current_threshold ∧ s'.heap_start = s.heap_start ∧
      s'.brk = s.brk ∧ s'.maps = s.maps ∧ s'.log = s.log := by
  have hptr : ptr ≠ 0 := by omega
  have hback : ptr - P.BLOCK_META_SIZE + P.BLOCK_META_SIZE = ptr := by omega
  have hthr : MMAP_THRESHOLD < WORD := by decide
  have hsum : wadd (ALIGN new_requested) (ALIGN P.BLOCK_META_SIZE)
      = ALIGN new_requested + ALIGN P.BLOCK_META_SIZE := wadd_of_lt _ _ (by omega)
  generalize hH : ptr - P.BLOCK_META_SIZE = H at *
  generalize hTT : ALIGN new_requested + ALIGN P.BLOCK_META_SIZE = T at *
  have hne : H + T ≠ H := by omega
  have hne' : H ≠ H + T := by omega
  refine ⟨{ s with
    mem := set_status (split_block s.mem H T (ALIGN new_requested)) H STATUS_ALLOC }, ?_, ?_⟩
  · unfold os_realloc
    have h1 : ¬ ((s.mem H).size = ALIGN new_requested) := by omega
    have h2 : (s.mem H).size > ALIGN new_requested ∧ (s.mem H).size > T := by omega
    have h3 : ¬ (T ≥ MMAP_THRESHOLD) := by omega
    simp [hptr, hreq, hH, hblock, hstatus, hsum, h1, h2, h3, hback]
  · have hT0 : T ≠ 0 := by omega
    simp only [set_status_size, set_status_status, set_status_next, set_status_prev,
      split_block_size_eq _ _ _ _ _ hT0, split_block_status_eq _ _ _ _ _ hT0,
      split_block_next_eq _ _ _ _ _ hT0, split_block_prev_eq _ _ _ _ _ hT0, hne, hne',
      if_true, if_false]
    refine ⟨trivial, trivial, trivial, trivial, trivial, trivial, ?_, ?_, ?_, ?_, trivial, trivial,
      trivial, trivial, trivial, trivial, trivial⟩
    · intro hn
      simp [hn]
    · intro hn
      simp [Ne.symm hn]
    · intro hn
      simp [Ne.symm hn]
    · intro a ha1 ha2
      refine ⟨by simp [ha1, ha2], by simp [ha1, ha2], by simp [ha1, ha2], ?_⟩
      intro ha3
      apply block_meta_ext
      · simp [split_block_size_eq _ _ _ _ _ hT0, ha1, ha2]
      · simp [split_block_status_eq _ _ _ _ _ hT0, ha1, ha2]
      · simp [split_block_prev_eq _ _ _ _ _ hT0, ha1, ha2, ha3]
      · simp [split_block_next_eq _ _ _ _ _ hT0, ha1, ha2]

/-- C9, as the code has it (scenario S5): from the state at process start,
`p = os_malloc(500)` then `os_realloc(p, 100)` returns `p`, and the header
that follows the header of `p` on the list is free with size
`504 - 104 - BLOCK_META_SIZE`, where `504 = ALIGN(500)`; for any header size
that is a multiple of 8 below 400. -/
theorem scenario_resize_shrink (P : Platform) (mem : Mem) (brk0 fuel at_addr at_addr' : Nat)
    (hfuel : 2 ≤ fuel) (hbrk0 : brk0 ≠ 0) (hroom : brk0 + MMAP_THRESHOLD < WORD)
    (hal : P.BLOCK_META_SIZE % 8 = 0) (hpos : 0 < P.BLOCK_META_SIZE)
    (hsmall : P.BLOCK_META_SIZE < 400) :
    ∃ s1 s2, os_malloc P fuel at_addr (initial mem brk0) 500
          = Outcome.ok (s1, brk0 + P.BLOCK_META_SIZE) ∧
      os_realloc P fuel at_addr' s1 (brk0 + P.BLOCK_META_SIZE) 100
          = Outcome.ok (s2, brk0 + P.BLOCK_META_SIZE) ∧
      s2.list = brk0 ∧
      (s2.mem brk0).status = STATUS_ALLOC ∧ (s2.mem brk0).size = 104 ∧
      (s2.mem brk0).next = brk0 + (104 + P.BLOCK_META_SIZE) ∧
      (s2.mem (brk0 + (104 + P.BLOCK_META_SIZE))).status = STATUS_FREE ∧
      (s2.mem (brk0 + (104 + P.BLOCK_META_SIZE))).size = 504 - 104 - P.BLOCK_META_SIZE := by
  have hthr : MMAP_THRESHOLD = 131072 := by decide
  have hW : WORD = 18446744073709551616 := rfl
  have hA : ALIGN P.BLOCK_META_SIZE = P.BLOCK_META_SIZE := ALIGN_of_mod _ hal (by omega)
  have h500 : ALIGN 500 = 504 := by decide
  have h100 : ALIGN 100 = 104 := by decide
  obtain ⟨s1, e1, l1, _, _, _, _, _, z1, t1, _⟩ :=
    first_heap_malloc P mem brk0 fuel at_addr 500 hfuel hbrk0 hroom hal hpos (by decide)
      (by rw [h500]; omega)
  have hb : brk0 + P.BLOCK_META_SIZE - P.BLOCK_META_SIZE = brk0 := by omega
  obtain ⟨s2, e2, z2, t2, n2, t3, z3, _, _, _, _, _, l2, _⟩ :=
    os_realloc_split_spec P fuel at_addr' s1 (brk0 + P.BLOCK_META_SIZE) 100 (by decide)
      (by rw [hA]; exact hpos) (by rw [hb]; exact hbrk0) (by rw [hb]; exact t1)
      (by rw [hA, h100]; omega) (by rw [hb, z1, hA, h100, h500]; omega)
  simp only [hb, hA, h100] at z2 t2 n2 t3 z3
  refine ⟨s1, s2, e1, e2, l2.trans l1, t2, z2, n2, t3, ?_⟩
  rw [z3, z1, h500]
  omega

/-- C9 fails as stated: on a 64-bit Linux the free header that follows has
size 368, which is `504 - 104 - 32`, and not `500 - 104 - 32`. -/
theorem scenario_resize_shrink_payload :
    os_malloc linux64 2 0 start 500
        = Outcome.ok (state_of (os_malloc linux64 2 0 start 500), 65568) ∧
      os_realloc linux64 2 0 (state_of (os_malloc linux64 2 0 start 500)) 65568 100
        = Outcome.ok (state_of (os_realloc linux64 2 0
            (state_of (os_malloc linux64 2 0 start 500)) 65568 100), 65568) ∧
      ((state_of (os_realloc linux64 2 0
          (state_of (os_malloc linux64 2 0 start 500)) 65568 100)).mem
        (65568 - linux64.BLOCK_META_SIZE)).next = 65672 ∧
      ((state_of (os_realloc linux64 2 0
          (state_of (os_malloc linux64 2 0 start 500)) 65568 100)).mem 65672).status
        = STATUS_FREE ∧
      ((state_of (os_realloc linux64 2 0
          (state_of (os_malloc linux64 2 0 start 500)) 65568 100)).mem 65672).size = 368 ∧
      ((state_of (os_realloc linux64 2 0
          (state_of (os_malloc linux64 2 0 start 500)) 65568 100)).mem 65672).size
        ≠ 500 - 104 - linux64.BLOCK_META_SIZE :=
  ⟨rfl, rfl, by decide, by decide, by decide, by decide⟩

theorem scenario_resize_shrink_witness :
    2 ≤ 2 ∧ 65536 ≠ 0 ∧ 65536 + MMAP_THRESHOLD < WORD ∧
      linux64.BLOCK_META_SIZE % 8 = 0 ∧ 0 < linux64.BLOCK_META_SIZE ∧
      linux64.BLOCK_META_SIZE < 400 ∧
      ∃ s1 s2, os_malloc linux64 2 0 (initial zero_mem 65536) 500
            = Outcome.ok (s1, 65536 + linux64.BLOCK_META_SIZE) ∧
        os_realloc linux64 2 0 s1 (65536 + linux64.BLOCK_META_SIZE) 100
            = Outcome.ok (s2, 65536 + linux64.BLOCK_META_SIZE) ∧
        (s2.mem (65536 + (104 + linux64.BLOCK_META_SIZE))).size
          = 504 - 104 - linux64.BLOCK_META_SIZE :=
  ⟨by decide, by decide, by decide, by decide, by decide, by decide,
    match scenario_resize_shrink linux64 zero_mem 65536 2 0 0 (by decide) (by decide)
        (by decide) (by decide) (by decide) (by decide) with
    | ⟨s1, s2, h1, h2, _, _, _, _, _, h8⟩ => ⟨s1, s2, h1, h2, h8⟩⟩

theorem clean_set_size {S : Nat → Prop} {m : Mem} (h : Clean S m) (a v : Nat)
    (hv : v % 8 = 0) : Clean S (set_size m a v) := by
  intro x hx
  obtain ⟨h1, h2, h3⟩ := h x hx
  refine ⟨h1, ?_, by simpa using h3⟩
  simp only [set_size_size]
  split
  · exact hv
  · exact h2

theorem clean_set_status {S : Nat → Prop} {m : Mem} (h : Clean S m) (a : Nat) (v : Status) :
    Clean S (set_status m a v) := by
  intro x hx
  simpa using h x hx

theorem clean_set_prev {S : Nat → Prop} {m : Mem} (h : Clean S m) (a v : Nat) :
    Clean S (set_prev m a v) := by
  intro x hx
  simpa using h x hx

theorem clean_set_next {S : Nat → Prop} {m : Mem} (h : Clean S m) (a v : Nat)
    (hv : v = 0 ∨ S v) : Clean S (set_next m a v) := by
  intro x hx
  obtain ⟨h1, h2, h3⟩ := h x hx
  refine ⟨h1, by simpa using h2, ?_⟩
  simp only [set_next_next]
  split
  · exact hv
  · exact h3

/-- A header with clean fields joins a clean set. -/
theorem clean_insert {S : Nat → Prop} {m : Mem} (h : Clean S m) (a : Nat)
    (ha : a % 8 = 0) (hsz : (m a).size % 8 = 0) (hn : (m a).next = 0 ∨ S (m a).next) :
    Clean (fun x => S x ∨ x = a) m := by
  intro x hx
  rcases hx with hx | hx
  · obtain ⟨h1, h2, h3⟩ := h x hx
    exact ⟨h1, h2, h3.imp id Or.inl⟩
  · subst hx
    exact ⟨ha, hsz, hn.imp id Or.inl⟩

theorem clean_set_prev_if {S : Nat → Prop} {m : Mem} (h : Clean S m) (c : Prop) [Decidable c]
    (a v : Nat) : Clean S (if c then set_prev m a v else m) := by
  split
  · exact clean_set_prev h a v
  · exact h

theorem on_list_mem_clean {S : Nat → Prop} {m : Mem} (h : Clean S m) (head a : Nat)
    (hon : OnList m head a) (hh : head = 0 ∨ S head) : S a := by
  induction hon with
  | head x hx => exact hh.resolve_left hx
  | tail x a hx _ ih => exact ih ((h x (hh.resolve_left hx)).2.2)

theorem coalesce_loop_clean (P : Platform) (S : Nat → Prop)
    (hal : P.BLOCK_META_SIZE % 8 = 0) (fuel : Nat) :
    ∀ (m : Mem) (current : Nat) (m' : Mem), Clean S m → (current = 0 ∨ S current) →
      coalesce_loop P fuel m current = Outcome.ok m' → Clean S m' := by
  induction fuel with
  | zero => intro m c m' _ _ h; simp [coalesce_loop] at h
  | succ n ih =>
    intro m c m' hm hc h
    unfold coalesce_loop at h
    by_cases hc0 : c = 0
    · simp [hc0] at h; subst h; exact hm
    · simp only [hc0, if_false] at h
      have hSc := hc.resolve_left hc0
      by_cases hn0 : (m c).next = 0
      · simp [hn0] at h; subst h; exact hm
      · simp only [hn0, if_false] at h
        obtain ⟨_, hcs, hcn⟩ := hm c hSc
        have hSn := hcn.resolve_left hn0
        obtain ⟨_, hns, hnn⟩ := hm _ hSn
        split at h
        · refine ih _ _ _ ?_ (Or.inr hSc) h
          unfold merge_next
          apply clean_set_prev_if
          apply clean_set_next
          · apply clean_set_size hm
            unfold wadd WORD
            omega
          · simpa using hnn
        · exact ih _ _ _ hm (Or.inr hSn) h

theorem search_loop_mem (S : Nat → Prop) (m : Mem) (hm : Clean S m) (size : Nat) (fuel : Nat) :
    ∀ (current min_size best_block r : Nat), (current = 0 ∨ S current) →
      (best_block = 0 ∨ S best_block) →
      search_loop fuel m size current min_size best_block = Outcome.ok r → (r = 0 ∨ S r) := by
  induction fuel with
  | zero => intro c mn b r _ _ h; simp [search_loop] at h
  | succ n ih =>
    intro c mn b r hc hb h
    unfold search_loop at h
    by_cases hc0 : c = 0
    · simp [hc0] at h; subst h; exact hb
    · simp only [hc0, if_false] at h
      have hSc := hc.resolve_left hc0
      split at h
      · exact ih _ _ _ _ (hm c hSc).2.2 (Or.inr hSc) h
      · exact ih _ _ _ _ (hm c hSc).2.2 hb h

theorem last_loop_mem (S : Nat → Prop) (m : Mem) (hm : Clean S m) (fuel : Nat) :
    ∀ (last r : Nat), S last → last_loop fuel m last = Outcome.ok r → S r := by
  induction fuel with
  | zero => intro l r _ h; simp [last_loop] at h
  | succ n ih =>
    intro l r hl h
    unfold last_loop at h
    split at h
    · rename_i hn
      exact ih _ _ ((hm l hl).2.2.resolve_left hn) h
    · simp at h; subst h; exact hl

theorem tail_loop_mem (S : Nat → Prop) (m : Mem) (hm : Clean S m) (fuel : Nat) :
    ∀ (current last r : Nat), (current = 0 ∨ S current) → (last = 0 ∨ S last) →
      tail_loop fuel m current last = Outcome.ok r → (r = 0 ∨ S r) := by
  induction fuel with
  | zero => intro c l r _ _ h; simp [tail_loop] at h
  | succ n ih =>
    intro c l r hc hl h
    unfold tail_loop at h
    split at h
    · rename_i hn
      exact ih _ _ _ ((hm c (hc.resolve_left hn)).2.2) (Or.inr (hc.resolve_left hn)) h
    · simp at h; subst h; exact hl

/-- A split keeps a clean set clean and adds the new header to it. -/
theorem clean_split_block {S : Nat → Prop} {m : Mem} (h : Clean S m) (block T size : Nat)
    (hb : S block) (hT : T % 8 = 0) (hsize : size % 8 = 0) :
    Clean (fun x => S x ∨ x = block + T) (split_block m block T size) := by
  obtain ⟨hb8, hbs, hbn⟩ := h block hb
  unfold split_block
  apply clean_set_size _ _ _ hsize
  apply clean_set_next _ _ _ (Or.inr (Or.inr rfl))
  apply clean_set_prev_if
  apply clean_insert
  · apply clean_set_next
    · apply clean_set_prev
      apply clean_set_size
      · exact clean_set_status h _ _
      · simp only [set_status_size]; omega
    · simpa using hbn
  · omega
  · simp only [set_next_size, set_prev_size, set_size_size, if_true, set_status_size]
    omega
  · simp only [set_next_next, if_true, set_prev_next, set_size_next, set_status_next]
    exact hbn

theorem sbrk_brk (s : State) (increment : Nat) (r : State × Nat)
    (h : sbrk s increment = some r) :
    r.1.brk = if increment % WORD < WORD / 2 then s.brk + increment % WORD
      else s.brk - (WORD - increment % WORD) := by
  unfold sbrk at h
  simp only at h
  split at h
  · rename_i h1
    split at h
    · simp at h; subst h; simp [h1]
    · simp at h
  · rename_i h1
    split at h
    · simp at h; subst h; simp [h1]
    · simp at h

theorem sbrk_aligned (s : State) (increment : Nat) (r : State × Nat)
    (h : sbrk s increment = some r) (hb : s.brk % 8 = 0) (hi : increment % 8 = 0) :
    r.1.brk % 8 = 0 := by
  rw [sbrk_brk s increment r h]
  unfold WORD
  split <;> omega

theorem sbrk_mem (s : State) (increment : Nat) (r : State × Nat)
    (h : sbrk s increment = some r) :
    r.1.mem = s.mem ∧ r.1.list = s.list ∧ r.1.first_alloc = s.first_alloc ∧
      r.1.current_threshold = s.current_threshold ∧ r.1.heap_start = s.heap_start ∧
      r.1.maps = s.maps := by
  have h2 := (sbrk_spec s increment r h).2
  rw [h2]
  exact ⟨rfl, rfl, rfl, rfl, rfl, rfl⟩

theorem wadd_mod8 (a b : Nat) (ha : a % 8 = 0) (hb : b % 8 = 0) : wadd a b % 8 = 0 := by
  unfold wadd WORD; omega

theorem wsub_mod8 (a b : Nat) (ha : a % 8 = 0) (hb : b % 8 = 0) : wsub a b % 8 = 0 := by
  unfold wsub WORD; omega

theorem extend_heap_tidy (P : Platform) (fuel : Nat) (S : Nat → Prop) (s s' : State)
    (size b : Nat) (hal : P.BLOCK_META_SIZE % 8 = 0) (hsize : size % 8 = 0)
    (ht : Tidy S s) (h : extend_heap P fuel s size = Outcome.ok (s', b)) :
    ∃ S' : Nat → Prop, (∀ x, S x → S' x) ∧ Tidy S' s' ∧ S' b := by
  obtain ⟨hbrk, hclean, hlist⟩ := ht
  unfold extend_heap at h
  by_cases hl : s.list = 0
  · simp [hl] at h
  · simp only [hl, if_false] at h
    rw [Outcome.bind_eq_ok] at h
    obtain ⟨last, hlast, h⟩ := h
    have hSl := last_loop_mem S s.mem hclean fuel _ _ (hlist.resolve_left hl) hlast
    obtain ⟨_, hls, _⟩ := hclean last hSl
    split at h
    · rw [Outcome.bind_eq_ok] at h
      obtain ⟨r, hr, h⟩ := h
      rw [or_die_eq_ok] at hr
      obtain ⟨_, e2, _⟩ := sbrk_mem _ _ _ hr
      have hb' := sbrk_aligned _ _ _ hr hbrk (wsub_mod8 _ _ hsize hls)
      simp at h
      obtain ⟨h1, h2⟩ := h
      subst h1 h2
      refine ⟨S, fun x hx => hx, ⟨hb', ?_, ?_⟩, hSl⟩
      · apply clean_set_status
        apply clean_set_size hclean
        rw [wadd_wsub]
        unfold WORD; omega
      · simp only [e2]; exact hlist
    · rw [Outcome.bind_eq_ok] at h
      obtain ⟨r, hr, h⟩ := h
      rw [or_die_eq_ok] at hr
      obtain ⟨_, e2, _⟩ := sbrk_mem _ _ _ hr
      have hb' := sbrk_aligned _ _ _ hr hbrk (wadd_mod8 _ _ hsize hal)
      have hr2 := (sbrk_spec _ _ _ hr).1
      by_cases hnb : r.2 = 0
      · simp [hnb] at h
      · simp [hnb] at h
        obtain ⟨h1, h2⟩ := h
        subst h1 h2
        refine ⟨fun x => S x ∨ x = r.2, fun x hx => Or.inl hx, ⟨hb', ?_, ?_⟩, Or.inr rfl⟩
        · apply clean_set_next _ _ _ (Or.inr (Or.inr rfl))
          apply clean_set_status
          apply clean_insert
          · apply clean_set_next _ _ _ (Or.inl rfl)
            apply clean_set_prev
            exact clean_set_size hclean _ _ hsize
          · rw [hr2]; exact hbrk
          · simp [hsize]
          · simp
        · simp only [e2]; exact hlist.imp id Or.inl

theorem find_best_free_block_tidy (P : Platform) (fuel : Nat) (S : Nat → Prop) (s s' : State)
    (size b : Nat) (hal : P.BLOCK_META_SIZE % 8 = 0) (hsize : size % 8 = 0)
    (ht : Tidy S s) (h : find_best_free_block P fuel s size = Outcome.ok (s', b)) :
    ∃ S' : Nat → Prop, (∀ x, S x → S' x) ∧ Tidy S' s' ∧ S' b := by
  obtain ⟨hbrk, hclean, hlist⟩ := ht
  unfold find_best_free_block at h
  rw [Outcome.bind_eq_ok] at h
  obtain ⟨s1, hc, h⟩ := h
  obtain ⟨m, hm, hs1⟩ := coalesce_blocks_ok _ _ _ _ hc
  subst hs1
  have hclean1 := coalesce_loop_clean P S hal fuel _ _ _ hclean hlist hm
  rw [Outcome.bind_eq_ok] at h
  obtain ⟨best, hs, h⟩ := h
  have hbest := search_loop_mem S m hclean1 size fuel _ _ _ _ hlist (Or.inl rfl) hs
  simp only at h
  by_cases hb0 : best = 0
  · simp only [hb0, ne_eq, not_true_eq_false, false_and, if_false] at h
    have ht1 : Tidy S { s with mem := m } := ⟨hbrk, hclean1, hlist⟩
    exact extend_heap_tidy P fuel S _ s' size b hal hsize ht1 h
  · simp only [hb0, ne_eq, not_false_eq_true, true_and, if_true] at h
    have hSb := hbest.resolve_left hb0
    simp at h
    obtain ⟨h1, h2⟩ := h
    subst h1 h2
    split
    · refine ⟨fun x => S x ∨ x = best + wadd size P.BLOCK_META_SIZE, fun x hx => Or.inl hx,
        ⟨hbrk, ?_, hlist.imp id Or.inl⟩, Or.inl hSb⟩
      apply clean_set_status
      exact clean_split_block hclean1 _ _ _ hSb (wadd_mod8 _ _ hsize hal) hsize
    · exact ⟨S, fun x hx => hx, ⟨hbrk, clean_set_status hclean1 _ _, hlist⟩, hSb⟩

theorem mmap_page (P : Platform) (s : State) (length addr : Nat) (r : State × Nat)
    (h : mmap P s length addr = some r) : addr % P.PAGE_SIZE = 0 := by
  unfold mmap at h
  split at h
  · rename_i hc; exact hc.2.1
  · simp at h

theorem mod8_of_page (P : Platform) (addr : Nat) (hpg : P.PAGE_SIZE % 8 = 0)
    (h : addr % P.PAGE_SIZE = 0) : addr % 8 = 0 := by
  have h1 : 8 ∣ P.PAGE_SIZE := Nat.dvd_of_mod_eq_zero hpg
  have h2 : P.PAGE_SIZE ∣ addr := Nat.dvd_of_mod_eq_zero h
  exact Nat.mod_eq_zero_of_dvd (Nat.dvd_trans h1 h2)

theorem heap_prelude_tidy (P : Platform) (S : Nat → Prop) (s s1 : State)
    (hal : P.BLOCK_META_SIZE % 8 = 0) (ht : Tidy S s)
    (h : heap_prelude P s = Outcome.ok s1) :
    ∃ S' : Nat → Prop, (∀ x, S x → S' x) ∧ Tidy S' s1 := by
  obtain ⟨hbrk, hclean, hlist⟩ := ht
  unfold heap_prelude at h
  split at h
  · rw [Outcome.bind_eq_ok] at h
    obtain ⟨r, hr, h⟩ := h
    rw [or_die_eq_ok] at hr
    obtain ⟨e1, _⟩ := sbrk_mem _ _ _ hr
    have hb' := sbrk_aligned _ _ _ hr hbrk (by decide)
    have hr2 := (sbrk_spec _ _ _ hr).1
    simp only at hr2 e1
    by_cases hnb : r.2 = 0
    · simp [hnb] at h
    · simp [hnb] at h
      subst h
      refine ⟨fun x => S x ∨ x = r.2, fun x hx => Or.inl hx, ⟨hb', ?_, Or.inr (Or.inr rfl)⟩⟩
      apply clean_set_prev
      apply clean_insert
      · apply clean_set_next _ _ _ (Or.inl rfl)
        apply clean_set_size
        · rw [e1]; exact clean_set_status hclean _ _
        · exact wsub_mod8 _ _ (by decide) hal
      · rw [hr2]; exact hbrk
      · simp [wsub_mod8 _ _ (by decide : MMAP_THRESHOLD % 8 = 0) hal]
      · simp
  · simp at h
    subst h
    exact ⟨S, fun x hx => hx, hbrk, hclean, hlist⟩

theorem add_mapped_elem_tidy (fuel : Nat) (S : Nat → Prop) (s s2 : State) (new_block : Nat)
    (ht : Tidy S s) (hnb : new_block % 8 = 0) (hsz : (s.mem new_block).size % 8 = 0)
    (h : add_mapped_elem fuel s new_block = Outcome.ok s2) :
    Tidy (fun x => S x ∨ x = new_block) s2 := by
  obtain ⟨hbrk, hclean, hlist⟩ := ht
  unfold add_mapped_elem at h
  split at h
  · simp at h
  · split at h
    · simp at h; subst h
      refine ⟨hbrk, ?_, Or.inr (Or.inr rfl)⟩
      apply clean_set_prev
      apply clean_insert
      · exact clean_set_next hclean _ _ (Or.inl rfl)
      · exact hnb
      · simpa using hsz
      · simp
    · rw [Outcome.bind_eq_ok] at h
      obtain ⟨last, hlast, h⟩ := h
      have hl := tail_loop_mem S s.mem hclean fuel _ _ _ hlist (Or.inl rfl) hlast
      split at h
      · simp at h
      · rename_i hl0
        simp at h; subst h
        refine ⟨hbrk, ?_, hlist.imp id Or.inl⟩
        intro x hx
        simp only [set_next_next, set_prev_next, set_next_size, set_prev_size]
        rcases hx with hx | hx
        · obtain ⟨h1, h2, h3⟩ := hclean x hx
          refine ⟨h1, h2, ?_⟩
          split
          · exact Or.inl rfl
          · split
            · exact Or.inr (Or.inr rfl)
            · exact h3.imp id Or.inl
        · subst hx
          exact ⟨hnb, hsz, by simp⟩

theorem map_block_tidy (P : Platform) (fuel at_addr : Nat) (S : Nat → Prop) (s s' : State)
    (size total_size p : Nat) (hpg : P.PAGE_SIZE % 8 = 0) (hsize : size % 8 = 0)
    (ht : Tidy S s)
    (h : map_block P fuel at_addr s size total_size = Outcome.ok (s', p)) :
    ∃ S' : Nat → Prop, (∀ x, S x → S' x) ∧ Tidy S' s' ∧ payload_of P S' p := by
  obtain ⟨hbrk, hclean, hlist⟩ := ht
  unfold map_block at h
  rw [Outcome.bind_eq_ok] at h
  obtain ⟨r, hr, h⟩ := h
  rw [or_die_eq_ok] at hr
  obtain ⟨hr2, hne, hr1⟩ := mmap_spec P s total_size at_addr r hr
  have ha8 := mod8_of_page P at_addr hpg (mmap_page P s total_size at_addr r hr)
  simp only [hr2, hne, if_false] at h
  rw [Outcome.bind_eq_ok] at h
  obtain ⟨s2, hadd, h⟩ := h
  simp at h
  obtain ⟨h1, h2⟩ := h
  subst h1 h2
  refine ⟨fun x => S x ∨ x = at_addr, fun x hx => Or.inl hx, ?_, Or.inr ⟨at_addr, rfl, Or.inr rfl⟩⟩
  refine add_mapped_elem_tidy fuel S _ _ at_addr ⟨?_, ?_, ?_⟩ ha8 ?_ hadd
  · rw [hr1]; exact hbrk
  · rw [hr1]
    exact clean_set_status (clean_set_size hclean _ _ hsize) _ _
  · rw [hr1]; exact hlist
  · simp [hsize]

theorem os_malloc_tidy (P : Platform) (fuel at_addr : Nat) (S : Nat → Prop) (s s' : State)
    (size p : Nat) (hal : P.BLOCK_META_SIZE % 8 = 0) (hpg : P.PAGE_SIZE % 8 = 0)
    (ht : Tidy S s) (h : os_malloc P fuel at_addr s size = Outcome.ok (s', p)) :
    ∃ S' : Nat → Prop, (∀ x, S x → S' x) ∧ Tidy S' s' ∧ payload_of P S' p := by
  unfold os_malloc at h
  split at h
  · simp at h
    obtain ⟨h1, h2⟩ := h
    subst h1 h2
    exact ⟨S, fun x hx => hx, ht, Or.inl rfl⟩
  · simp only at h
    split at h
    · exact map_block_tidy P fuel at_addr S s s' _ _ p hpg (ALIGN_mod _) ht h
    · rw [Outcome.bind_eq_ok] at h
      obtain ⟨s1, hpre, h⟩ := h
      rw [Outcome.bind_eq_ok] at h
      obtain ⟨r, hfind, h⟩ := h
      simp at h
      obtain ⟨h1, h2⟩ := h
      subst h1 h2
      obtain ⟨S1, hS1, ht1⟩ := heap_prelude_tidy P S s s1 hal ht hpre
      obtain ⟨S2, hS2, ht2, hb⟩ :=
        find_best_free_block_tidy P fuel S1 s1 r.1 _ r.2 hal (ALIGN_mod _) ht1 hfind
      exact ⟨S2, fun x hx => hS2 x (hS1 x hx), ht2, Or.inr ⟨r.2, rfl, hb⟩⟩

theorem os_free_tidy (P : Platform) (S : Nat → Prop) (s s' : State) (ptr : Nat)
    (ht : Tidy S s) (h : os_free P s ptr = Outcome.ok s') : Tidy S s' := by
  obtain ⟨hbrk, hclean, hlist⟩ := ht
  unfold os_free at h
  split at h
  · simp at h; subst h; exact ⟨hbrk, hclean, hlist⟩
  · simp only at h
    split at h
    · simp at h
    · split at h
      · simp at h; subst h; exact ⟨hbrk, hclean, hlist⟩
      · split at h
        · simp at h; subst h
          exact ⟨hbrk, clean_set_status hclean _ _, hlist⟩
        · rw [Outcome.bind_eq_ok] at h
          obtain ⟨s1, hs1, h⟩ := h
          rw [or_die_eq_ok] at hs1
          unfold munmap at hs1
          split at hs1
          · simp at hs1 h
            subst hs1 h
            exact ⟨hbrk, hclean, Or.inl rfl⟩
          · simp at hs1

theorem os_calloc_tidy (P : Platform) (fuel at_addr : Nat) (S : Nat → Prop) (s s' : State)
    (nmemb size p : Nat) (hal : P.BLOCK_META_SIZE % 8 = 0) (hpg : P.PAGE_SIZE % 8 = 0)
    (ht : Tidy S s) (h : os_calloc P fuel at_addr s nmemb size = Outcome.ok (s', p)) :
    ∃ S' : Nat → Prop, (∀ x, S x → S' x) ∧ Tidy S' s' ∧ payload_of P S' p := by
  unfold os_calloc at h
  split at h
  · simp at h
    obtain ⟨h1, h2⟩ := h
    subst h1 h2
    exact ⟨S, fun x hx => hx, ht, Or.inl rfl⟩
  · rw [Outcome.bind_eq_ok] at h
    obtain ⟨r, hm, h⟩ := h
    simp at h
    obtain ⟨h1, h2⟩ := h
    subst h1 h2
    have ht0 : Tidy S { s with current_threshold := P.PAGE_SIZE } := ht
    obtain ⟨S1, hS1, ht1, hp⟩ := os_malloc_tidy P fuel at_addr S _ r.1 _ r.2 hal hpg ht0 hm
    exact ⟨S1, hS1, ht1, hp⟩

theorem relocate_tidy (P : Platform) (fuel at_addr : Nat) (S : Nat → Prop) (s s' : State)
    (ptr size q : Nat) (checked : Bool) (hal : P.BLOCK_META_SIZE % 8 = 0)
    (hpg : P.PAGE_SIZE % 8 = 0) (ht : Tidy S s)
    (h : relocate P fuel at_addr s ptr size checked = Outcome.ok (s', q)) :
    ∃ S' : Nat → Prop, (∀ x, S x → S' x) ∧ Tidy S' s' ∧ payload_of P S' q := by
  unfold relocate at h
  rw [Outcome.bind_eq_ok] at h
  obtain ⟨r, hm, h⟩ := h
  obtain ⟨S1, hS1, ht1, hp⟩ := os_malloc_tidy P fuel at_addr S s r.1 size r.2 hal hpg ht hm
  simp only at h
  split at h
  · split at h
    · simp at h
      obtain ⟨h1, h2⟩ := h
      subst h1 h2
      exact ⟨S1, hS1, ht1, Or.inl rfl⟩
    · simp at h
  · rw [Outcome.bind_eq_ok] at h
    obtain ⟨s2, hf, h⟩ := h
    simp at h
    obtain ⟨h1, h2⟩ := h
    subst h1 h2
    exact ⟨S1, hS1, os_free_tidy P S1 _ _ ptr ht1 hf, hp⟩

theorem os_realloc_tidy (P : Platform) (fuel at_addr : Nat) (S : Nat → Prop) (s s' : State)
    (ptr size q : Nat) (hal : P.BLOCK_META_SIZE % 8 = 0) (hpg : P.PAGE_SIZE % 8 = 0)
    (ht : Tidy S s) (hptr : payload_of P S ptr)
    (h : os_realloc P fuel at_addr s ptr size = Outcome.ok (s', q)) :
    ∃ S' : Nat → Prop, (∀ x, S x → S' x) ∧ Tidy S' s' ∧ payload_of P S' q := by
  unfold os_realloc at h
  split at h
  · exact os_malloc_tidy P fuel at_addr S s s' size q hal hpg ht h
  · rename_i hp0
    split at h
    · rw [Outcome.bind_eq_ok] at h
      obtain ⟨s1, hf, h⟩ := h
      simp at h
      obtain ⟨h1, h2⟩ := h
      subst h1 h2
      exact ⟨S, fun x hx => hx, os_free_tidy P S s _ ptr ht hf, Or.inl rfl⟩
    · simp only at h
      obtain ⟨b, hb, hSb⟩ := hptr.resolve_left hp0
      have hbb : ptr - P.BLOCK_META_SIZE = b := by omega
      rw [hbb] at h
      split at h
      · simp at h
      · split at h
        · simp at h
          obtain ⟨h1, h2⟩ := h
          subst h1 h2
          exact ⟨S, fun x hx => hx, ht, Or.inl rfl⟩
        · split at h
          · exact relocate_tidy P fuel at_addr S s s' ptr size q false hal hpg ht h
          · split at h
            · simp at h
              obtain ⟨h1, h2⟩ := h
              subst h1 h2
              exact ⟨S, fun x hx => hx, ht, Or.inr ⟨b, hb, hSb⟩⟩
            · split at h
              · simp at h
                obtain ⟨h1, h2⟩ := h
                subst h1 h2
                obtain ⟨hbrk, hclean, hlist⟩ := ht
                refine ⟨fun x => S x ∨ x = b + wadd (ALIGN size) (ALIGN P.BLOCK_META_SIZE),
                  fun x hx => Or.inl hx, ⟨hbrk, ?_, hlist.imp id Or.inl⟩,
                  Or.inr ⟨b, rfl, Or.inl hSb⟩⟩
                apply clean_set_status
                exact clean_split_block hclean _ _ _ hSb
                  (wadd_mod8 _ _ (ALIGN_mod _) (ALIGN_mod _)) (ALIGN_mod _)
              · exact relocate_tidy P fuel at_addr S s s' ptr size q true hal hpg ht h

theorem payload_of_mod8 (P : Platform) (S : Nat → Prop) (m : Mem) (p : Nat)
    (hal : P.BLOCK_META_SIZE % 8 = 0) (hclean : Clean S m) (hp : payload_of P S p) :
    p % 8 = 0 := by
  rcases hp with hp | ⟨b, hb, hSb⟩
  · subst hp; rfl
  · have := (hclean b hSb).1
    omega

theorem aligned_initial (P : Platform) (mem : Mem) (brk0 : Nat) (hbrk0 : brk0 % 8 = 0) :
    Aligned P (initial mem brk0) [] := by
  refine ⟨fun _ => False, ⟨hbrk0, ?_, Or.inl rfl⟩, ?_⟩
  · intro x hx; exact absurd hx id
  · intro p hp; simp at hp

/-- A call that returns keeps the alignment invariant, and the pointer it
returns is 8-aligned. -/
theorem aligned_step (P : Platform) (fuel at_addr : Nat) (s s' : State) (live : List Nat)
    (c : Call) (r : Nat) (hal : P.BLOCK_META_SIZE % 8 = 0) (hpg : P.PAGE_SIZE % 8 = 0)
    (hinv : Aligned P s live) (hv : valid_call live c)
    (h : run_call P fuel at_addr s c = Outcome.ok (s', r)) :
    Aligned P s' (live_after live c r) ∧ r % 8 = 0 := by
  obtain ⟨S, ht, hlive⟩ := hinv
  cases c with
  | malloc size =>
    obtain ⟨S', hS, ht', hp⟩ := os_malloc_tidy P fuel at_addr S s s' size r hal hpg ht h
    refine ⟨⟨S', ht', ?_⟩, payload_of_mod8 P S' _ r hal ht'.2.1 hp⟩
    intro p hpl
    simp only [live_after] at hpl
    split at hpl
    · exact (hlive p hpl).imp id (fun ⟨b, hb, hSb⟩ => ⟨b, hb, hS b hSb⟩)
    · rcases List.mem_cons.mp hpl with e | hpl
      · subst e; exact hp
      · exact (hlive p hpl).imp id (fun ⟨b, hb, hSb⟩ => ⟨b, hb, hS b hSb⟩)
  | free ptr =>
    simp only [run_call] at h
    rw [Outcome.bind_eq_ok] at h
    obtain ⟨s1, hf, h⟩ := h
    simp at h
    obtain ⟨h1, h2⟩ := h
    subst h1 h2
    refine ⟨⟨S, os_free_tidy P S s _ ptr ht hf, ?_⟩, rfl⟩
    intro p hpl
    simp only [live_after] at hpl
    exact hlive p (List.mem_of_mem_filter hpl)
  | calloc nmemb size =>
    obtain ⟨S', hS, ht', hp⟩ := os_calloc_tidy P fuel at_addr S s s' nmemb size r hal hpg ht h
    refine ⟨⟨S', ht', ?_⟩, payload_of_mod8 P S' _ r hal ht'.2.1 hp⟩
    intro p hpl
    simp only [live_after] at hpl
    split at hpl
    · exact (hlive p hpl).imp id (fun ⟨b, hb, hSb⟩ => ⟨b, hb, hS b hSb⟩)
    · rcases List.mem_cons.mp hpl with e | hpl
      · subst e; exact hp
      · exact (hlive p hpl).imp id (fun ⟨b, hb, hSb⟩ => ⟨b, hb, hS b hSb⟩)
  | realloc ptr size =>
    have hptr : payload_of P S ptr := by
      rcases hv with hv | hv
      · exact Or.inl hv
      · exact hlive ptr hv
    obtain ⟨S', hS, ht', hp⟩ :=
      os_realloc_tidy P fuel at_addr S s s' ptr size r hal hpg ht hptr h
    refine ⟨⟨S', ht', ?_⟩, payload_of_mod8 P S' _ r hal ht'.2.1 hp⟩
    have hmono : ∀ p ∈ live, payload_of P S' p := fun p hpl =>
      (hlive p hpl).imp id (fun ⟨b, hb, hSb⟩ => ⟨b, hb, hS b hSb⟩)
    intro p hpl
    simp only [live_after] at hpl
    split at hpl
    · split at hpl
      · exact hmono p hpl
      · rcases List.mem_cons.mp hpl with e | hpl
        · subst e; exact hp
        · exact hmono p hpl
    · split at hpl
      · exact hmono p (List.mem_of_mem_filter hpl)
      · split at hpl
        · exact hmono p hpl
        · split at hpl
          · exact hmono p hpl
          · rcases List.mem_cons.mp hpl with e | hpl
            · subst e; exact hp
            · exact hmono p (List.mem_of_mem_filter hpl)

theorem reachable_aligned (P : Platform) (allowed : Nat → Prop) (brk0 : Nat) (s : State)
    (live : List Nat) (hal : P.BLOCK_META_SIZE % 8 = 0) (hpg : P.PAGE_SIZE % 8 = 0)
    (hbrk0 : brk0 % 8 = 0) (hr : Reachable P allowed brk0 s live) : Aligned P s live := by
  induction hr with
  | at_start mem => exact aligned_initial P mem brk0 hbrk0
  | step s live c fuel at_addr s' r _ hv _ hrun ih =>
    exact (aligned_step P fuel at_addr s s' live c r hal hpg ih hv hrun).1

theorem seg_congr (m m' : Mem) : ∀ (l : List Blk) (h t : Nat), Seg m h l t →
    (∀ b ∈ l, (m' b.addr).size = (m b.addr).size ∧ (m' b.addr).status = (m b.addr).status ∧
      (m' b.addr).next = (m b.addr).next) → Seg m' h l t := by
  intro l
  induction l with
  | nil => intro h t hr _; exact hr
  | cons b l ih =>
    intro h t hr hc
    obtain ⟨h1, h2, h3, h4, h5⟩ := hr
    obtain ⟨c1, c2, c3⟩ := hc b (List.mem_cons_self _ _)
    refine ⟨h1, h2, c1.trans h3, c2.trans h4, ?_⟩
    rw [c3]
    exact ih _ _ h5 (fun x hx => hc x (List.mem_cons_of_mem _ hx))

theorem rep_congr (m m' : Mem) (l : List Blk) (h : Nat) (hr : Rep m h l)
    (hc : ∀ b ∈ l, (m' b.addr).size = (m b.addr).size ∧
      (m' b.addr).status = (m b.addr).status ∧ (m' b.addr).next = (m b.addr).next) :
    Rep m' h l := seg_congr m m' l h 0 hr hc

theorem seg_congr_eq (m m' : Mem) (l : List Blk) (h t : Nat) (hr : Seg m h l t)
    (hc : ∀ x ∈ addrs l, m' x = m x) : Seg m' h l t := by
  apply seg_congr m m' l h t hr
  intro b hb
  have := hc b.addr (List.mem_map_of_mem _ hb)
  rw [this]
  exact ⟨rfl, rfl, rfl⟩

theorem seg_nonzero (m : Mem) : ∀ (l : List Blk) (h t : Nat), Seg m h l t →
    ∀ x ∈ addrs l, x ≠ 0 := by
  intro l
  induction l with
  | nil => intro h t _ x hx; simp [addrs] at hx
  | cons b l ih =>
    intro h t hr x hx
    obtain ⟨_, h2, _, _, h5⟩ := hr
    simp only [addrs, List.map_cons, List.mem_cons] at hx
    rcases hx with hx | hx
    · rw [hx]; exact h2
    · exact ih _ _ h5 x hx

theorem seg_mem (m : Mem) : ∀ (l : List Blk) (h t : Nat), Seg m h l t →
    ∀ b ∈ l, (m b.addr).size = b.size ∧ (m b.addr).status = b.status := by
  intro l
  induction l with
  | nil => intro h t _ b hb; simp at hb
  | cons c l ih =>
    intro h t hr b hb
    obtain ⟨_, _, h3, h4, h5⟩ := hr
    rcases List.mem_cons.mp hb with e | hb
    · subst e; exact ⟨h3, h4⟩
    · exact ih _ _ h5 b hb

theorem seg_append (m : Mem) : ∀ (l1 l2 : List Blk) (h t : Nat),
    Seg m h (l1 ++ l2) t ↔ ∃ mid, Seg m h l1 mid ∧ Seg m mid l2 t := by
  intro l1
  induction l1 with
  | nil =>
    intro l2 h t
    constructor
    · intro hr; exact ⟨h, rfl, hr⟩
    · rintro ⟨mid, e, hr⟩
      have : h = mid := e
      subst this; exact hr
  | cons b l ih =>
    intro l2 h t
    constructor
    · intro hr
      obtain ⟨h1, h2, h3, h4, h5⟩ := hr
      obtain ⟨mid, e1, e2⟩ := (ih l2 _ t).mp h5
      exact ⟨mid, ⟨h1, h2, h3, h4, e1⟩, e2⟩
    · rintro ⟨mid, ⟨h1, h2, h3, h4, e1⟩, e2⟩
      exact ⟨h1, h2, h3, h4, (ih l2 _ t).mpr ⟨mid, e1, e2⟩⟩

/-- The list in memory determines its entries. -/
theorem rep_unique (m : Mem) : ∀ (l1 l2 : List Blk) (h : Nat), Rep m h l1 → Rep m h l2 →
    l1 = l2 := by
  intro l1
  induction l1 with
  | nil =>
    intro l2 h h1 h2
    cases l2 with
    | nil => rfl
    | cons b l =>
      have e : h = 0 := h1
      exact absurd (h2.1.symm.trans e) h2.2.1
  | cons b l ih =>
    intro l2 h h1 h2
    cases l2 with
    | nil =>
      have e : h = 0 := h2
      exact absurd (h1.1.symm.trans e) h1.2.1
    | cons c l2 =>
      obtain ⟨a1, a2, a3, a4, a5⟩ := h1
      obtain ⟨b1, b2, b3, b4, b5⟩ := h2
      have e : b.addr = c.addr := a1.symm.trans b1
      have ebc : b = c := by
        cases b; cases c
        simp only at e a3 a4 b3 b4
        subst e
        simp [← a3, ← a4, b3, b4]
      subst ebc
      rw [ih l2 _ a5 b5]

/-! ## `coalesce_blocks` on the list of entries -/

theorem merge_next_size (P : Platform) (m : Mem) (current x : Nat) :
    (merge_next P m current x).size =
      if x = current then
        wadd (m current).size (wadd (m (m current).next).size P.BLOCK_META_SIZE)
      else (m x).size := by
  unfold merge_next
  split <;> simp

theorem merge_next_status (P : Platform) (m : Mem) (current x : Nat) :
    (merge_next P m current x).status = (m x).status := by
  unfold merge_next
  split <;> simp

theorem merge_next_next (P : Platform) (m : Mem) (current x : Nat) :
    (merge_next P m current x).next =
      if x = current then (m (m current).next).next else (m x).next := by
  unfold merge_next
  split <;> simp

theorem merge_next_other (P : Platform) (m : Mem) (current x : Nat)
    (h1 : x ≠ current)
    (h2 : (m (m current).next).next ≠ 0 → x ≠ (m (m current).next).next) :
    merge_next P m current x = m x := by
  apply block_meta_ext
  · rw [merge_next_size]; simp [h1]
  · rw [merge_next_status]
  · unfold merge_next
    split
    · rename_i hn
      simp only [set_next_next, set_size_next, ite_self] at hn
      simp only [set_prev_prev, set_next_next, set_size_next, ite_self, set_next_prev,
        set_size_prev, h2 hn, if_false]
    · simp
  · rw [merge_next_next]; simp [h1]

/-- The loop of `coalesce_blocks` computes `coalesce_list`: it returns, given
fuel for twice the length of the list, and writes only headers of the list,
and no status. -/
theorem coalesce_loop_rep (P : Platform) (fuel : Nat) :
    ∀ (bs : List Blk) (m : Mem) (h : Nat), Rep m h bs → (addrs bs).Nodup →
      2 * bs.length + 1 ≤ fuel →
      ∃ m', coalesce_loop P fuel m h = Outcome.ok m' ∧
        Rep m' h (coalesce_list P.BLOCK_META_SIZE bs) ∧
        (∀ x, x ∉ addrs bs → m' x = m x) ∧
        (∀ x, (m' x).status = (m x).status) := by
  induction fuel with
  | zero => intro bs m h _ _ hf; omega
  | succ n ih =>
    intro bs m h hr hnd hf
    unfold coalesce_loop
    cases bs with
    | nil =>
      have : h = 0 := hr
      simp [this, coalesce_list, Rep, Seg]
    | cons b l =>
      obtain ⟨h1, h2, h3, h4, h5⟩ := hr
      subst h1
      simp only [h2, if_false]
      cases l with
      | nil =>
        have hn : (m b.addr).next = 0 := h5
        simp only [hn, if_true]
        refine ⟨m, rfl, ?_, fun _ _ => rfl, fun _ => rfl⟩
        exact ⟨rfl, h2, h3, h4, hn⟩
      | cons c l =>
        obtain ⟨g1, g2, g3, g4, g5⟩ := h5
        have hcb : c.addr ≠ b.addr := by
          intro e
          simp [addrs, e] at hnd
        have hbl : b.addr ∉ addrs l := by
          intro e
          simp only [addrs, List.map_cons, List.nodup_cons, List.mem_cons] at hnd
          exact hnd.1 (Or.inr e)
        have hcl : c.addr ∉ addrs l := by
          intro e
          simp only [addrs, List.map_cons, List.nodup_cons, List.mem_cons] at hnd
          exact hnd.2.1 e
        have hndl : (addrs l).Nodup := by
          simp only [addrs, List.map_cons, List.nodup_cons] at hnd
          exact hnd.2.2
        have hn0 : (m b.addr).next ≠ 0 := by rw [g1]; exact g2
        simp only [hn0, if_false]
        rw [g1, h4, g4]
        by_cases hfree : b.status = STATUS_FREE ∧ c.status = STATUS_FREE
        · simp only [hfree, and_self, if_true]
          have hrep3 : Rep (merge_next P m b.addr) b.addr
              ({ b with size := wadd b.size (wadd c.size P.BLOCK_META_SIZE) } :: l) := by
            refine ⟨rfl, h2, ?_, ?_, ?_⟩
            · simp [merge_next_size, g1, h3, g3]
            · simp [merge_next_status, h4]
            · simp only [merge_next_next, if_true, g1]
              apply rep_congr m _ l _ g5
              intro d hd
              have hdb : d.addr ≠ b.addr := fun e => hbl (e ▸ List.mem_map_of_mem _ hd)
              simp [merge_next_size, merge_next_status, merge_next_next, hdb]
          have hnd3 : (addrs ({ b with size := wadd b.size (wadd c.size P.BLOCK_META_SIZE) }
              :: l)).Nodup := by
            simp only [addrs, List.map_cons, List.nodup_cons]
            exact ⟨hbl, hndl⟩
          obtain ⟨m', e1, e2, e3, e4⟩ := ih _ _ _ hrep3 hnd3
            (by simp only [List.length_cons] at hf ⊢; omega)
          refine ⟨m', e1, ?_, ?_, ?_⟩
          · simpa [coalesce_list, coalesce_from, hfree] using e2
          · intro x hx
            have hxb : x ≠ b.addr := fun e => hx (by simp [addrs, e])
            have hxc : x ≠ c.addr := fun e => hx (by simp [addrs, e])
            have hxl : x ∉ addrs l := fun e => hx (by
              simp only [addrs, List.map_cons, List.mem_cons]
              exact Or.inr (Or.inr e))
            rw [e3 x (by
              simp only [addrs, List.map_cons, List.mem_cons, not_or]
              exact ⟨hxb, hxl⟩)]
            apply merge_next_other _ _ _ _ hxb
            rw [g1]
            intro hne e
            cases l with
            | nil => exact hne g5
            | cons d l =>
              have : (m c.addr).next = d.addr := g5.1
              apply hxl
              rw [e, this]
              simp [addrs]
          · intro x
            rw [e4 x, merge_next_status]
        · simp only [hfree, if_false]
          have hrepc : Rep m c.addr (c :: l) := ⟨rfl, g2, g3, g4, g5⟩
          have hndc : (addrs (c :: l)).Nodup := by
            simp only [addrs, List.map_cons, List.nodup_cons] at hnd ⊢
            exact hnd.2
          obtain ⟨m', e1, e2, e3, e4⟩ := ih _ _ _ hrepc hndc
            (by simp only [List.length_cons] at hf ⊢; omega)
          have hb' : m' b.addr = m b.addr := e3 _ (by
            simp only [addrs, List.map_cons, List.mem_cons, not_or]
            exact ⟨Ne.symm hcb, hbl⟩)
          refine ⟨m', e1, ?_, ?_, e4⟩
          · simp only [coalesce_list, coalesce_from, hfree, if_false]
            refine ⟨rfl, h2, ?_, ?_, ?_⟩
            · rw [hb']; exact h3
            · rw [hb']; exact h4
            · rw [hb', g1]
              simpa [coalesce_list] using e2
          · intro x hx
            apply e3
            intro e
            apply hx
            simp only [addrs, List.map_cons, List.mem_cons] at e ⊢
            exact Or.inr e

/-! ## The other loops on the list of entries -/

theorem search_loop_rep (size : Nat) (fuel : Nat) :
    ∀ (bs : List Blk) (m : Mem) (h min_size best_block : Nat), Rep m h bs →
      bs.length + 1 ≤ fuel →
      search_loop fuel m size h min_size best_block
        = Outcome.ok (search_list size bs min_size best_block) := by
  induction fuel with
  | zero => intro bs m h mn b _ hf; omega
  | succ n ih =>
    intro bs m h mn best hr hf
    unfold search_loop
    cases bs with
    | nil =>
      have : h = 0 := hr
      simp [this, search_list]
    | cons b l =>
      obtain ⟨h1, h2, h3, h4, h5⟩ := hr
      subst h1
      simp only [h2, if_false, h3, h4, search_list]
      have hf' : l.length + 1 ≤ n := by simp only [List.length_cons] at hf; omega
      split
      · exact ih l m _ _ _ h5 hf'
      · exact ih l m _ _ _ h5 hf'

theorem last_loop_rep (fuel : Nat) :
    ∀ (init : List Blk) (z : Blk) (m : Mem) (h : Nat), Rep m h (init ++ [z]) →
      init.length + 1 ≤ fuel → last_loop fuel m h = Outcome.ok z.addr := by
  induction fuel with
  | zero => intro i z m h _ hf; omega
  | succ n ih =>
    intro init z m h hr hf
    unfold last_loop
    cases init with
    | nil =>
      obtain ⟨h1, _, _, _, h5⟩ := hr
      have h5' : (m z.addr).next = 0 := h5
      subst h1
      simp [h5']
    | cons b l =>
      obtain ⟨h1, h2, _, _, h5⟩ := hr
      subst h1
      have hne : (m b.addr).next ≠ 0 := by
        cases l with
        | nil => obtain ⟨g1, g2, _⟩ := h5; rw [g1]; exact g2
        | cons c l => obtain ⟨g1, g2, _⟩ := h5; rw [g1]; exact g2
      simp only [hne, ne_eq, not_false_eq_true, if_true]
      exact ih l z m _ h5 (by simp only [List.length_cons] at hf; omega)

theorem tail_loop_rep (fuel : Nat) :
    ∀ (init : List Blk) (z : Blk) (m : Mem) (h last : Nat), Rep m h (init ++ [z]) →
      init.length + 2 ≤ fuel → tail_loop fuel m h last = Outcome.ok z.addr := by
  induction fuel with
  | zero => intro i z m h l _ hf; omega
  | succ n ih =>
    intro init z m h last hr hf
    unfold tail_loop
    cases init with
    | nil =>
      obtain ⟨h1, h2, _, _, h5⟩ := hr
      have h5' : (m z.addr).next = 0 := h5
      subst h1
      simp only [h2, ne_eq, not_false_eq_true, if_true, h5']
      obtain ⟨k, rfl⟩ : ∃ k, n = k + 1 := ⟨n - 1, by simp at hf; omega⟩
      simp [tail_loop]
    | cons b l =>
      obtain ⟨h1, h2, _, _, h5⟩ := hr
      subst h1
      simp only [h2, ne_eq, not_false_eq_true, if_true]
      exact ih l z m _ _ h5 (by simp only [List.length_cons] at hf; omega)

theorem tail_loop_nil (fuel : Nat) (m : Mem) (last : Nat) (hf : 1 ≤ fuel) :
    tail_loop fuel m 0 last = Outcome.ok last := by
  obtain ⟨k, rfl⟩ : ∃ k, fuel = k + 1 := ⟨fuel - 1, by omega⟩
  simp [tail_loop]

/-- A non-empty list has a last entry. -/
theorem exists_last (bs : List Blk) (h : bs ≠ []) : ∃ init z, bs = init ++ [z] :=
  ⟨bs.dropLast, bs.getLast h, (List.dropLast_append_getLast h).symm⟩

/-! ## Entries that lie end to end -/

theorem tiles_le (hs : Nat) (maps : List (Nat × Nat)) :
    ∀ (l : List Blk) (pos stop : Nat), tiles hs maps pos l stop → pos ≤ stop := by
  intro l
  induction l with
  | nil => intro pos stop h; exact le_of_eq h
  | cons b l ih =>
    intro pos stop h
    by_cases hb : b.status = STATUS_MAPPED
    · exact ih _ _ (h.1 hb).2
    · have := ih _ _ (h.2 hb).2
      omega

theorem tiles_append (hs : Nat) (maps : List (Nat × Nat)) :
    ∀ (l1 l2 : List Blk) (pos stop : Nat),
      tiles hs maps pos (l1 ++ l2) stop ↔
        ∃ mid, tiles hs maps pos l1 mid ∧ tiles hs maps mid l2 stop := by
  intro l1
  induction l1 with
  | nil =>
    intro l2 pos stop
    constructor
    · intro h; exact ⟨pos, rfl, h⟩
    · rintro ⟨mid, e, h⟩
      have : pos = mid := e
      subst this; exact h
  | cons b l ih =>
    intro l2 pos stop
    by_cases hb : b.status = STATUS_MAPPED
    · constructor
      · intro h
        obtain ⟨h1, h2⟩ := h.1 hb
        obtain ⟨mid, e1, e2⟩ := (ih l2 _ _).mp h2
        exact ⟨mid, ⟨fun _ => ⟨h1, e1⟩, fun hn => absurd hb hn⟩, e2⟩
      · rintro ⟨mid, h, e2⟩
        obtain ⟨h1, e1⟩ := h.1 hb
        exact ⟨fun _ => ⟨h1, (ih l2 _ _).mpr ⟨mid, e1, e2⟩⟩, fun hn => absurd hb hn⟩
    · constructor
      · intro h
        obtain ⟨h1, h2⟩ := h.2 hb
        obtain ⟨mid, e1, e2⟩ := (ih l2 _ _).mp h2
        exact ⟨mid, ⟨fun hm => absurd hm hb, fun _ => ⟨h1, e1⟩⟩, e2⟩
      · rintro ⟨mid, h, e2⟩
        obtain ⟨h1, e1⟩ := h.2 hb
        exact ⟨fun hm => absurd hm hb, fun _ => ⟨h1, (ih l2 _ _).mpr ⟨mid, e1, e2⟩⟩⟩

/-- A heap entry lies between the ends. -/
theorem tiles_heap_mem (hs : Nat) (maps : List (Nat × Nat)) :
    ∀ (l : List Blk) (pos stop : Nat), tiles hs maps pos l stop →
      ∀ b ∈ l, b.status ≠ STATUS_MAPPED → pos ≤ b.addr ∧ b.addr + hs + b.size ≤ stop := by
  intro l
  induction l with
  | nil => intro pos stop _ b hb; simp at hb
  | cons c l ih =>
    intro pos stop h b hb hst
    by_cases hc : c.status = STATUS_MAPPED
    · rcases List.mem_cons.mp hb with e | hb
      · subst e; exact absurd hc hst
      · exact ih _ _ (h.1 hc).2 b hb hst
    · obtain ⟨h1, h2⟩ := h.2 hc
      rcases List.mem_cons.mp hb with e | hb
      · subst e
        have := tiles_le hs maps _ _ _ h2
        omega
      · have := ih _ _ h2 b hb hst
        omega

/-- A mapping-backed entry lies inside a live mapping. -/
theorem tiles_mapped_mem (hs : Nat) (maps : List (Nat × Nat)) :
    ∀ (l : List Blk) (pos stop : Nat), tiles hs maps pos l stop →
      ∀ b ∈ l, b.status = STATUS_MAPPED → ∃ len, (b.addr, len) ∈ maps ∧ hs + b.size ≤ len := by
  intro l
  induction l with
  | nil => intro pos stop _ b hb; simp at hb
  | cons c l ih =>
    intro pos stop h b hb hst
    by_cases hc : c.status = STATUS_MAPPED
    · rcases List.mem_cons.mp hb with e | hb
      · subst e; exact (h.1 hc).1
      · exact ih _ _ (h.1 hc).2 b hb hst
    · rcases List.mem_cons.mp hb with e | hb
      · subst e; exact absurd hst hc
      · exact ih _ _ (h.2 hc).2 b hb hst

theorem tiles_maps_mono (hs : Nat) (maps maps' : List (Nat × Nat))
    (hsub : ∀ r ∈ maps, r ∈ maps') :
    ∀ (l : List Blk) (pos stop : Nat), tiles hs maps pos l stop → tiles hs maps' pos l stop := by
  intro l
  induction l with
  | nil => intro pos stop h; exact h
  | cons b l ih =>
    intro pos stop h
    constructor
    · intro hb
      obtain ⟨⟨len, h1, h2⟩, h3⟩ := h.1 hb
      exact ⟨⟨len, hsub _ h1, h2⟩, ih _ _ h3⟩
    · intro hb
      obtain ⟨h1, h2⟩ := h.2 hb
      exact ⟨h1, ih _ _ h2⟩

/-- An address inside the heap that is the address of no heap entry is the
address of no entry. -/
theorem heap_addr_fresh (P : Platform) (s : State) (bs : List Blk) (x : Nat)
    (hk : kernel_ok s)
    (ht : tiles P.BLOCK_META_SIZE s.maps s.heap_start bs s.brk)
    (hx : s.heap_start ≤ x ∧ x < s.brk)
    (hheap : ∀ c ∈ bs, c.status ≠ STATUS_MAPPED → c.addr ≠ x) : x ∉ addrs bs := by
  intro hmem
  obtain ⟨c, hc, e⟩ := List.mem_map.mp hmem
  by_cases hcm : c.status = STATUS_MAPPED
  · obtain ⟨len, h1, h2⟩ := tiles_mapped_mem _ _ _ _ _ ht c hc hcm
    obtain ⟨_, h4⟩ := hk.2.2.2 _ h1
    simp only at h4
    omega
  · exact hheap c hc hcm e

theorem coalesce_from_sublist (hs : Nat) :
    ∀ (l : List Blk) (cur : Blk),
      (addrs (coalesce_from hs cur l)).Sublist (cur.addr :: addrs l) := by
  intro l
  induction l with
  | nil => intro cur; simp [coalesce_from, addrs]
  | cons b l ih =>
    intro cur
    unfold coalesce_from
    split
    · have := ih { cur with size := wadd cur.size (wadd b.size hs) }
      simp only [addrs, List.map_cons] at this ⊢
      exact this.trans (List.Sublist.cons₂ _ (List.sublist_cons_self _ _))
    · have := ih b
      simp only [addrs, List.map_cons] at this ⊢
      exact List.Sublist.cons₂ _ this

theorem coalesce_list_sublist (hs : Nat) (bs : List Blk) :
    (addrs (coalesce_list hs bs)).Sublist (addrs bs) := by
  cases bs with
  | nil => simp [coalesce_list, addrs]
  | cons b l => exact coalesce_from_sublist hs l b

theorem coalesce_from_ne_nil (hs : Nat) :
    ∀ (l : List Blk) (cur : Blk), coalesce_from hs cur l ≠ [] := by
  intro l
  induction l with
  | nil => intro cur; simp [coalesce_from]
  | cons b l ih =>
    intro cur
    unfold coalesce_from
    split
    · exact ih _
    · simp

theorem tiles_coalesce_from (hs : Nat) (maps : List (Nat × Nat)) (stop : Nat)
    (hstop : stop < WORD) :
    ∀ (l : List Blk) (cur : Blk) (pos : Nat), tiles hs maps pos (cur :: l) stop →
      tiles hs maps pos (coalesce_from hs cur l) stop := by
  intro l
  induction l with
  | nil => intro cur pos h; exact h
  | cons b l ih =>
    intro cur pos h
    unfold coalesce_from
    split
    · rename_i hfree
      apply ih
      have hc : cur.status ≠ STATUS_MAPPED := by rw [hfree.1]; decide
      have hb : b.status ≠ STATUS_MAPPED := by rw [hfree.2]; decide
      obtain ⟨h1, h2⟩ := h.2 hc
      obtain ⟨h3, h4⟩ := h2.2 hb
      have hle := tiles_le hs maps _ _ _ h4
      have hsum : wadd cur.size (wadd b.size hs) = cur.size + (b.size + hs) := by
        unfold wadd
        rw [Nat.mod_eq_of_lt (a := b.size + hs) (by omega), Nat.mod_eq_of_lt (by omega)]
      refine ⟨fun hm => absurd hm hc, fun _ => ⟨h1, ?_⟩⟩
      simp only [hsum]
      have e : pos + hs + (cur.size + (b.size + hs)) = pos + hs + cur.size + hs + b.size := by
        omega
      rw [e]
      exact h4
    · by_cases hc : cur.status = STATUS_MAPPED
      · obtain ⟨h1, h2⟩ := h.1 hc
        exact ⟨fun _ => ⟨h1, ih b pos h2⟩, fun hn => absurd hc hn⟩
      · obtain ⟨h1, h2⟩ := h.2 hc
        exact ⟨fun hm => absurd hm hc, fun _ => ⟨h1, ih b _ h2⟩⟩

theorem coalesce_from_head (hs : Nat) :
    ∀ (l : List Blk) (cur : Blk), ∃ sz rest,
      coalesce_from hs cur l = { addr := cur.addr, size := sz, status := cur.status } :: rest := by
  intro l
  induction l with
  | nil => intro cur; exact ⟨cur.size, [], rfl⟩
  | cons b l ih =>
    intro cur
    unfold coalesce_from
    split
    · exact ih _
    · exact ⟨cur.size, coalesce_from hs b l, rfl⟩

theorem no_adj_free_coalesce_from (hs : Nat) :
    ∀ (l : List Blk) (cur : Blk), no_adj_free (coalesce_from hs cur l) := by
  intro l
  induction l with
  | nil => intro cur; simp [coalesce_from, no_adj_free]
  | cons b l ih =>
    intro cur
    unfold coalesce_from
    split
    · exact ih _
    · rename_i hfree
      have hrec := ih b
      obtain ⟨sz, rest, e⟩ := coalesce_from_head hs l b
      rw [e] at hrec ⊢
      exact ⟨hfree, hrec⟩

theorem no_adj_free_coalesce_list (hs : Nat) (bs : List Blk) :
    no_adj_free (coalesce_list hs bs) := by
  cases bs with
  | nil => simp [coalesce_list, no_adj_free]
  | cons b l => exact no_adj_free_coalesce_from hs l b

/-- A list without two free neighbours is left as it is. -/
theorem coalesce_from_fixed (hs : Nat) :
    ∀ (l : List Blk) (cur : Blk), no_adj_free (cur :: l) → coalesce_from hs cur l = cur :: l := by
  intro l
  induction l with
  | nil => intro cur _; rfl
  | cons b l ih =>
    intro cur h
    unfold coalesce_from
    rw [if_neg h.1, ih b h.2]

theorem coalesce_list_fixed (hs : Nat) (bs : List Blk) (h : no_adj_free bs) :
    coalesce_list hs bs = bs := by
  cases bs with
  | nil => rfl
  | cons b l => exact coalesce_from_fixed hs l b h

/-- An entry that is not free stays, as it is. -/
theorem coalesce_from_keeps (hs : Nat) :
    ∀ (l : List Blk) (cur b : Blk), b ∈ cur :: l → b.status ≠ STATUS_FREE →
      b ∈ coalesce_from hs cur l := by
  intro l
  induction l with
  | nil => intro cur b hb _; simpa [coalesce_from] using hb
  | cons c l ih =>
    intro cur b hb hst
    unfold coalesce_from
    split
    · rename_i hfree
      apply ih _ b _ hst
      rcases List.mem_cons.mp hb with e | hb
      · subst e; exact absurd hfree.1 hst
      · rcases List.mem_cons.mp hb with e | hb
        · subst e; exact absurd hfree.2 hst
        · exact List.mem_cons_of_mem _ hb
    · rcases List.mem_cons.mp hb with e | hb
      · subst e; exact List.mem_cons_self _ _
      · exact List.mem_cons_of_mem _ (ih c b hb hst)

theorem coalesce_list_keeps (hs : Nat) (bs : List Blk) (b : Blk) (hb : b ∈ bs)
    (hst : b.status ≠ STATUS_FREE) : b ∈ coalesce_list hs bs := by
  cases bs with
  | nil => simp at hb
  | cons c l => exact coalesce_from_keeps hs l c b hb hst

theorem coalesce_list_ne_nil (hs : Nat) (bs : List Blk) (h : bs ≠ []) :
    coalesce_list hs bs ≠ [] := by
  cases bs with
  | nil => exact absurd rfl h
  | cons c l => exact coalesce_from_ne_nil hs l c

theorem tiles_coalesce_list (hs : Nat) (maps : List (Nat × Nat)) (pos stop : Nat)
    (hstop : stop < WORD) (bs : List Blk) (h : tiles hs maps pos bs stop) :
    tiles hs maps pos (coalesce_list hs bs) stop := by
  cases bs with
  | nil => exact h
  | cons c l => exact tiles_coalesce_from hs maps stop hstop l c pos h

/-! ## Well-formed states through the steps of `find_best_free_block` -/

theorem coalesce_blocks_wf (P : Platform) (fuel : Nat) (s : State) (bs : List Blk)
    (hwf : Wf P s bs) (hf : 2 * bs.length + 1 ≤ fuel) :
    ∃ m', coalesce_blocks P fuel s = Outcome.ok { s with mem := m' } ∧
      Wf P { s with mem := m' } (coalesce_list P.BLOCK_META_SIZE bs) ∧
      (∀ x, x ∉ addrs bs → m' x = s.mem x) ∧
      (∀ x, (m' x).status = (s.mem x).status) := by
  obtain ⟨hrep, hnd, hk, ht, hl⟩ := hwf
  obtain ⟨m', e1, e2, e3, e4⟩ := coalesce_loop_rep P fuel bs s.mem s.list hrep hnd hf
  refine ⟨m', ?_, ⟨e2, ?_, hk, ?_, hl⟩, e3, e4⟩
  · unfold coalesce_blocks
    rw [e1]
    rfl
  · exact (coalesce_list_sublist _ bs).nodup hnd
  · intro hne
    have hbs : bs ≠ [] := by
      intro e
      subst e
      exact hne rfl
    exact tiles_coalesce_list _ _ _ _ hk.2.2.1 bs (ht hbs)

/-- What the search returns: the running best, or the address of an entry
that is free, large enough and below the running minimum. -/
theorem search_list_spec (size : Nat) :
    ∀ (bs : List Blk) (min_size best_block : Nat),
      search_list size bs min_size best_block = best_block ∨
      ∃ b ∈ bs, b.addr = search_list size bs min_size best_block ∧
        b.status = STATUS_FREE ∧ size ≤ b.size ∧ b.size < min_size := by
  intro bs
  induction bs with
  | nil => intro mn best; exact Or.inl rfl
  | cons c l ih =>
    intro mn best
    unfold search_list
    split
    · rename_i hc
      rcases ih c.size c.addr with h | ⟨b, hb, h1, h2, h3, h4⟩
      · exact Or.inr ⟨c, List.mem_cons_self _ _, h.symm, hc.1, hc.2.1, hc.2.2⟩
      · exact Or.inr ⟨b, List.mem_cons_of_mem _ hb, h1, h2, h3, by omega⟩
    · rcases ih mn best with h | ⟨b, hb, h1, h2, h3, h4⟩
      · exact Or.inl h
      · exact Or.inr ⟨b, List.mem_cons_of_mem _ hb, h1, h2, h3, h4⟩

/-- The search finds an entry when there is one to find. -/
theorem search_list_found (size : Nat) :
    ∀ (bs : List Blk) (min_size best_block : Nat),
      (∃ b ∈ bs, b.status = STATUS_FREE ∧ size ≤ b.size ∧ b.size < min_size) →
      ∃ b ∈ bs, b.addr = search_list size bs min_size best_block ∧
        b.status = STATUS_FREE ∧ size ≤ b.size ∧ b.size < min_size := by
  intro bs
  induction bs with
  | nil => intro mn best h; obtain ⟨b, hb, _⟩ := h; simp at hb
  | cons c l ih =>
    intro mn best h
    unfold search_list
    split
    · rename_i hc
      rcases search_list_spec size l c.size c.addr with h' | ⟨b, hb, h1, h2, h3, h4⟩
      · exact ⟨c, List.mem_cons_self _ _, h'.symm, hc.1, hc.2.1, hc.2.2⟩
      · exact ⟨b, List.mem_cons_of_mem _ hb, h1, h2, h3, by omega⟩
    · rename_i hc
      obtain ⟨b, hb, h1, h2, h3⟩ := h
      rcases List.mem_cons.mp hb with e | hb
      · subst e; exact absurd ⟨h1, h2, h3⟩ hc
      · obtain ⟨b', hb', g1, g2, g3, g4⟩ := ih mn best ⟨b, hb, h1, h2, h3⟩
        exact ⟨b', List.mem_cons_of_mem _ hb', g1, g2, g3, g4⟩

theorem nodup_addrs_append (pre post : List Blk) (b : Blk)
    (h : (addrs (pre ++ b :: post)).Nodup) :
    b.addr ∉ addrs pre ∧ b.addr ∉ addrs post ∧
      (∀ c ∈ pre, c.addr ≠ b.addr) ∧ (∀ c ∈ post, c.addr ≠ b.addr) := by
  simp only [addrs, List.map_append, List.map_cons] at h
  have h1 := List.nodup_append.mp h
  have h2 := List.nodup_cons.mp h1.2.1
  have hpre : b.addr ∉ List.map Blk.addr pre := fun e =>
    h1.2.2 e (List.mem_cons_self _ _)
  refine ⟨hpre, h2.1, ?_, ?_⟩
  · intro c hc e
    exact hpre (e ▸ List.mem_map_of_mem _ hc)
  · intro c hc e
    exact h2.1 (e ▸ List.mem_map_of_mem _ hc)

/-- Changing the status of a heap entry, to a status of a heap entry. -/
theorem flip_wf (P : Platform) (s : State) (pre post : List Blk) (b : Blk) (st : Status)
    (hwf : Wf P s (pre ++ b :: post)) (hb : b.status ≠ STATUS_MAPPED)
    (hst : st ≠ STATUS_MAPPED) :
    Wf P { s with mem := set_status s.mem b.addr st }
      (pre ++ { b with status := st } :: post) := by
  obtain ⟨hrep, hnd, hk, ht, hl⟩ := hwf
  obtain ⟨n1, n2, n3, n4⟩ := nodup_addrs_append pre post b hnd
  obtain ⟨mid, s1, s2⟩ := (seg_append _ _ _ _ _).mp hrep
  obtain ⟨a1, a2, a3, a4, a5⟩ := s2
  refine ⟨?_, ?_, hk, ?_, hl⟩
  · apply (seg_append _ _ _ _ _).mpr
    refine ⟨mid, ?_, ?_⟩
    · apply seg_congr _ _ _ _ _ s1
      intro c hc
      simp [n3 c hc]
    · refine ⟨a1, a2, by simpa using a3, by simp, ?_⟩
      simp only [set_status_next]
      apply seg_congr _ _ _ _ _ a5
      intro c hc
      simp [n4 c hc]
  · simpa [addrs] using hnd
  · intro _
    have ht' := ht (by simp)
    obtain ⟨mid', t1, t2⟩ := (tiles_append _ _ _ _ _ _).mp ht'
    apply (tiles_append _ _ _ _ _ _).mpr
    refine ⟨mid', t1, ?_⟩
    obtain ⟨t3, t4⟩ := t2.2 hb
    exact ⟨fun hm => absurd hm hst, fun _ => ⟨t3, t4⟩⟩

/-- The address of the header that a split makes is the address of no entry
of the list. -/
theorem split_addr_fresh (P : Platform) (s : State) (pre post : List Blk) (b : Blk) (T : Nat)
    (hwf : Wf P s (pre ++ b :: post)) (hpos : 0 < P.BLOCK_META_SIZE)
    (hb : b.status ≠ STATUS_MAPPED) (hT0 : 0 < T) (hbig : T < b.size) :
    b.addr + T ∉ addrs (pre ++ b :: post) := by
  obtain ⟨hrep, hnd, hk, ht, hl⟩ := hwf
  have ht' := ht (by simp)
  obtain ⟨mid, t1, t2⟩ := (tiles_append _ _ _ _ _ _).mp ht'
  obtain ⟨t3, t4⟩ := t2.2 hb
  have hle1 := tiles_le _ _ _ _ _ t1
  have hle2 := tiles_le _ _ _ _ _ t4
  apply heap_addr_fresh P s _ _ hk ht'
  · omega
  · intro c hc hcm e
    rcases List.mem_append.mp hc with hc | hc
    · have := tiles_heap_mem _ _ _ _ _ t1 c hc hcm
      omega
    · rcases List.mem_cons.mp hc with e' | hc
      · subst e'; omega
      · have := tiles_heap_mem _ _ _ _ _ t4 c hc hcm
        omega

/-- Splitting a heap entry that is larger than the request and a header. -/
theorem split_wf (P : Platform) (s : State) (pre post : List Blk) (b : Blk) (size T : Nat)
    (hwf : Wf P s (pre ++ b :: post)) (hpos : 0 < P.BLOCK_META_SIZE)
    (hb : b.status ≠ STATUS_MAPPED) (hT : T = size + P.BLOCK_META_SIZE) (hbig : T < b.size) :
    Wf P { s with mem := set_status (split_block s.mem b.addr T size) b.addr STATUS_ALLOC }
      (pre ++ { addr := b.addr, size := size, status := STATUS_ALLOC } ::
        { addr := b.addr + T, size := b.size - T, status := STATUS_FREE } :: post) := by
  have hT0 : T ≠ 0 := by omega
  have hfresh := split_addr_fresh P s pre post b T hwf hpos hb (by omega) hbig
  obtain ⟨hrep, hnd, hk, ht, hl⟩ := hwf
  obtain ⟨n1, n2, n3, n4⟩ := nodup_addrs_append pre post b hnd
  obtain ⟨mid, s1, s2⟩ := (seg_append _ _ _ _ _).mp hrep
  obtain ⟨a1, a2, a3, a4, a5⟩ := s2
  have f1 : ∀ c ∈ pre, c.addr ≠ b.addr + T := fun c hc e =>
    hfresh (e ▸ List.mem_map_of_mem _ (List.mem_append_left _ hc))
  have f2 : ∀ c ∈ post, c.addr ≠ b.addr + T := fun c hc e =>
    hfresh (e ▸ List.mem_map_of_mem _
      (List.mem_append_right _ (List.mem_cons_of_mem _ hc)))
  have f3 : b.addr + T ≠ b.addr := by omega
  refine ⟨?_, ?_, hk, ?_, hl⟩
  · apply (seg_append _ _ _ _ _).mpr
    refine ⟨mid, ?_, ?_⟩
    · apply seg_congr _ _ _ _ _ s1
      intro c hc
      simp [split_block_size_eq _ _ _ _ _ hT0, split_block_status_eq _ _ _ _ _ hT0,
        split_block_next_eq _ _ _ _ _ hT0, n3 c hc, f1 c hc]
    · refine ⟨a1, a2, ?_, ?_, ?_, ?_, ?_, ?_, ?_⟩
      · simp [split_block_size_eq _ _ _ _ _ hT0]
      · simp
      · simp [split_block_next_eq _ _ _ _ _ hT0]
      · simp only; omega
      · simp [split_block_size_eq _ _ _ _ _ hT0, f3, a3]
      · simp [split_block_status_eq _ _ _ _ _ hT0, f3]
      · simp only [set_status_next, split_block_next_eq _ _ _ _ _ hT0, f3, if_false, if_true]
        apply seg_congr _ _ _ _ _ a5
        intro c hc
        simp [split_block_size_eq _ _ _ _ _ hT0, split_block_status_eq _ _ _ _ _ hT0,
          split_block_next_eq _ _ _ _ _ hT0, n4 c hc, f2 c hc]
  · simp only [addrs, List.map_append, List.map_cons] at hnd hfresh ⊢
    have h1 := List.nodup_append.mp hnd
    have h2 := List.nodup_cons.mp h1.2.1
    simp only [List.mem_append, List.mem_cons, not_or] at hfresh
    apply List.nodup_append.mpr
    refine ⟨h1.1, ?_, ?_⟩
    · apply List.nodup_cons.mpr
      refine ⟨?_, ?_⟩
      · simp only [List.mem_cons, not_or]
        exact ⟨Ne.symm f3, h2.1⟩
      · exact List.nodup_cons.mpr ⟨hfresh.2.2, h2.2⟩
    · intro x hx1 hx2
      rcases List.mem_cons.mp hx2 with e | hx2
      · exact h1.2.2 hx1 (e ▸ List.mem_cons_self _ _)
      · rcases List.mem_cons.mp hx2 with e | hx2
        · exact hfresh.1 (e ▸ hx1)
        · exact h1.2.2 hx1 (List.mem_cons_of_mem _ hx2)
  · intro _
    have ht' := ht (by simp)
    obtain ⟨mid', t1, t2⟩ := (tiles_append _ _ _ _ _ _).mp ht'
    apply (tiles_append _ _ _ _ _ _).mpr
    refine ⟨mid', t1, ?_⟩
    obtain ⟨t3, t4⟩ := t2.2 hb
    refine ⟨fun hm => (by cases hm), fun _ => ⟨t3, ?_⟩⟩
    refine ⟨fun hm => (by cases hm), fun _ => ⟨?_, ?_⟩⟩
    · simp only; omega
    · have e : mid' + P.BLOCK_META_SIZE + size + P.BLOCK_META_SIZE + (b.size - T)
          = mid' + P.BLOCK_META_SIZE + b.size := by omega
      simp only [e]
      exact t4

theorem tiles_last (hs : Nat) (maps : List (Nat × Nat)) (init : List Blk) (z : Blk)
    (pos stop : Nat) (h : tiles hs maps pos (init ++ [z]) stop)
    (hz : z.status ≠ STATUS_MAPPED) :
    ∃ mid, tiles hs maps pos init mid ∧ z.addr = mid ∧ mid + hs + z.size = stop := by
  obtain ⟨mid, t1, t2⟩ := (tiles_append _ _ _ _ _ _).mp h
  obtain ⟨t3, t4⟩ := t2.2 hz
  exact ⟨mid, t1, t3, t4⟩

theorem sbrk_some (s : State) (increment : Nat) (r : State × Nat)
    (h : sbrk s increment = some r) :
    (increment % WORD < WORD / 2 → s.brk + increment % WORD < WORD ∧
      ∀ q ∈ s.maps, disjoint s.brk (increment % WORD) q.1 q.2) ∧
    (¬ increment % WORD < WORD / 2 → s.heap_start + (WORD - increment % WORD) ≤ s.brk) := by
  unfold sbrk at h
  simp only at h
  split at h
  · rename_i h1
    split at h
    · rename_i h2; exact ⟨fun _ => h2, fun hn => absurd h1 hn⟩
    · simp at h
  · rename_i h1
    split at h
    · rename_i h2; exact ⟨fun hn => absurd hn h1, fun _ => h2⟩
    · simp at h

theorem sbrk_none_or_some (s : State) (increment : Nat) :
    sbrk s increment = none ∨ ∃ r, sbrk s increment = some r := by
  cases sbrk s increment with
  | none => exact Or.inl rfl
  | some r => exact Or.inr ⟨r, rfl⟩

/-- The kernel side after a program-break adjustment that succeeded. -/
theorem sbrk_kernel_ok (s : State) (increment : Nat) (r : State × Nat)
    (hk : kernel_ok s) (h : sbrk s increment = some r) : kernel_ok r.1 := by
  obtain ⟨k0, k1, k2, k3⟩ := hk
  obtain ⟨e1, e2, e3, e4, e5, e6⟩ := sbrk_mem s increment r h
  have hb := sbrk_brk s increment r h
  obtain ⟨p1, p2⟩ := sbrk_some s increment r h
  unfold kernel_ok
  rw [e5, e6]
  by_cases hd : increment % WORD < WORD / 2
  · rw [if_pos hd] at hb
    obtain ⟨q1, q2⟩ := p1 hd
    refine ⟨k0, by omega, by omega, ?_⟩
    intro q hq
    obtain ⟨c1, c2⟩ := k3 q hq
    have := q2 q hq
    unfold disjoint at this
    refine ⟨c1, ?_⟩
    omega
  · rw [if_neg hd] at hb
    have := p2 hd
    refine ⟨k0, by omega, by omega, ?_⟩
    intro q hq
    obtain ⟨c1, c2⟩ := k3 q hq
    refine ⟨c1, ?_⟩
    omega

/-- The end of `find_best_free_block` on a well-formed state whose last entry
is `z`: it ends in `DIE` when the kernel refuses, and otherwise returns the
last entry grown (or cut) to the request, or a new last entry at the old
program break. -/
theorem extend_heap_wf (P : Platform) (fuel : Nat) (s : State) (init : List Blk) (z : Blk)
    (size : Nat) (hsane : sane P) (hwf : Wf P s (init ++ [z])) (hlatch : s.first_alloc ≠ 0)
    (hsize : size + P.BLOCK_META_SIZE ≤ INT_MAX) (hf : init.length + 1 ≤ fuel) :
    extend_heap P fuel s size = Outcome.die ∨
    ∃ s' b bs', extend_heap P fuel s size = Outcome.ok (s', b) ∧ Wf P s' bs' ∧
      (∀ x, x ∉ addrs bs' → (s'.mem x).status = (s.mem x).status) ∧
      s'.first_alloc = s.first_alloc ∧ s'.current_threshold = s.current_threshold ∧
      s'.maps = s.maps ∧ s'.heap_start = s.heap_start ∧
      ((z.status = STATUS_FREE ∧ b = z.addr ∧
          bs' = init ++ [{ addr := z.addr, size := size, status := STATUS_ALLOC }]) ∨
        (z.status ≠ STATUS_FREE ∧ b = s.brk ∧ s.brk ∉ addrs (init ++ [z]) ∧
          bs' = init ++ [z, { addr := s.brk, size := size, status := STATUS_ALLOC }])) := by
  obtain ⟨hal, hpos, hle, hpg⟩ := hsane
  have hwf' := hwf
  obtain ⟨hrep, hnd, hk, ht, hl⟩ := hwf
  have ht' := ht (by simp)
  obtain ⟨mid, s1, s2⟩ := (seg_append _ _ _ _ _).mp hrep
  obtain ⟨a1, a2, a3, a4, a5⟩ := s2
  have a5' : (s.mem z.addr).next = 0 := a5
  have hlist : s.list ≠ 0 := by
    cases init with
    | nil => obtain ⟨g1, g2, _⟩ := hrep; rw [g1]; exact g2
    | cons c l => obtain ⟨g1, g2, _⟩ := hrep; rw [g1]; exact g2
  have hlast := last_loop_rep fuel init z s.mem s.list hrep hf
  have hIM : INT_MAX = 2147483647 := rfl
  have hW : WORD = 18446744073709551616 := rfl
  have hext : extend_heap P fuel s size =
      if z.status = STATUS_FREE then
        (or_die (sbrk s (wsub size z.size))).bind fun r =>
          Outcome.ok ({ r.1 with mem := set_status (set_size s.mem z.addr
            (wadd z.size (wsub size z.size))) z.addr STATUS_ALLOC }, z.addr)
      else
        (or_die (sbrk s (wadd size P.BLOCK_META_SIZE))).bind fun r =>
          if r.2 = 0 then Outcome.segv
          else Outcome.ok ({ r.1 with mem := set_next (set_status (set_next (set_prev
            (set_size s.mem r.2 size) r.2 z.addr) r.2 0) r.2 STATUS_ALLOC) z.addr r.2 }, r.2) := by
    unfold extend_heap
    simp only [hlist, if_false, hlast, Outcome.bind_ok, a4, a3]
  rw [hext]
  clear hext
  by_cases hz : z.status = STATUS_FREE
  · rw [if_pos hz]
    rcases sbrk_none_or_some s (wsub size z.size) with hn | ⟨r, hr⟩
    · left; rw [hn]; rfl
    · right
      rw [hr]
      simp only [or_die_some, Outcome.bind_ok]
      have hzm : z.status ≠ STATUS_MAPPED := by rw [hz]; decide
      obtain ⟨mid', t1, t3, t4⟩ := tiles_last _ _ _ _ _ _ ht' hzm
      obtain ⟨e1, e2, e3, e4, e5, e6⟩ := sbrk_mem s _ r hr
      have hbrk := sbrk_brk s _ r hr
      obtain ⟨p1, p2⟩ := sbrk_some s _ r hr
      have hk' := sbrk_kernel_ok s _ r hk hr
      have hwz : wadd z.size (wsub size z.size) = size := by
        rw [wadd_wsub]; exact Nat.mod_eq_of_lt (by omega)
      have hnewbrk : r.1.brk = z.addr + P.BLOCK_META_SIZE + size := by
        obtain ⟨k0, k1, k2, _⟩ := hk
        have hmod : wsub size z.size % WORD = wsub size z.size := by
          unfold wsub WORD; omega
        rw [hmod] at hbrk p1 p2
        unfold wsub at hbrk p1 p2
        rw [hW] at hbrk p1 p2 k2
        split at hbrk <;> omega
      obtain ⟨n1, n2, n3, n4⟩ := nodup_addrs_append init [] z hnd
      refine ⟨_, _, _, rfl, ⟨?_, ?_, ?_, ?_, ?_⟩, ?_, e3, e4, e6, e5, Or.inl ⟨hz, rfl, rfl⟩⟩
      · dsimp only
        apply (seg_append _ _ _ _ _).mpr
        rw [e2]
        refine ⟨mid, ?_, ?_⟩
        · apply seg_congr _ _ _ _ _ s1
          intro c hc
          simp [n3 c hc]
        · refine ⟨a1, a2, ?_, ?_, ?_⟩
          · simp [hwz]
          · simp
          · simpa using a5'
      · simpa [addrs] using hnd
      · exact ⟨hk'.1, hk'.2.1, hk'.2.2.1, hk'.2.2.2⟩
      · intro _
        dsimp only
        rw [e6, e5, hnewbrk]
        apply (tiles_append _ _ _ _ _ _).mpr
        refine ⟨mid', t1, fun hm => (by cases hm), fun _ => ⟨t3, ?_⟩⟩
        show mid' + P.BLOCK_META_SIZE + size = z.addr + P.BLOCK_META_SIZE + size
        omega
      · intro h0
        dsimp only at h0
        rw [e3] at h0
        exact absurd h0 hlatch
      · intro x hx
        have hxz : x ≠ z.addr := fun e => hx (by simp [addrs, e])
        simp [hxz]
  · rw [if_neg hz]
    have hinc : wadd size P.BLOCK_META_SIZE = size + P.BLOCK_META_SIZE :=
      wadd_of_lt _ _ (by omega)
    rw [hinc]
    rcases sbrk_none_or_some s (size + P.BLOCK_META_SIZE) with hn | ⟨r, hr⟩
    · left; rw [hn]; rfl
    · right
      rw [hr]
      simp only [or_die_some, Outcome.bind_ok]
      obtain ⟨e1, e2, e3, e4, e5, e6⟩ := sbrk_mem s _ r hr
      have hbrk := sbrk_brk s _ r hr
      obtain ⟨p1, p2⟩ := sbrk_some s _ r hr
      have hk' := sbrk_kernel_ok s _ r hk hr
      have hr2 := (sbrk_spec s _ r hr).1
      have hmod : (size + P.BLOCK_META_SIZE) % WORD = size + P.BLOCK_META_SIZE :=
        Nat.mod_eq_of_lt (by omega)
      have hpos' : (size + P.BLOCK_META_SIZE) % WORD < WORD / 2 := by
        rw [hmod, hW]; omega
      rw [if_pos hpos', hmod] at hbrk
      obtain ⟨q1, q2⟩ := p1 hpos'
      rw [hmod] at q2
      have hb0 : s.brk ≠ 0 := by
        obtain ⟨k0, k1, _⟩ := hk
        omega
      have hfresh : s.brk ∉ addrs (init ++ [z]) := by
        intro hmem
        obtain ⟨c, hc, e⟩ := List.mem_map.mp hmem
        by_cases hcm : c.status = STATUS_MAPPED
        · obtain ⟨len, h1, h2⟩ := tiles_mapped_mem _ _ _ _ _ ht' c hc hcm
          have := q2 _ h1
          unfold disjoint at this
          simp only at this
          omega
        · have := tiles_heap_mem _ _ _ _ _ ht' c hc hcm
          omega
      have hnz : s.brk ≠ z.addr := fun e => hfresh (by simp [addrs, e])
      have hni : ∀ c ∈ init, c.addr ≠ s.brk := fun c hc e =>
        hfresh (e ▸ List.mem_map_of_mem _ (List.mem_append_left _ hc))
      obtain ⟨n1, n2, n3, n4⟩ := nodup_addrs_append init [] z hnd
      rw [hr2]
      simp only [hb0, if_false]
      refine ⟨_, _, _, rfl, ⟨?_, ?_, ?_, ?_, ?_⟩, ?_, e3, e4, e6, e5,
        Or.inr ⟨hz, rfl, hfresh, rfl⟩⟩
      · dsimp only
        apply (seg_append _ _ _ _ _).mpr
        rw [e2]
        refine ⟨mid, ?_, ?_⟩
        · apply seg_congr _ _ _ _ _ s1
          intro c hc
          simp [n3 c hc, hni c hc]
        · refine ⟨a1, a2, ?_, ?_, ?_, hb0, ?_, ?_, ?_⟩
          · simp [Ne.symm hnz, a3]
          · simp [Ne.symm hnz, a4]
          · simp
          · simp
          · simp
          · simp [hnz]
            rfl
      · simp only [addrs, List.map_append, List.map_cons, List.map_nil] at hnd hfresh ⊢
        have h1 := List.nodup_append.mp hnd
        simp only [List.mem_append, List.mem_cons, List.mem_singleton, not_or,
          List.not_mem_nil, or_false] at hfresh
        apply List.nodup_append.mpr
        refine ⟨h1.1, ?_, ?_⟩
        · simp [Ne.symm hnz]
        · intro x hx1 hx2
          simp only [List.mem_cons, List.mem_singleton, List.not_mem_nil, or_false] at hx2
          rcases hx2 with e | e
          · exact h1.2.2 hx1 (by simp [e])
          · exact hfresh.1 (e ▸ hx1)
      · exact hk'
      · intro _
        dsimp only
        rw [e6, e5, hbrk]
        have : init ++ [z, { addr := s.brk, size := size, status := STATUS_ALLOC }]
            = (init ++ [z]) ++ [{ addr := s.brk, size := size, status := STATUS_ALLOC }] := by
          simp
        rw [this]
        apply (tiles_append _ _ _ _ _ _).mpr
        refine ⟨s.brk, ht', fun hm => (by cases hm), fun _ => ⟨rfl, ?_⟩⟩
        show s.brk + P.BLOCK_META_SIZE + size = s.brk + (size + P.BLOCK_META_SIZE)
        omega
      · intro h0
        dsimp only at h0
        rw [e3] at h0
        exact absurd h0 hlatch
      · intro x hx
        have hxb : x ≠ s.brk := fun e => hx (by simp [addrs, e])
        have hxz : x ≠ z.addr := fun e => hx (by simp [addrs, e])
        simp [hxb, hxz]

theorem find_best_free_block_wf (P : Platform) (fuel : Nat) (s : State) (bs : List Blk)
    (size : Nat) (hsane : sane P) (hwf : Wf P s bs) (hne : bs ≠ [])
    (hlatch : s.first_alloc ≠ 0) (hsize : size + P.BLOCK_META_SIZE ≤ INT_MAX)
    (hf : 2 * bs.length + 1 ≤ fuel) :
    (search_list size (coalesce_list P.BLOCK_META_SIZE bs) INT_MAX 0 = 0 ∧
      find_best_free_block P fuel s size = Outcome.die) ∨
    ∃ s' b bs', find_best_free_block P fuel s size = Outcome.ok (s', b) ∧ Wf P s' bs' ∧
      (∀ x, x ∉ addrs bs' → (s'.mem x).status = (s.mem x).status) ∧
      s'.first_alloc = s.first_alloc ∧ s'.current_threshold = s.current_threshold ∧
      s'.maps = s.maps ∧ s'.heap_start = s.heap_start ∧
      (search_list size (coalesce_list P.BLOCK_META_SIZE bs) INT_MAX 0 ≠ 0 →
        s'.brk = s.brk ∧ s'.log = s.log) ∧
      served P.BLOCK_META_SIZE size s.brk b (coalesce_list P.BLOCK_META_SIZE bs) bs' := by
  have hIM : INT_MAX = 2147483647 := rfl
  have hW : WORD = 18446744073709551616 := rfl
  obtain ⟨m', c1, c2, c3, c4⟩ := coalesce_blocks_wf P fuel s bs hwf hf
  have hlen : (coalesce_list P.BLOCK_META_SIZE bs).length ≤ bs.length := by
    have := (coalesce_list_sublist P.BLOCK_META_SIZE bs).length_le
    simpa [addrs] using this
  have hsearch := search_loop_rep size fuel (coalesce_list P.BLOCK_META_SIZE bs) m' s.list
    INT_MAX 0 c2.1 (by omega)
  have hT : wadd size P.BLOCK_META_SIZE = size + P.BLOCK_META_SIZE :=
    wadd_of_lt _ _ (by omega)
  unfold find_best_free_block
  rw [c1]
  simp only [Outcome.bind_ok, hsearch, hT]
  generalize hcl : coalesce_list P.BLOCK_META_SIZE bs = cl at *
  by_cases hr0 : search_list size cl INT_MAX 0 = 0
  · -- nothing found: extend the heap
    simp only [hr0, ne_eq, not_true_eq_false, false_and, if_false]
    have hclne : cl ≠ [] := by rw [← hcl]; exact coalesce_list_ne_nil _ bs hne
    obtain ⟨init, z, hiz⟩ := exists_last cl hclne
    have hwf1 : Wf P { s with mem := m' } (init ++ [z]) := hiz ▸ c2
    have hf1 : init.length + 1 ≤ fuel := by
      have : cl.length = init.length + 1 := by rw [hiz]; simp
      omega
    rcases extend_heap_wf P fuel { s with mem := m' } init z size hsane hwf1 hlatch hsize hf1
      with hd | ⟨s', b, bs', e1, e2, e3, e4, e5, e6, e7, e8⟩
    · left; exact ⟨trivial, hd⟩
    · right
      refine ⟨s', b, bs', e1, e2, ?_, e4, e5, e6, e7, fun h => h.elim, ?_⟩
      · intro x hx
        rw [e3 x hx]
        exact c4 x
      · rcases e8 with ⟨g1, g2, g3⟩ | ⟨g1, g2, g3, g4⟩
        · exact Or.inr (Or.inl ⟨hr0, init, z, hiz, g1, g2, g3⟩)
        · refine Or.inr (Or.inr ⟨hr0, init, z, hiz, g1, g2, ?_, ?_⟩)
          · rw [hiz]; exact g3
          · rw [g4, hiz]; simp
  · -- found
    right
    simp only [hr0, ne_eq, not_false_eq_true, true_and, if_true]
    rcases search_list_spec size cl INT_MAX 0 with h0 | ⟨c, hc, g1, g2, g3, g4⟩
    · exact absurd h0 hr0
    · obtain ⟨pre, post, hpp⟩ := List.append_of_mem hc
      have hwf1 : Wf P { s with mem := m' } (pre ++ c :: post) := hpp ▸ c2
      have hcm : c.status ≠ STATUS_MAPPED := by rw [g2]; decide
      have hcsz : (m' c.addr).size = c.size :=
        (seg_mem _ _ _ _ c2.1 c hc).1
      rw [← g1, hcsz]
      by_cases hbig : c.size > size + P.BLOCK_META_SIZE
      · simp only [hbig, if_true]
        have hw := split_wf P { s with mem := m' } pre post c size (size + P.BLOCK_META_SIZE)
          hwf1 hsane.2.1 hcm rfl hbig
        refine ⟨_, _, _, rfl, hw, ?_, rfl, rfl, rfl, rfl, fun _ => ⟨rfl, rfl⟩, ?_⟩
        · intro x hx
          have hT0 : size + P.BLOCK_META_SIZE ≠ 0 := by have := hsane.2.1; omega
          have hx1 : x ≠ c.addr := fun e => hx (by simp [addrs, e])
          have hx2 : x ≠ c.addr + (size + P.BLOCK_META_SIZE) := fun e => hx (by simp [addrs, e])
          simp only [set_status_status, hx1, if_false, split_block_status_eq _ _ _ _ _ hT0, hx2]
          exact c4 x
        · refine Or.inl ⟨pre, c, post, hpp, rfl, g2, g3, g4, ?_⟩
          have : size + P.BLOCK_META_SIZE < c.size := hbig
          simp [this]
      · simp only [hbig, if_false]
        have hw := flip_wf P { s with mem := m' } pre post c STATUS_ALLOC hwf1 hcm (by decide)
        refine ⟨_, _, _, rfl, hw, ?_, rfl, rfl, rfl, rfl, fun _ => ⟨rfl, rfl⟩, ?_⟩
        · intro x hx
          have hx1 : x ≠ c.addr := fun e => hx (by simp [addrs, e])
          simp only [set_status_status, hx1, if_false]
          exact c4 x
        · refine Or.inl ⟨pre, c, post, hpp, rfl, g2, g3, g4, ?_⟩
          have : ¬ size + P.BLOCK_META_SIZE < c.size := hbig
          simp [this]

/-! ## Well-formed states through `os_malloc` -/

/-- The prelude on a well-formed state whose latch is clear: `DIE` when the
kernel refuses, else the list is the one free entry of the prelude. -/
theorem heap_prelude_wf (P : Platform) (s : State) (bs : List Blk) (hsane : sane P)
    (hwf : Wf P s bs) (hlatch : s.first_alloc = 0) :
    heap_prelude P s = Outcome.die ∨
    ∃ s1, heap_prelude P s = Outcome.ok s1 ∧
      Wf P s1 [{ addr := s.brk, size := MMAP_THRESHOLD - P.BLOCK_META_SIZE,
                 status := STATUS_FREE }] ∧
      (∀ x, x ≠ s.brk → (s1.mem x).status = (s.mem x).status) ∧
      s1.first_alloc = 1 ∧ s1.current_threshold = s.current_threshold ∧
      s1.maps = s.maps ∧ s1.heap_start = s.heap_start ∧ s1.brk = s.brk + MMAP_THRESHOLD := by
  obtain ⟨hal, hpos, hle, hpg⟩ := hsane
  obtain ⟨hrep, hnd, hk, ht, hl⟩ := hwf
  have hW : WORD = 18446744073709551616 := rfl
  have hthr : MMAP_THRESHOLD = 131072 := by decide
  have hbs := hl hlatch
  unfold heap_prelude
  simp only [hlatch, if_true]
  rcases sbrk_none_or_some { s with first_alloc := 1 } MMAP_THRESHOLD with hn | ⟨r, hr⟩
  · left; rw [hn]; rfl
  · right
    rw [hr]
    simp only [or_die_some, Outcome.bind_ok]
    obtain ⟨e1, e2, e3, e4, e5, e6⟩ := sbrk_mem _ _ r hr
    have hbrk := sbrk_brk _ _ r hr
    have hk0 : kernel_ok { s with first_alloc := 1 } := hk
    have hk' := sbrk_kernel_ok _ _ r hk0 hr
    have hr2 := (sbrk_spec _ _ r hr).1
    simp only at hr2 e1 e2 e3 e4 e5 e6 hbrk
    have hmod : MMAP_THRESHOLD % WORD = MMAP_THRESHOLD := by decide
    rw [hmod, if_pos (by decide)] at hbrk
    have hb0 : s.brk ≠ 0 := by
      obtain ⟨k0, k1, _⟩ := hk
      omega
    rw [hr2]
    simp only [hb0, if_false]
    have hws : wsub MMAP_THRESHOLD P.BLOCK_META_SIZE = MMAP_THRESHOLD - P.BLOCK_META_SIZE :=
      wsub_of_le _ _ hle (by decide)
    refine ⟨_, rfl, ⟨?_, ?_, ?_, ?_, ?_⟩, ?_, e3, e4, e6, e5, hbrk⟩
    · exact ⟨rfl, hb0, by simp [hws], by simp, by simp [Seg]⟩
    · simp [addrs]
    · exact hk'
    · intro _
      dsimp only
      rw [e6, e5, hbrk]
      refine ⟨fun hm => (by cases hm), fun _ => ⟨hbs, ?_⟩⟩
      show s.heap_start + P.BLOCK_META_SIZE + (MMAP_THRESHOLD - P.BLOCK_META_SIZE)
        = s.brk + MMAP_THRESHOLD
      omega
    · intro h0
      dsimp only at h0
      rw [e3] at h0
      cases h0
    · intro x hx
      simp [hx, e1]

theorem mmap_none_or_some (P : Platform) (s : State) (length addr : Nat) :
    mmap P s length addr = none ∨ ∃ r, mmap P s length addr = some r := by
  cases mmap P s length addr with
  | none => exact Or.inl rfl
  | some r => exact Or.inr ⟨r, rfl⟩

theorem mmap_some (P : Platform) (s : State) (length addr : Nat) (r : State × Nat)
    (h : mmap P s length addr = some r) :
    addr + length < WORD ∧ disjoint addr length s.heap_start (s.brk - s.heap_start) ∧
      ∀ q ∈ s.maps, disjoint addr length q.1 q.2 := by
  unfold mmap at h
  split at h
  · rename_i hc; exact ⟨hc.2.2.1, hc.2.2.2.1, hc.2.2.2.2⟩
  · simp at h

/-- The mapping branch of `os_malloc` on a well-formed state: `DIE` when the
kernel refuses, a null dereference when the list is empty with the latch
set, else the new entry is the whole list (latch clear) or its new last
entry (latch set). -/
theorem map_block_wf (P : Platform) (fuel at_addr : Nat) (s : State) (bs : List Blk)
    (size total_size : Nat) (hsane : sane P) (hwf : Wf P s bs)
    (htotal : P.BLOCK_META_SIZE + size ≤ total_size) (hf : bs.length + 1 ≤ fuel) :
    map_block P fuel at_addr s size total_size = Outcome.die ∨
    (bs = [] ∧ s.first_alloc ≠ 0 ∧
      map_block P fuel at_addr s size total_size = Outcome.segv) ∨
    ∃ s', map_block P fuel at_addr s size total_size
        = Outcome.ok (s', at_addr + P.BLOCK_META_SIZE) ∧
      Wf P s' ((if s.first_alloc = 0 then [] else bs) ++
        [{ addr := at_addr, size := size, status := STATUS_MAPPED }]) ∧
      at_addr ∉ addrs bs ∧
      (∀ x, x ≠ at_addr → (s'.mem x).status = (s.mem x).status) ∧
      s'.first_alloc = s.first_alloc ∧ s'.current_threshold = s.current_threshold ∧
      s'.heap_start = s.heap_start ∧ s'.brk = s.brk := by
  obtain ⟨hal, hpos, hle, hpg⟩ := hsane
  obtain ⟨hrep, hnd, hk, ht, hl⟩ := hwf
  unfold map_block
  rcases mmap_none_or_some P s total_size at_addr with hn | ⟨r, hr⟩
  · left; rw [hn]; rfl
  · right
    rw [hr]
    simp only [or_die_some, Outcome.bind_ok]
    obtain ⟨hr2, hne, hr1⟩ := mmap_spec P s total_size at_addr r hr
    obtain ⟨q1, q2, q3⟩ := mmap_some P s total_size at_addr r hr
    unfold disjoint at q2
    obtain ⟨k0, k1, k2, k3⟩ := hk
    have hk' : kernel_ok r.1 := by
      rw [hr1]
      refine ⟨k0, k1, k2, ?_⟩
      intro q hq
      rcases List.mem_cons.mp hq with e | hq
      · subst e
        simp only
        refine ⟨by omega, ?_⟩
        omega
      · exact k3 q hq
    have hfresh : at_addr ∉ addrs bs := by
      intro hmem
      obtain ⟨c, hc, e⟩ := List.mem_map.mp hmem
      have hbsne : bs ≠ [] := by intro e0; subst e0; simp at hc
      have ht' := ht hbsne
      by_cases hcm : c.status = STATUS_MAPPED
      · obtain ⟨len, h1, h2⟩ := tiles_mapped_mem _ _ _ _ _ ht' c hc hcm
        have := q3 _ h1
        unfold disjoint at this
        simp only at this
        omega
      · have := tiles_heap_mem _ _ _ _ _ ht' c hc hcm
        omega
    rw [hr2, hr1]
    simp only [hne, if_false]
    unfold add_mapped_elem
    simp only [hne, if_false]
    by_cases hfa : s.first_alloc = 0
    · right
      simp only [hfa, if_true, Outcome.bind_ok]
      have hbh := hl hfa
      refine ⟨_, rfl, ⟨?_, ?_, ?_, ?_, ?_⟩, hfresh, ?_, rfl, rfl, rfl, rfl⟩
      · exact ⟨rfl, hne, by simp, by simp, by simp [Seg]⟩
      · simp [addrs]
      · rw [hr1] at hk'; exact hk'
      · intro _
        refine ⟨fun _ => ⟨⟨total_size, by simp, htotal⟩, hbh.symm⟩, fun hm => absurd rfl hm⟩
      · intro _; exact hbh
      · intro x hx
        simp [hx]
    · simp only [hfa, if_false]
      cases hbs : bs with
      | nil =>
        left
        subst hbs
        have hl0 : s.list = 0 := hrep
        refine ⟨rfl, hfa, ?_⟩
        rw [hl0, tail_loop_nil fuel _ 0 (by omega)]
        simp [Outcome.bind]
      | cons c0 l0 =>
        right
        have hbsne : bs ≠ [] := by rw [hbs]; simp
        obtain ⟨init, z, hiz⟩ := exists_last bs hbsne
        rw [← hbs]
        subst hiz
        have ht' := ht hbsne
        have hlen : init.length + 2 ≤ fuel := by simp at hf; omega
        have hrep2 : Rep (set_status (set_size s.mem at_addr size) at_addr STATUS_MAPPED)
            s.list (init ++ [z]) := by
          apply seg_congr _ _ _ _ _ hrep
          intro c hc
          have : c.addr ≠ at_addr := fun e => hfresh (e ▸ List.mem_map_of_mem _ hc)
          simp [this]
        rw [tail_loop_rep fuel init z _ s.list 0 hrep2 hlen]
        obtain ⟨mid, s1, s2⟩ := (seg_append _ _ _ _ _).mp hrep
        obtain ⟨a1, a2, a3, a4, a5⟩ := s2
        obtain ⟨n1, n2, n3, n4⟩ := nodup_addrs_append init [] z hnd
        have hnz : at_addr ≠ z.addr := fun e => hfresh (by simp [addrs, e])
        have hni : ∀ c ∈ init, c.addr ≠ at_addr := fun c hc e =>
          hfresh (e ▸ List.mem_map_of_mem _ (List.mem_append_left _ hc))
        simp only [Outcome.bind_ok, a2, if_false]
        refine ⟨_, rfl, ⟨?_, ?_, ?_, ?_, ?_⟩, hfresh, ?_, rfl, rfl, rfl, rfl⟩
        · dsimp only
          rw [List.append_assoc]
          apply (seg_append _ _ _ _ _).mpr
          refine ⟨mid, ?_, ?_⟩
          · apply seg_congr _ _ _ _ _ s1
            intro c hc
            simp [n3 c hc, hni c hc]
          · refine ⟨a1, a2, ?_, ?_, ?_, hne, ?_, ?_, ?_⟩
            · simp [Ne.symm hnz, a3]
            · simp [Ne.symm hnz, a4]
            · simp [Ne.symm hnz]
            · simp
            · simp
            · simp [Seg]
        · simp only [addrs, List.map_append, List.map_cons, List.map_nil] at hnd hfresh ⊢
          apply List.nodup_append.mpr
          refine ⟨hnd, by simp, ?_⟩
          intro x hx1 hx2
          simp only [List.mem_singleton] at hx2
          exact hfresh (hx2 ▸ hx1)
        · rw [hr1] at hk'; exact hk'
        · intro _
          dsimp only
          apply (tiles_append _ _ _ _ _ _).mpr
          refine ⟨s.brk, tiles_maps_mono _ _ _ (fun q hq => List.mem_cons_of_mem _ hq) _ _ _ ht',
            fun _ => ⟨⟨total_size, by simp, htotal⟩, rfl⟩, fun hm => absurd rfl hm⟩
        · intro h0; exact absurd h0 hfa
        · intro x hx
          simp [hx]

theorem served_result (hs size brk b : Nat) (cl bs' : List Blk)
    (h : served hs size brk b cl bs') :
    ∃ c ∈ bs', c.addr = b ∧ c.status = STATUS_ALLOC ∧ size ≤ c.size := by
  rcases h with ⟨pre, c, post, _, h2, _, h4, _, h6⟩ | ⟨_, init, z, _, _, h3, h4⟩ |
    ⟨_, init, z, _, _, h3, _, h5⟩
  · subst h6
    split
    · exact ⟨{ addr := c.addr, size := size, status := STATUS_ALLOC }, by simp, h2, rfl,
        le_refl _⟩
    · exact ⟨{ c with status := STATUS_ALLOC }, by simp, h2, rfl, h4⟩
  · subst h4
    exact ⟨{ addr := z.addr, size := size, status := STATUS_ALLOC }, by simp, h3.symm, rfl,
      le_refl _⟩
  · subst h5
    exact ⟨{ addr := brk, size := size, status := STATUS_ALLOC }, by simp, h3.symm, rfl,
      le_refl _⟩

theorem served_addrs (hs size brk b : Nat) (cl bs' : List Blk)
    (h : served hs size brk b cl bs') : ∀ x ∈ addrs cl, x ∈ addrs bs' := by
  intro x hx
  rcases h with ⟨pre, c, post, h1, _, _, _, _, h6⟩ | ⟨_, init, z, h1, _, _, h4⟩ |
    ⟨_, init, z, _, _, _, _, h5⟩
  · subst h6 h1
    simp only [addrs, List.map_append, List.map_cons, List.mem_append, List.mem_cons] at hx ⊢
    split
    · rcases hx with hx | hx | hx
      · exact Or.inl (Or.inl hx)
      · exact Or.inl (Or.inr (by simp [hx]))
      · exact Or.inr hx
    · rcases hx with hx | hx | hx
      · exact Or.inl (Or.inl hx)
      · exact Or.inl (Or.inr (by simp [hx]))
      · exact Or.inr hx
  · subst h4 h1
    simpa [addrs] using hx
  · subst h5
    simp only [addrs, List.map_append, List.mem_append]
    exact Or.inl hx

theorem served_keeps (hs size brk b : Nat) (cl bs' : List Blk)
    (h : served hs size brk b cl bs') (hnd : (addrs cl).Nodup) :
    ∀ c ∈ cl, c.status ≠ STATUS_FREE → c ∈ bs' ∧ c.addr ≠ b := by
  intro c hc hst
  rcases h with ⟨pre, c0, post, h1, h2, h3, _, _, h6⟩ | ⟨_, init, z, h1, h2, h3, h4⟩ |
    ⟨_, init, z, _, _, h3, h4, h5⟩
  · subst h6 h1 h2
    obtain ⟨n1, n2, n3, n4⟩ := nodup_addrs_append pre post c0 hnd
    rcases List.mem_append.mp hc with hc | hc
    · exact ⟨by simp [hc], n3 c hc⟩
    · rcases List.mem_cons.mp hc with e | hc
      · subst e; exact absurd h3 hst
      · exact ⟨by simp [hc], n4 c hc⟩
  · subst h4 h1 h3
    obtain ⟨n1, n2, n3, n4⟩ := nodup_addrs_append init [] z hnd
    rcases List.mem_append.mp hc with hc | hc
    · exact ⟨by simp [hc], n3 c hc⟩
    · simp only [List.mem_singleton] at hc
      subst hc; exact absurd h2 hst
  · subst h5 h3
    refine ⟨by simp [hc], ?_⟩
    intro e
    exact h4 (e ▸ List.mem_map_of_mem _ hc)

/-- `find_best_free_block` on a well-formed state with a non-empty list and
the latch set: `DIE` when the kernel refuses, else it returns. -/
theorem find_best_free_block_grown (P : Platform) (fuel : Nat) (s : State) (bs : List Blk)
    (size : Nat) (hsane : sane P) (hwf : Wf P s bs) (hne : bs ≠ [])
    (hlatch : s.first_alloc ≠ 0) (hsize : size + P.BLOCK_META_SIZE ≤ INT_MAX)
    (hf : 2 * bs.length + 1 ≤ fuel) :
    find_best_free_block P fuel s size = Outcome.die ∨
    ∃ s' b bs', find_best_free_block P fuel s size = Outcome.ok (s', b) ∧
      Grown P s bs s' bs' (b + P.BLOCK_META_SIZE) size ∧
      (∀ x ∈ addrs (coalesce_list P.BLOCK_META_SIZE bs), x ∈ addrs bs') := by
  rcases find_best_free_block_wf P fuel s bs size hsane hwf hne hlatch hsize hf
    with ⟨-, hd⟩ | ⟨s', b, bs', g1, g2, g3, g4, g5, g6, g7, g8, g9⟩
  · exact Or.inl hd
  · refine Or.inr ⟨s', b, bs', g1, ⟨g2, g3, ?_, ?_, g5, g7, ?_⟩, served_addrs _ _ _ _ _ _ g9⟩
    · intro _
      refine ⟨by rw [g4]; exact hlatch, ?_⟩
      intro c hc hst
      have hnd := (coalesce_list_sublist P.BLOCK_META_SIZE bs).nodup hwf.2.1
      obtain ⟨k1, k2⟩ := served_keeps _ _ _ _ _ _ g9 hnd c
        (coalesce_list_keeps _ bs c hc hst) hst
      exact ⟨k1, by omega⟩
    · intro h0
      rw [g4] at h0
      exact absurd h0 hlatch
    · obtain ⟨c, hc, k1, k2, k3⟩ := served_result _ _ _ _ _ _ g9
      exact ⟨c, hc, by rw [k1], Or.inl k2, k3⟩

/-- `os_malloc` on a well-formed state, for a request whose footprint does not
wrap: it ends in `DIE` when the kernel refuses, dereferences `NULL` when the
list is empty with the latch set, and otherwise returns. -/
theorem os_malloc_wf (P : Platform) (fuel at_addr : Nat) (s : State) (bs : List Blk)
    (n : Nat) (hsane : sane P) (hwf : Wf P s bs) (hn : n ≠ 0)
    (hthr : s.current_threshold ≤ INT_MAX)
    (hfit : ALIGN n + ALIGN P.BLOCK_META_SIZE < WORD)
    (hf : 2 * bs.length + 3 ≤ fuel) :
    os_malloc P fuel at_addr s n = Outcome.die ∨
    (bs = [] ∧ s.first_alloc ≠ 0 ∧ os_malloc P fuel at_addr s n = Outcome.segv) ∨
    ∃ s' p bs', os_malloc P fuel at_addr s n = Outcome.ok (s', p) ∧
      Grown P s bs s' bs' p (ALIGN n) := by
  have hIM : INT_MAX = 2147483647 := rfl
  have hW : WORD = 18446744073709551616 := rfl
  have hthrv : MMAP_THRESHOLD = 131072 := by decide
  obtain ⟨hal, hpos, hle, hpg⟩ := hsane
  have hsane : sane P := ⟨hal, hpos, hle, hpg⟩
  have hA : ALIGN P.BLOCK_META_SIZE = P.BLOCK_META_SIZE := ALIGN_of_mod _ hal (by omega)
  have hT : wadd (ALIGN n) (ALIGN P.BLOCK_META_SIZE) = ALIGN n + P.BLOCK_META_SIZE := by
    rw [wadd_of_lt _ _ hfit, hA]
  unfold os_malloc
  simp only [hn, if_false, hT]
  by_cases hmap : ALIGN n + P.BLOCK_META_SIZE > s.current_threshold
  · simp only [hmap, if_true]
    rcases map_block_wf P fuel at_addr s bs (ALIGN n) (ALIGN n + P.BLOCK_META_SIZE) hsane hwf
      (by omega) (by omega) with hd | hsegv | ⟨s', e1, e2, e3, e4, e5, e6, e7, e8⟩
    · exact Or.inl hd
    · exact Or.inr (Or.inl hsegv)
    · refine Or.inr (Or.inr ⟨s', _, _, e1, e2, ?_, ?_, ?_, e6, e7, ?_⟩)
      · intro x hx
        apply e4
        intro e
        apply hx
        simp [addrs, e]
      · intro hfa
        refine ⟨by rw [e5]; exact hfa, ?_⟩
        intro c hc hst
        simp only [hfa, if_false]
        refine ⟨by simp [hc], ?_⟩
        intro e
        have : c.addr = at_addr := by omega
        exact e3 (this ▸ List.mem_map_of_mem _ hc)
      · intro hfa
        rw [e5] at hfa
        refine ⟨hfa, ?_⟩
        intro b hb
        simp only [hfa, if_true, List.nil_append, List.mem_singleton] at hb
        subst hb; rfl
      · exact ⟨{ addr := at_addr, size := ALIGN n, status := STATUS_MAPPED }, by simp, rfl,
          Or.inr rfl, le_refl _⟩
  · simp only [hmap, if_false]
    have hsz : ALIGN n + P.BLOCK_META_SIZE ≤ INT_MAX := by omega
    by_cases hfa : s.first_alloc = 0
    · rcases heap_prelude_wf P s bs hsane hwf hfa with hd | ⟨s1, e1, e2, e3, e4, e5, e6, e7, e8⟩
      · left; rw [hd]; rfl
      · rcases find_best_free_block_grown P fuel s1 _ (ALIGN n) hsane e2 (by simp)
          (by rw [e4]; decide) hsz (by simp; omega)
          with hd | ⟨s', b, bs', g1, ⟨g2, g3, g4, g5, g6, g7, g8⟩, g9⟩
        · left; rw [e1]; simp only [Outcome.bind_ok]; rw [hd]; rfl
        · right; right
          refine ⟨s', b + P.BLOCK_META_SIZE, bs', ?_, g2, ?_, ?_, ?_, ?_, ?_, g8⟩
          · rw [e1]; simp only [Outcome.bind_ok]; rw [g1]; rfl
          · intro x hx
            rw [g3 x hx]
            apply e3
            intro e
            apply hx
            apply g9
            simp [coalesce_list, coalesce_from, addrs, e]
          · intro h0; exact absurd hfa h0
          · intro h0
            have := (g4 (by rw [e4]; decide)).1
            exact absurd h0 this
          · rw [g6, e5]
          · rw [g7, e7]
    · have hpre : heap_prelude P s = Outcome.ok s := by
        unfold heap_prelude
        simp [hfa]
      rw [hpre]
      simp only [Outcome.bind_ok]
      by_cases hbs : bs = []
      · right; left
        refine ⟨hbs, hfa, ?_⟩
        subst hbs
        have hl0 : s.list = 0 := hwf.1
        obtain ⟨k, rfl⟩ : ∃ k, fuel = k + 1 := ⟨fuel - 1, by omega⟩
        simp [find_best_free_block, coalesce_blocks, coalesce_loop, search_loop, hl0,
          extend_heap, Outcome.bind]
      · rcases find_best_free_block_grown P fuel s bs (ALIGN n) hsane hwf hbs hfa hsz
          (by omega) with hd | ⟨s', b, bs', g1, g2, _⟩
        · left; rw [hd]; rfl
        · right; right
          refine ⟨s', b + P.BLOCK_META_SIZE, bs', ?_, g2⟩
          rw [g1]; rfl


/-! ## More fuel does not change a result -/

theorem coalesce_loop_mono (P : Platform) (fuel : Nat) :
    ∀ (fuel' : Nat) (m : Mem) (current : Nat) (r : Mem), fuel ≤ fuel' →
      coalesce_loop P fuel m current = Outcome.ok r →
      coalesce_loop P fuel' m current = Outcome.ok r := by
  induction fuel with
  | zero => intro f' m c r _ h; simp [coalesce_loop] at h
  | succ n ih =>
    intro f' m c r hle h
    obtain ⟨k, rfl⟩ : ∃ k, f' = k + 1 := ⟨f' - 1, by omega⟩
    rw [coalesce_loop] at h ⊢
    by_cases hc : c = 0
    · simpa [hc] using h
    · by_cases hn : (m c).next = 0
      · simpa [hc, hn] using h
      · by_cases hf : (m c).status = STATUS_FREE ∧ (m (m c).next).status = STATUS_FREE
        · simp only [hc, hn, hf, and_self, if_true, if_false] at h ⊢
          exact ih _ _ _ _ (by omega) h
        · simp only [hc, hn, hf, if_false] at h ⊢
          exact ih _ _ _ _ (by omega) h

theorem search_loop_mono (fuel : Nat) :
    ∀ (fuel' : Nat) (m : Mem) (size current min_size best_block r : Nat), fuel ≤ fuel' →
      search_loop fuel m size current min_size best_block = Outcome.ok r →
      search_loop fuel' m size current min_size best_block = Outcome.ok r := by
  induction fuel with
  | zero => intro f' m sz c mn b r _ h; simp [search_loop] at h
  | succ n ih =>
    intro f' m sz c mn b r hle h
    obtain ⟨k, rfl⟩ : ∃ k, f' = k + 1 := ⟨f' - 1, by omega⟩
    unfold search_loop at h ⊢
    split
    · rename_i hc; simpa [hc] using h
    · rename_i hc
      simp only [hc, if_false] at h
      split
      · rename_i hf
        simp only [hf, and_self, if_true] at h
        exact ih _ _ _ _ _ _ _ (by omega) h
      · rename_i hf
        simp only [hf, if_false] at h
        exact ih _ _ _ _ _ _ _ (by omega) h

theorem last_loop_mono (fuel : Nat) :
    ∀ (fuel' : Nat) (m : Mem) (last r : Nat), fuel ≤ fuel' →
      last_loop fuel m last = Outcome.ok r → last_loop fuel' m last = Outcome.ok r := by
  induction fuel with
  | zero => intro f' m l r _ h; simp [last_loop] at h
  | succ n ih =>
    intro f' m l r hle h
    obtain ⟨k, rfl⟩ : ∃ k, f' = k + 1 := ⟨f' - 1, by omega⟩
    rw [last_loop] at h ⊢
    by_cases hc : (m l).next = 0
    · simpa [hc] using h
    · simp only [ne_eq, hc, not_false_eq_true, if_true] at h ⊢
      exact ih _ _ _ _ (by omega) h

theorem tail_loop_mono (fuel : Nat) :
    ∀ (fuel' : Nat) (m : Mem) (current last r : Nat), fuel ≤ fuel' →
      tail_loop fuel m current last = Outcome.ok r →
      tail_loop fuel' m current last = Outcome.ok r := by
  induction fuel with
  | zero => intro f' m c l r _ h; simp [tail_loop] at h
  | succ n ih =>
    intro f' m c l r hle h
    obtain ⟨k, rfl⟩ : ∃ k, f' = k + 1 := ⟨f' - 1, by omega⟩
    rw [tail_loop] at h ⊢
    by_cases hc : c = 0
    · simpa [hc] using h
    · simp only [ne_eq, hc, not_false_eq_true, if_true] at h ⊢
      exact ih _ _ _ _ _ (by omega) h

theorem Outcome.bind_mono {α β : Type} (x x' : Outcome α) (f f' : α → Outcome β) (b : β)
    (hx : ∀ a, x = Outcome.ok a → x' = Outcome.ok a)
    (hf : ∀ a b, f a = Outcome.ok b → f' a = Outcome.ok b)
    (h : x.bind f = Outcome.ok b) : x'.bind f' = Outcome.ok b := by
  rw [Outcome.bind_eq_ok] at h ⊢
  obtain ⟨a, h1, h2⟩ := h
  exact ⟨a, hx a h1, hf a b h2⟩

theorem extend_heap_mono (P : Platform) (fuel fuel' : Nat) (s : State) (size : Nat)
    (r : State × Nat) (hle : fuel ≤ fuel')
    (h : extend_heap P fuel s size = Outcome.ok r) :
    extend_heap P fuel' s size = Outcome.ok r := by
  unfold extend_heap at h ⊢
  split
  · rename_i hc; simp [hc] at h
  · rename_i hc
    simp only [hc, if_false] at h
    exact Outcome.bind_mono _ _ _ _ _ (fun a ha => last_loop_mono _ _ _ _ _ hle ha)
      (fun a b hab => hab) h

theorem find_best_free_block_mono (P : Platform) (fuel fuel' : Nat) (s : State) (size : Nat)
    (r : State × Nat) (hle : fuel ≤ fuel')
    (h : find_best_free_block P fuel s size = Outcome.ok r) :
    find_best_free_block P fuel' s size = Outcome.ok r := by
  unfold find_best_free_block at h ⊢
  refine Outcome.bind_mono _ _ _ _ _ ?_ ?_ h
  · intro a ha
    unfold coalesce_blocks at ha ⊢
    exact Outcome.bind_mono _ _ _ _ _ (fun a ha => coalesce_loop_mono _ _ _ _ _ _ hle ha)
      (fun a b hab => hab) ha
  · intro s1 b hb
    refine Outcome.bind_mono _ _ _ _ _ (fun a ha => search_loop_mono _ _ _ _ _ _ _ _ hle ha)
      ?_ hb
    intro best b' hb'
    by_cases hc : best = 0
    · simp only [hc, ne_eq, not_true_eq_false, false_and, if_false] at hb' ⊢
      exact extend_heap_mono _ _ _ _ _ _ hle hb'
    · simpa [hc] using hb'

theorem add_mapped_elem_mono (fuel fuel' : Nat) (s : State) (new_block : Nat) (r : State)
    (hle : fuel ≤ fuel') (h : add_mapped_elem fuel s new_block = Outcome.ok r) :
    add_mapped_elem fuel' s new_block = Outcome.ok r := by
  unfold add_mapped_elem at h ⊢
  split
  · rename_i hc; simp [hc] at h
  · rename_i hc
    simp only [hc, if_false] at h
    split
    · rename_i hc2; simpa [hc2] using h
    · rename_i hc2
      simp only [hc2, if_false] at h
      exact Outcome.bind_mono _ _ _ _ _ (fun a ha => tail_loop_mono _ _ _ _ _ _ hle ha)
        (fun a b hab => hab) h

theorem os_malloc_mono (P : Platform) (fuel fuel' at_addr : Nat) (s : State) (size : Nat)
    (r : State × Nat) (hle : fuel ≤ fuel')
    (h : os_malloc P fuel at_addr s size = Outcome.ok r) :
    os_malloc P fuel' at_addr s size = Outcome.ok r := by
  unfold os_malloc at h ⊢
  split
  · rename_i hc; simpa [hc] using h
  · rename_i hc
    simp only [hc, if_false] at h ⊢
    split
    · rename_i hc2
      simp only [hc2, if_true] at h
      unfold map_block at h ⊢
      refine Outcome.bind_mono _ _ _ _ _ (fun a ha => ha) ?_ h
      intro a b hab
      simp only at hab ⊢
      split
      · rename_i hc3; simp [hc3] at hab
      · rename_i hc3
        simp only [hc3, if_false] at hab
        exact Outcome.bind_mono _ _ _ _ _ (fun a ha => add_mapped_elem_mono _ _ _ _ _ hle ha)
          (fun a b hab => hab) hab
    · rename_i hc2
      simp only [hc2, if_false] at h
      refine Outcome.bind_mono _ _ _ _ _ (fun a ha => ha) ?_ h
      intro s1 b hb
      exact Outcome.bind_mono _ _ _ _ _
        (fun a ha => find_best_free_block_mono _ _ _ _ _ _ hle ha) (fun a b hab => hab) hb

theorem os_calloc_mono (P : Platform) (fuel fuel' at_addr : Nat) (s : State)
    (nmemb size : Nat) (r : State × Nat) (hle : fuel ≤ fuel')
    (h : os_calloc P fuel at_addr s nmemb size = Outcome.ok r) :
    os_calloc P fuel' at_addr s nmemb size = Outcome.ok r := by
  unfold os_calloc at h ⊢
  split
  · rename_i hc; simpa [hc] using h
  · rename_i hc
    simp only [hc, if_false] at h
    exact Outcome.bind_mono _ _ _ _ _ (fun a ha => os_malloc_mono _ _ _ _ _ _ _ hle ha)
      (fun a b hab => hab) h

theorem relocate_mono (P : Platform) (fuel fuel' at_addr : Nat) (s : State)
    (ptr size : Nat) (checked : Bool) (r : State × Nat) (hle : fuel ≤ fuel')
    (h : relocate P fuel at_addr s ptr size checked = Outcome.ok r) :
    relocate P fuel' at_addr s ptr size checked = Outcome.ok r := by
  unfold relocate at h ⊢
  exact Outcome.bind_mono _ _ _ _ _ (fun a ha => os_malloc_mono _ _ _ _ _ _ _ hle ha)
    (fun a b hab => hab) h

theorem os_realloc_mono (P : Platform) (fuel fuel' at_addr : Nat) (s : State)
    (ptr size : Nat) (r : State × Nat) (hle : fuel ≤ fuel')
    (h : os_realloc P fuel at_addr s ptr size = Outcome.ok r) :
    os_realloc P fuel' at_addr s ptr size = Outcome.ok r := by
  unfold os_realloc at h ⊢
  split
  · rename_i hc
    simp only [hc, if_true] at h
    exact os_malloc_mono _ _ _ _ _ _ _ hle h
  · rename_i hc
    simp only [hc, if_false] at h
    split
    · rename_i hc2; simpa [hc2] using h
    · rename_i hc2
      simp only [hc2, if_false] at h ⊢
      split
      · rename_i hc3; simp [hc3] at h
      · rename_i hc3
        simp only [hc3, if_false] at h
        split
        · rename_i hc4; simpa [hc4] using h
        · rename_i hc4
          simp only [hc4, if_false] at h
          split
          · rename_i hc5
            simp only [hc5, if_true] at h
            exact relocate_mono _ _ _ _ _ _ _ _ _ hle h
          · rename_i hc5
            simp only [hc5, if_false] at h
            split
            · rename_i hc6; simpa [hc6] using h
            · rename_i hc6
              simp only [hc6, if_false] at h
              split
              · rename_i hc7; simpa [hc7] using h
              · rename_i hc7
                simp only [hc7, if_false] at h
                exact relocate_mono _ _ _ _ _ _ _ _ _ hle h

/-! ## The invariant of states reached through requests that fit -/

/-- With the list empty and the latch set, `os_malloc` of a non-zero size does
not return: both paths dereference the `NULL` list. -/
theorem os_malloc_wiped (P : Platform) (fuel at_addr : Nat) (s : State) (n : Nat)
    (r : State × Nat) (hl : s.list = 0) (hlatch : s.first_alloc ≠ 0) (hn : n ≠ 0) :
    os_malloc P fuel at_addr s n ≠ Outcome.ok r := by
  intro h
  unfold os_malloc at h
  simp only [hn, if_false] at h
  by_cases hmap : wadd (ALIGN n) (ALIGN P.BLOCK_META_SIZE) > s.current_threshold
  · simp only [hmap, if_true] at h
    unfold map_block at h
    rw [Outcome.bind_eq_ok] at h
    obtain ⟨r1, h1, h⟩ := h
    obtain ⟨-, -, e1⟩ := mmap_spec _ _ _ _ _ (or_die_eq_ok _ _ |>.mp h1)
    by_cases hz : r1.2 = 0
    · simp [hz] at h
    · simp only [hz, if_false] at h
      rw [Outcome.bind_eq_ok] at h
      obtain ⟨s2, h2, _⟩ := h
      unfold add_mapped_elem at h2
      have hfa : r1.1.first_alloc ≠ 0 := by rw [e1]; exact hlatch
      have hl1 : r1.1.list = 0 := by rw [e1]; exact hl
      dsimp only at h2
      simp only [hz, hfa, if_false, hl1] at h2
      rw [Outcome.bind_eq_ok] at h2
      obtain ⟨last, h3, h4⟩ := h2
      cases fuel with
      | zero => simp [tail_loop] at h3
      | succ k =>
        simp [tail_loop] at h3
        subst h3
        simp at h4
  · simp only [hmap, if_false] at h
    rw [Outcome.bind_eq_ok] at h
    obtain ⟨s1, h1, h⟩ := h
    unfold heap_prelude at h1
    simp only [hlatch, if_false] at h1
    cases h1
    rw [Outcome.bind_eq_ok] at h
    obtain ⟨r2, h2, _⟩ := h
    unfold find_best_free_block at h2
    rw [Outcome.bind_eq_ok] at h2
    obtain ⟨s2, h3, h2⟩ := h2
    unfold coalesce_blocks at h3
    rw [Outcome.bind_eq_ok] at h3
    obtain ⟨m, h4, h3⟩ := h3
    cases h3
    rw [Outcome.bind_eq_ok] at h2
    obtain ⟨best, h5, h2⟩ := h2
    simp only [hl] at h5
    cases fuel with
    | zero => simp [search_loop] at h5
    | succ k =>
      simp [search_loop] at h5
      subst h5
      simp [extend_heap, hl] at h2

/-- What a call of `os_malloc` that returned leaves, whatever fuel it ran on. -/
theorem os_malloc_grown (P : Platform) (fuel at_addr : Nat) (s : State) (bs : List Blk)
    (n : Nat) (s' : State) (p : Nat) (hsane : sane P) (hwf : Wf P s bs) (hn : n ≠ 0)
    (hthr : s.current_threshold ≤ INT_MAX) (hfit : fits P n)
    (h : os_malloc P fuel at_addr s n = Outcome.ok (s', p)) :
    (∃ bs', Grown P s bs s' bs' p (ALIGN n)) ∧ (s.first_alloc ≠ 0 → bs ≠ []) := by
  constructor
  · have hm := os_malloc_mono P fuel (max fuel (2 * bs.length + 3)) at_addr s n _
      (le_max_left _ _) h
    rcases os_malloc_wf P (max fuel (2 * bs.length + 3)) at_addr s bs n hsane hwf hn hthr hfit
      (le_max_right _ _) with hd | ⟨_, _, hsegv⟩ | ⟨s1, p1, bs', e, hg⟩
    · rw [hm] at hd; cases hd
    · rw [hm] at hsegv; cases hsegv
    · rw [hm] at e
      cases e
      exact ⟨bs', hg⟩
  · intro hlatch hnil
    subst hnil
    have hl : s.list = 0 := hwf.1
    exact os_malloc_wiped P fuel at_addr s n _ hl hlatch hn h

theorem os_malloc_sound (P : Platform) (fuel at_addr : Nat) (s : State) (live : List Nat)
    (n : Nat) (s' : State) (p : Nat) (hsane : sane P) (hs : Sound P s live)
    (hthr : s.current_threshold ≤ INT_MAX) (hfit : fits P n)
    (h : os_malloc P fuel at_addr s n = Outcome.ok (s', p)) :
    Sound P s' (if p = 0 then live else p :: live) ∧
      s'.current_threshold = s.current_threshold := by
  by_cases hn : n = 0
  · simp [os_malloc, hn] at h
    obtain ⟨rfl, rfl⟩ := h
    simpa using hs
  · obtain ⟨bs, hwf, hJ, hF⟩ := hs
    obtain ⟨⟨bs', hwf', hframe, hkeep, hlatch', hthr', -, b, hb, hp, -, -⟩, hne⟩ :=
      os_malloc_grown P fuel at_addr s bs n s' p hsane hwf hn hthr hfit h
    have hpos : 0 < P.BLOCK_META_SIZE := hsane.2.1
    have hp0 : p ≠ 0 := by omega
    have hbp : p - P.BLOCK_META_SIZE = b.addr := by omega
    refine ⟨?_, hthr'⟩
    simp only [hp0, if_false]
    refine ⟨bs', hwf', ?_, ?_⟩
    · intro q hq
      rcases List.mem_cons.mp hq with rfl | hq
      · refine ⟨by omega, fun _ => Or.inr ?_⟩
        rw [hbp]
        exact List.mem_map_of_mem _ hb
      · obtain ⟨hle, hq1⟩ := hJ q hq
        refine ⟨hle, fun hst => ?_⟩
        by_cases hin : q - P.BLOCK_META_SIZE ∈ addrs bs'
        · exact Or.inr hin
        · exfalso
          rw [hframe _ hin] at hst
          have hlatch : s.first_alloc ≠ 0 := fun e => hF e q hq hst
          rcases hq1 hst with hnil | hin0
          · exact hne hlatch hnil
          · obtain ⟨c, hc, hca⟩ := List.mem_map.mp hin0
            have hcs := (seg_mem _ _ _ _ hwf.1 c hc).2
            rw [hca, hst] at hcs
            have hc' := ((hkeep hlatch).2 c hc (by rw [← hcs]; decide)).1
            exact hin (hca ▸ List.mem_map_of_mem _ hc')
    · intro hfa q hq
      obtain ⟨hfa0, hall⟩ := hlatch' hfa
      by_cases hin : q - P.BLOCK_META_SIZE ∈ addrs bs'
      · obtain ⟨c, hc, hca⟩ := List.mem_map.mp hin
        have hcs := (seg_mem _ _ _ _ hwf'.1 c hc).2
        rw [hca, hall c hc] at hcs
        rw [hcs]
        decide
      · rcases List.mem_cons.mp hq with rfl | hq
        · exact absurd (hbp ▸ List.mem_map_of_mem _ hb) hin
        · rw [hframe _ hin]
          exact hF hfa0 q hq

theorem wf_mem_frame (P : Platform) (s : State) (bs : List Blk) (m' : Mem)
    (hwf : Wf P s bs) (h : ∀ x ∈ addrs bs, m' x = s.mem x) :
    Wf P { s with mem := m' } bs :=
  ⟨seg_congr_eq _ _ _ _ _ hwf.1 h, hwf.2.1, hwf.2.2.1, hwf.2.2.2.1, hwf.2.2.2.2⟩

theorem sound_subset (P : Platform) (s : State) (live live' : List Nat)
    (hs : Sound P s live) (hsub : ∀ p ∈ live', p ∈ live) : Sound P s live' := by
  obtain ⟨bs, hwf, hJ, hF⟩ := hs
  exact ⟨bs, hwf, fun p hp => hJ p (hsub p hp), fun h p hp => hF h p (hsub p hp)⟩

theorem os_free_sound (P : Platform) (s : State) (live : List Nat) (ptr : Nat) (s' : State)
    (hs : Sound P s live) (h : os_free P s ptr = Outcome.ok s') :
    Sound P s' live ∧ s'.current_threshold = s.current_threshold := by
  obtain ⟨bs, hwf, hJ, hF⟩ := hs
  unfold os_free at h
  by_cases hp : ptr = 0
  · simp [hp] at h
    subst h
    exact ⟨⟨bs, hwf, hJ, hF⟩, rfl⟩
  simp only [hp, if_false] at h
  by_cases hb : ptr - P.BLOCK_META_SIZE = 0
  · simp [hb] at h
  simp only [hb, if_false] at h
  by_cases hfree : (s.mem (ptr - P.BLOCK_META_SIZE)).status = STATUS_FREE
  · simp [hfree] at h
    subst h
    exact ⟨⟨bs, hwf, hJ, hF⟩, rfl⟩
  simp only [hfree, if_false] at h
  by_cases halloc : (s.mem (ptr - P.BLOCK_META_SIZE)).status = STATUS_ALLOC
  · simp only [halloc, if_true, Outcome.ok.injEq] at h
    subst h
    refine ⟨?_, rfl⟩
    have hst : ∀ x, ((set_status s.mem (ptr - P.BLOCK_META_SIZE) STATUS_FREE) x).status
        = STATUS_ALLOC → (s.mem x).status = STATUS_ALLOC := by
      intro x hx
      by_cases e : x = ptr - P.BLOCK_META_SIZE
      · subst e; simp at hx
      · rwa [set_status_other _ _ _ _ e] at hx
    by_cases hin : ptr - P.BLOCK_META_SIZE ∈ addrs bs
    · obtain ⟨c, hc, hca⟩ := List.mem_map.mp hin
      obtain ⟨pre, post, rfl⟩ := List.append_of_mem hc
      have hcs := (seg_mem _ _ _ _ hwf.1 c (by simp)).2
      rw [hca, halloc] at hcs
      have hw := flip_wf P s pre post c STATUS_FREE hwf (by rw [← hcs]; decide) (by decide)
      rw [hca] at hw
      refine ⟨_, hw, ?_, ?_⟩
      · intro q hq
        obtain ⟨hle, hq1⟩ := hJ q hq
        refine ⟨hle, fun hs1 => ?_⟩
        rcases hq1 (hst _ hs1) with hnil | hin0
        · simp at hnil
        · right
          simpa [addrs, hca] using hin0
      · intro hfa q hq hs1
        exact hF hfa q hq (hst _ hs1)
    · refine ⟨bs, wf_mem_frame P s bs _ hwf ?_, ?_, ?_⟩
      · intro x hx
        exact set_status_other _ _ _ _ (fun e => hin (e ▸ hx))
      · intro q hq
        obtain ⟨hle, hq1⟩ := hJ q hq
        exact ⟨hle, fun hs1 => hq1 (hst _ hs1)⟩
      · intro hfa q hq hs1
        exact hF hfa q hq (hst _ hs1)
  · simp only [halloc, if_false] at h
    rw [Outcome.bind_eq_ok] at h
    obtain ⟨s1, h1, h⟩ := h
    cases h
    rw [or_die_eq_ok] at h1
    unfold munmap at h1
    by_cases hpg : (ptr - P.BLOCK_META_SIZE) % P.PAGE_SIZE = 0
    · simp only [hpg, if_true, Option.some.injEq] at h1
      subst h1
      refine ⟨⟨[], ⟨rfl, by simp [addrs], ?_, fun h => absurd rfl h, hwf.2.2.2.2⟩, ?_, ?_⟩, rfl⟩
      · obtain ⟨k1, k2, k3, k4⟩ := hwf.2.2.1
        exact ⟨k1, k2, k3, fun r hr => k4 r (List.mem_filter.mp hr).1⟩
      · intro q hq
        exact ⟨(hJ q hq).1, fun _ => Or.inl rfl⟩
      · intro hfa q hq
        exact hF hfa q hq
    · simp [hpg] at h1

theorem fits_zero (P : Platform) : fits P 0 := by
  have h := ALIGN_lt P.BLOCK_META_SIZE
  have h0 : ALIGN 0 = 0 := by decide
  unfold fits
  omega

theorem os_calloc_sound (P : Platform) (fuel at_addr : Nat) (s : State) (live : List Nat)
    (nmemb size : Nat) (s' : State) (p : Nat) (hsane : sane P) (hs : Sound P s live)
    (hfit : ¬ (nmemb = 0 ∨ size = 0) → fits P (nmemb * size % WORD))
    (h : os_calloc P fuel at_addr s nmemb size = Outcome.ok (s', p)) :
    Sound P s' (if p = 0 then live else p :: live) ∧
      (s.current_threshold = MMAP_THRESHOLD → s'.current_threshold = MMAP_THRESHOLD) := by
  unfold os_calloc at h
  by_cases hz : nmemb = 0 ∨ size = 0
  · simp only [hz, if_true, Outcome.ok.injEq, Prod.mk.injEq] at h
    obtain ⟨rfl, rfl⟩ := h
    exact ⟨by simpa using hs, fun e => e⟩
  · simp only [hz, if_false] at h
    rw [Outcome.bind_eq_ok] at h
    obtain ⟨r, h1, h⟩ := h
    simp only [Outcome.ok.injEq, Prod.mk.injEq] at h
    obtain ⟨rfl, rfl⟩ := h
    have hs0 : Sound P { s with current_threshold := P.PAGE_SIZE } live := hs
    obtain ⟨⟨bs, hwf, hJ, hF⟩, -⟩ := os_malloc_sound P fuel at_addr _ live _ r.1 r.2 hsane hs0
      hsane.2.2.2 (hfit hz) h1
    exact ⟨⟨bs, hwf, hJ, hF⟩, fun _ => rfl⟩

theorem relocate_sound (P : Platform) (fuel at_addr : Nat) (s : State) (live : List Nat)
    (ptr n : Nat) (checked : Bool) (s' : State) (q : Nat) (hsane : sane P)
    (hs : Sound P s live) (hthr : s.current_threshold ≤ INT_MAX) (hfit : fits P n)
    (h : relocate P fuel at_addr s ptr n checked = Outcome.ok (s', q)) :
    Sound P s' (if q = 0 then live else q :: live) ∧
      s'.current_threshold = s.current_threshold := by
  unfold relocate at h
  rw [Outcome.bind_eq_ok] at h
  obtain ⟨r, h1, h⟩ := h
  obtain ⟨hs1, ht1⟩ := os_malloc_sound P fuel at_addr s live n r.1 r.2 hsane hs hthr hfit h1
  by_cases hz : r.2 = 0
  · simp only [hz, if_true] at h hs1
    cases checked
    · simp at h
    · simp only [if_true, Outcome.ok.injEq, Prod.mk.injEq] at h
      obtain ⟨rfl, rfl⟩ := h
      exact ⟨by simpa using hs1, ht1⟩
  · simp only [hz, if_false] at h hs1
    rw [Outcome.bind_eq_ok] at h
    obtain ⟨s2, h2, h⟩ := h
    simp only [Outcome.ok.injEq, Prod.mk.injEq] at h
    obtain ⟨rfl, rfl⟩ := h
    obtain ⟨hs2, ht2⟩ := os_free_sound P r.1 _ ptr s2 hs1 h2
    simp only [hz, if_false]
    exact ⟨hs2, ht2.trans ht1⟩

theorem status_cases (st : Status) (h1 : st ≠ STATUS_FREE) (h2 : st ≠ STATUS_MAPPED) :
    st = STATUS_ALLOC := by
  cases st
  · exact absurd rfl h1
  · rfl
  · exact absurd rfl h2

/-- The in-place split of `os_realloc` keeps the invariant. -/
theorem split_sound (P : Platform) (s : State) (live : List Nat) (ptr n : Nat)
    (hsane : sane P) (hs : Sound P s live) (hp : ptr ∈ live) (hfit : fits P n)
    (halloc : (s.mem (ptr - P.BLOCK_META_SIZE)).status = STATUS_ALLOC)
    (hbig : (s.mem (ptr - P.BLOCK_META_SIZE)).size > wadd (ALIGN n) (ALIGN P.BLOCK_META_SIZE)) :
    Sound P { s with
      mem := set_status (split_block s.mem (ptr - P.BLOCK_META_SIZE)
        (wadd (ALIGN n) (ALIGN P.BLOCK_META_SIZE)) (ALIGN n))
        (ptr - P.BLOCK_META_SIZE) STATUS_ALLOC } live := by
  obtain ⟨hal, hpos, hle, hpg⟩ := hsane
  have hthrv : MMAP_THRESHOLD = 131072 := by decide
  have hW : WORD = 18446744073709551616 := rfl
  have hA : ALIGN P.BLOCK_META_SIZE = P.BLOCK_META_SIZE := ALIGN_of_mod _ hal (by omega)
  have hT : wadd (ALIGN n) (ALIGN P.BLOCK_META_SIZE) = ALIGN n + P.BLOCK_META_SIZE := by
    rw [wadd_of_lt _ _ hfit, hA]
  rw [hT] at hbig ⊢
  have hT0 : ALIGN n + P.BLOCK_META_SIZE ≠ 0 := by omega
  obtain ⟨bs, hwf, hJ, hF⟩ := hs
  have hlatch : s.first_alloc ≠ 0 := fun e => hF e ptr hp halloc
  have hst : ∀ x, ((set_status (split_block s.mem (ptr - P.BLOCK_META_SIZE)
      (ALIGN n + P.BLOCK_META_SIZE) (ALIGN n)) (ptr - P.BLOCK_META_SIZE) STATUS_ALLOC) x).status
      = STATUS_ALLOC → x = ptr - P.BLOCK_META_SIZE ∨ (s.mem x).status = STATUS_ALLOC := by
    intro x hx
    by_cases e : x = ptr - P.BLOCK_META_SIZE
    · exact Or.inl e
    · right
      rw [set_status_other _ _ _ _ e, split_block_status_eq _ _ _ _ _ hT0] at hx
      by_cases e2 : x = ptr - P.BLOCK_META_SIZE + (ALIGN n + P.BLOCK_META_SIZE)
      · simp [e2] at hx
      · simpa [e2] using hx
  rcases (hJ ptr hp).2 halloc with hnil | hin
  · subst hnil
    refine ⟨[], ⟨hwf.1, hwf.2.1, hwf.2.2.1, fun h => absurd rfl h, hwf.2.2.2.2⟩, ?_, ?_⟩
    · intro q hq
      exact ⟨(hJ q hq).1, fun _ => Or.inl rfl⟩
    · intro hfa
      exact absurd hfa hlatch
  · obtain ⟨c, hc, hca⟩ := List.mem_map.mp hin
    obtain ⟨pre, post, rfl⟩ := List.append_of_mem hc
    obtain ⟨hcsz, hcs⟩ := seg_mem _ _ _ _ hwf.1 c (by simp)
    rw [hca] at hcsz hcs
    rw [halloc] at hcs
    have hw := split_wf P s pre post c (ALIGN n) (ALIGN n + P.BLOCK_META_SIZE) hwf hpos
      (by rw [← hcs]; decide) rfl (by rw [← hcsz]; exact hbig)
    rw [hca] at hw
    refine ⟨_, hw, ?_, ?_⟩
    · intro q hq
      obtain ⟨hle1, hq1⟩ := hJ q hq
      refine ⟨hle1, fun hs1 => Or.inr ?_⟩
      rcases hst _ hs1 with e | hs0
      · rw [e]; simp [addrs]
      · rcases hq1 hs0 with hnil | hin0
        · simp at hnil
        · simp only [addrs, List.map_append, List.map_cons, List.mem_append,
            List.mem_cons] at hin0 ⊢
          rcases hin0 with h1 | h1 | h1
          · exact Or.inl h1
          · exact Or.inr (Or.inl (h1.trans hca))
          · exact Or.inr (Or.inr (Or.inr h1))
    · intro hfa
      exact absurd hfa hlatch

theorem os_realloc_sound (P : Platform) (fuel at_addr : Nat) (s : State) (live : List Nat)
    (ptr n : Nat) (s' : State) (r : Nat) (hsane : sane P) (hs : Sound P s live)
    (hv : ptr = 0 ∨ ptr ∈ live) (hthr : s.current_threshold ≤ INT_MAX)
    (hfit : n ≠ 0 → fits P n)
    (h : os_realloc P fuel at_addr s ptr n = Outcome.ok (s', r)) :
    Sound P s' (live_after live (Call.realloc ptr n) r) ∧
      s'.current_threshold = s.current_threshold := by
  have hfit0 : fits P n := by
    by_cases hn : n = 0
    · subst hn; exact fits_zero P
    · exact hfit hn
  unfold os_realloc at h
  unfold live_after
  by_cases hp : ptr = 0
  · simp only [hp, if_true] at h ⊢
    exact os_malloc_sound P fuel at_addr s live n s' r hsane hs hthr hfit0 h
  have hpl : ptr ∈ live := hv.resolve_left hp
  simp only [hp, if_false] at h ⊢
  by_cases hn : n = 0
  · simp only [hn, if_true] at h ⊢
    rw [Outcome.bind_eq_ok] at h
    obtain ⟨s1, h1, h⟩ := h
    simp only [Outcome.ok.injEq, Prod.mk.injEq] at h
    obtain ⟨rfl, rfl⟩ := h
    obtain ⟨hs1, ht1⟩ := os_free_sound P s live ptr s1 hs h1
    exact ⟨sound_subset P s1 live _ hs1 (fun p hp => (List.mem_filter.mp hp).1), ht1⟩
  simp only [hn, if_false] at h ⊢
  by_cases hb : ptr - P.BLOCK_META_SIZE = 0
  · simp [hb] at h
  simp only [hb, if_false] at h
  by_cases hfree : (s.mem (ptr - P.BLOCK_META_SIZE)).status = STATUS_FREE
  · simp only [hfree, if_true, Outcome.ok.injEq, Prod.mk.injEq] at h
    obtain ⟨rfl, rfl⟩ := h
    simp only [if_true]
    exact ⟨hs, trivial⟩
  simp only [hfree, if_false] at h
  have hreloc : ∀ checked, relocate P fuel at_addr s ptr n checked = Outcome.ok (s', r) →
      Sound P s' (if r = 0 then live else if r = ptr then live
        else r :: List.filter (fun p => decide (p ≠ ptr)) live) ∧
      s'.current_threshold = s.current_threshold := by
    intro checked hr
    obtain ⟨hs1, ht1⟩ := relocate_sound P fuel at_addr s live ptr n checked s' r hsane hs hthr
      hfit0 hr
    refine ⟨?_, ht1⟩
    by_cases hr0 : r = 0
    · simpa [hr0] using hs1
    · simp only [hr0, if_false] at hs1 ⊢
      by_cases hrp : r = ptr
      · simp only [hrp, if_true]
        exact sound_subset P s' _ live hs1 (fun p hp => List.mem_cons_of_mem _ hp)
      · simp only [hrp, if_false]
        apply sound_subset P s' _ _ hs1
        intro p hp
        rcases List.mem_cons.mp hp with e | hp
        · exact e ▸ List.mem_cons_self _ _
        · exact List.mem_cons_of_mem _ (List.mem_filter.mp hp).1
  by_cases hbig : (s.mem (ptr - P.BLOCK_META_SIZE)).status = STATUS_MAPPED ∨
      wadd (ALIGN n) (ALIGN P.BLOCK_META_SIZE) ≥ MMAP_THRESHOLD
  · simp only [hbig, if_true] at h
    exact hreloc _ h
  simp only [hbig, if_false] at h
  by_cases hsame : (s.mem (ptr - P.BLOCK_META_SIZE)).size = ALIGN n
  · simp only [hsame, if_true, Outcome.ok.injEq, Prod.mk.injEq] at h
    obtain ⟨rfl, rfl⟩ := h
    simp only [hp, if_false, if_true]
    exact ⟨hs, trivial⟩
  simp only [hsame, if_false] at h
  by_cases hsplit : (s.mem (ptr - P.BLOCK_META_SIZE)).size > ALIGN n ∧
      (s.mem (ptr - P.BLOCK_META_SIZE)).size > wadd (ALIGN n) (ALIGN P.BLOCK_META_SIZE)
  · simp only [hsplit, and_self, if_true, Outcome.ok.injEq, Prod.mk.injEq] at h
    obtain ⟨rfl, rfl⟩ := h
    have hle := (hs.choose_spec.2.1 ptr hpl).1
    have hback : ptr - P.BLOCK_META_SIZE + P.BLOCK_META_SIZE = ptr := by omega
    simp only [hback, hp, if_false, if_true]
    refine ⟨?_, trivial⟩
    have halloc := status_cases _ hfree (fun e => hbig (Or.inl e))
    exact split_sound P s live ptr n hsane hs hpl hfit0 halloc hsplit.2
  · simp only [hsplit, if_false] at h
    exact hreloc _ h

theorem sound_initial (P : Platform) (mem : Mem) (brk0 : Nat) (hb0 : 0 < brk0)
    (hbw : brk0 < WORD) : Sound P (initial mem brk0) [] := by
  refine ⟨[], ⟨rfl, by simp [addrs], ⟨hb0, le_refl _, hbw, ?_⟩, fun h => absurd rfl h,
    fun _ => rfl⟩, ?_, ?_⟩
  · intro r hr
    simp [initial] at hr
  · intro p hp
    simp at hp
  · intro _ p hp
    simp at hp

/-- Every state a client reaches through requests that fit is sound, and has
the threshold at `MMAP_THRESHOLD`. -/
theorem reachable_sound (P : Platform) (brk0 : Nat) (s : State) (live : List Nat)
    (hsane : sane P) (hb0 : 0 < brk0) (hbw : brk0 < WORD)
    (hr : Reachable P (fits P) brk0 s live) :
    Sound P s live ∧ s.current_threshold = MMAP_THRESHOLD := by
  have hthrv : MMAP_THRESHOLD ≤ INT_MAX := by decide
  induction hr with
  | at_start mem => exact ⟨sound_initial P mem brk0 hb0 hbw, rfl⟩
  | step s live c fuel at_addr s' r _ hv hreq hrun ih =>
    obtain ⟨hs, ht⟩ := ih
    cases c with
    | malloc size =>
      obtain ⟨h1, h2⟩ := os_malloc_sound P fuel at_addr s live size s' r hsane hs
        (by rw [ht]; exact hthrv) (hreq size rfl) hrun
      exact ⟨h1, h2.trans ht⟩
    | free ptr =>
      simp only [run_call] at hrun
      rw [Outcome.bind_eq_ok] at hrun
      obtain ⟨s1, h1, h2⟩ := hrun
      simp only [Outcome.ok.injEq, Prod.mk.injEq] at h2
      obtain ⟨rfl, rfl⟩ := h2
      obtain ⟨h3, h4⟩ := os_free_sound P s live ptr s1 hs h1
      exact ⟨sound_subset P s1 live _ h3 (fun p hp => (List.mem_filter.mp hp).1), h4.trans ht⟩
    | calloc nmemb size =>
      obtain ⟨h1, h2⟩ := os_calloc_sound P fuel at_addr s live nmemb size s' r hsane hs
        (fun hz => hreq _ (by simp [request_of, hz])) hrun
      exact ⟨h1, h2 ht⟩
    | realloc ptr size =>
      obtain ⟨h1, h2⟩ := os_realloc_sound P fuel at_addr s live ptr size s' r hsane hs hv
        (by rw [ht]; exact hthrv) (fun hn => hreq _ (by simp [request_of, hn])) hrun
      exact ⟨h1, h2.trans ht⟩

/-! ## Growth through `os_realloc` -/

/-- The relocating tail of `os_realloc` on an allocated header `c` of the
list: unless the kernel refuses, it returns another pointer, whose header is
allocated or mapped and large enough, and leaves `c` free with its size. -/
theorem relocate_grow (P : Platform) (fuel at_addr : Nat) (s : State) (bs : List Blk)
    (c : Blk) (n : Nat) (checked : Bool) (hsane : sane P) (hwf : Wf P s bs) (hc : c ∈ bs)
    (hcs : c.status = STATUS_ALLOC) (hlatch : s.first_alloc ≠ 0) (hn : n ≠ 0)
    (hthr : s.current_threshold ≤ INT_MAX) (hfit : fits P n)
    (hf : 2 * bs.length + 3 ≤ fuel) :
    relocate P fuel at_addr s (c.addr + P.BLOCK_META_SIZE) n checked = Outcome.die ∨
    ∃ s' q, relocate P fuel at_addr s (c.addr + P.BLOCK_META_SIZE) n checked
        = Outcome.ok (s', q) ∧ q ≠ c.addr + P.BLOCK_META_SIZE ∧ P.BLOCK_META_SIZE ≤ q ∧
      ((s'.mem (q - P.BLOCK_META_SIZE)).status = STATUS_ALLOC ∨
        (s'.mem (q - P.BLOCK_META_SIZE)).status = STATUS_MAPPED) ∧
      ALIGN n ≤ (s'.mem (q - P.BLOCK_META_SIZE)).size ∧
      (s'.mem c.addr).status = STATUS_FREE ∧ (s'.mem c.addr).size = c.size := by
  have hpos : 0 < P.BLOCK_META_SIZE := hsane.2.1
  unfold relocate
  rcases os_malloc_wf P fuel at_addr s bs n hsane hwf hn hthr hfit hf with
    hd | ⟨hnil, -, -⟩ | ⟨s1, q, bs', e, hwf', -, hkeep, -, -, -, b, hb, hq, hbst, hbsz⟩
  · left
    rw [hd]
    rfl
  · subst hnil
    simp at hc
  · right
    obtain ⟨hc', hne⟩ := (hkeep hlatch).2 c hc (by rw [hcs]; decide)
    obtain ⟨hsz1, hst1⟩ := seg_mem _ _ _ _ hwf'.1 c hc'
    obtain ⟨hsz2, hst2⟩ := seg_mem _ _ _ _ hwf'.1 b hb
    have hc0 : c.addr ≠ 0 := seg_nonzero _ _ _ _ hwf.1 _ (List.mem_map_of_mem _ hc)
    have hq0 : q ≠ 0 := by omega
    have hback : c.addr + P.BLOCK_META_SIZE - P.BLOCK_META_SIZE = c.addr := by omega
    have hp0 : c.addr + P.BLOCK_META_SIZE ≠ 0 := by omega
    have hbc : b.addr ≠ c.addr := by
      intro e1
      apply hne
      rw [hq, e1]
    have hfree : os_free P s1 (c.addr + P.BLOCK_META_SIZE)
        = Outcome.ok { s1 with mem := set_status s1.mem c.addr STATUS_FREE } := by
      unfold os_free
      simp only [hp0, if_false, hback, hc0, hst1, hcs]
      simp
    refine ⟨{ s1 with mem := set_status s1.mem c.addr STATUS_FREE }, q, ?_, ?_, by omega, ?_,
      ?_, ?_, ?_⟩
    · rw [e]
      simp only [Outcome.bind, hq0, if_false, hfree]
    · exact fun e1 => hne e1.symm
    · have hqb : q - P.BLOCK_META_SIZE = b.addr := by omega
      simp only [hqb, set_status_other _ _ _ _ hbc, hst2]
      exact hbst
    · have hqb : q - P.BLOCK_META_SIZE = b.addr := by omega
      simp only [hqb, set_status_other _ _ _ _ hbc, hsz2]
      exact hbsz
    · simp
    · simp [hsz1]

/-- The function `os_realloc` on a pointer held by the client whose header is
allocated, in a sound state with a non-empty list, for a request that fits
and whose aligned size is above the size of the header. -/
theorem os_realloc_grow (P : Platform) (s : State) (live : List Nat) (p n : Nat)
    (hsane : sane P) (hs : Sound P s live) (hthr : s.current_threshold = MMAP_THRESHOLD)
    (hp : p ∈ live) (hlist : s.list ≠ 0)
    (halloc : (s.mem (p - P.BLOCK_META_SIZE)).status = STATUS_ALLOC)
    (hfit : fits P n) (hgrow : ALIGN n > (s.mem (p - P.BLOCK_META_SIZE)).size) :
    ∃ N, ∀ fuel at_addr, N ≤ fuel →
      os_realloc P fuel at_addr s p n = Outcome.die ∨
      ∃ s' q, os_realloc P fuel at_addr s p n = Outcome.ok (s', q) ∧ q ≠ p ∧
        P.BLOCK_META_SIZE ≤ q ∧
        ((s'.mem (q - P.BLOCK_META_SIZE)).status = STATUS_ALLOC ∨
          (s'.mem (q - P.BLOCK_META_SIZE)).status = STATUS_MAPPED) ∧
        ALIGN n ≤ (s'.mem (q - P.BLOCK_META_SIZE)).size ∧
        (s'.mem (p - P.BLOCK_META_SIZE)).status = STATUS_FREE ∧
        (s'.mem (p - P.BLOCK_META_SIZE)).size = (s.mem (p - P.BLOCK_META_SIZE)).size := by
  obtain ⟨bs, hwf, hJ, hF⟩ := hs
  have hpos : 0 < P.BLOCK_META_SIZE := hsane.2.1
  obtain ⟨hle, hin⟩ := hJ p hp
  have hlatch : s.first_alloc ≠ 0 := fun e => hF e p hp halloc
  have hne : bs ≠ [] := by
    intro e
    subst e
    exact hlist hwf.1
  obtain ⟨c, hc, hca⟩ := List.mem_map.mp ((hin halloc).resolve_left hne)
  obtain ⟨hsz, hst⟩ := seg_mem _ _ _ _ hwf.1 c hc
  have hc0 : c.addr ≠ 0 := seg_nonzero _ _ _ _ hwf.1 _ (List.mem_map_of_mem _ hc)
  have hpc : p = c.addr + P.BLOCK_META_SIZE := by omega
  have hn : n ≠ 0 := by
    intro e
    subst e
    have : ALIGN 0 = 0 := by decide
    omega
  have hI : MMAP_THRESHOLD ≤ INT_MAX := by decide
  refine ⟨2 * bs.length + 3, fun fuel at_addr hf => ?_⟩
  subst hpc
  have hback : c.addr + P.BLOCK_META_SIZE - P.BLOCK_META_SIZE = c.addr := by omega
  rw [hback] at halloc hgrow ⊢
  have hp0 : c.addr + P.BLOCK_META_SIZE ≠ 0 := by omega
  have hreloc : ∃ checked, os_realloc P fuel at_addr s (c.addr + P.BLOCK_META_SIZE) n
      = relocate P fuel at_addr s (c.addr + P.BLOCK_META_SIZE) n checked := by
    unfold os_realloc
    simp only [hp0, hn, if_false, hback, hc0, halloc]
    by_cases hbig : STATUS_ALLOC = STATUS_MAPPED ∨
        wadd (ALIGN n) (ALIGN P.BLOCK_META_SIZE) ≥ MMAP_THRESHOLD
    · exact ⟨false, by simp only [hbig, if_true]; simp⟩
    · refine ⟨true, ?_⟩
      have h1 : ¬ (s.mem c.addr).size = ALIGN n := by omega
      have h2 : ¬ ((s.mem c.addr).size > ALIGN n ∧
          (s.mem c.addr).size > wadd (ALIGN n) (ALIGN P.BLOCK_META_SIZE)) := by omega
      simp only [hbig, if_false, h1, h2]
      simp
  obtain ⟨checked, e⟩ := hreloc
  rw [e, hsz]
  exact relocate_grow P fuel at_addr s bs c n checked hsane hwf hc
    (by rw [← hst]; exact halloc) hlatch hn (by omega) hfit hf


/-! ## Claim C7 -/

/-- C7, amended.  In a state that a client reaches through requests that fit a
`size_t`, with a non-empty list, for a pointer `p` the client holds whose
header `H` is marked allocated and a request `n` that fits with `ALIGN n`
above the size of `H`: with enough fuel `os_realloc(p, n)` ends in `DIE` (the
kernel refused) or returns a pointer `q` other than `p`, whose header is
marked allocated or mapped with size at least `ALIGN n`, and leaves `H`
marked free with the size it had. -/
theorem os_realloc_grow_relocates (P : Platform) (brk0 : Nat) (s : State)
    (live : List Nat) (p n : Nat) (hsane : sane P) (hb0 : 0 < brk0) (hbw : brk0 < WORD)
    (hr : Reachable P (fits P) brk0 s live) (hp : p ∈ live) (hlist : s.list ≠ 0)
    (halloc : (s.mem (p - P.BLOCK_META_SIZE)).status = STATUS_ALLOC)
    (hfit : fits P n) (hgrow : ALIGN n > (s.mem (p - P.BLOCK_META_SIZE)).size) :
    ∃ N, ∀ fuel at_addr, N ≤ fuel →
      os_realloc P fuel at_addr s p n = Outcome.die ∨
      ∃ s' q, os_realloc P fuel at_addr s p n = Outcome.ok (s', q) ∧ q ≠ p ∧
        P.BLOCK_META_SIZE ≤ q ∧
        ((s'.mem (q - P.BLOCK_META_SIZE)).status = STATUS_ALLOC ∨
          (s'.mem (q - P.BLOCK_META_SIZE)).status = STATUS_MAPPED) ∧
        ALIGN n ≤ (s'.mem (q - P.BLOCK_META_SIZE)).size ∧
        (s'.mem (p - P.BLOCK_META_SIZE)).status = STATUS_FREE ∧
        (s'.mem (p - P.BLOCK_META_SIZE)).size = (s.mem (p - P.BLOCK_META_SIZE)).size := by
  obtain ⟨hs, ht⟩ := reachable_sound P brk0 s live hsane hb0 hbw hr
  exact os_realloc_grow P s live p n hsane hs ht hp hlist halloc hfit hgrow

/-- The scenario of C7: `p = os_malloc(100); os_malloc(100); q = os_realloc(p,
1000)`, with `p = 65568`.  The general statement applies to it, and the run
gives `q = 65840` with the header of `p` free and still of size 104. -/
theorem os_realloc_grow_relocates_witness :
    (∃ N, ∀ fuel at_addr, N ≤ fuel →
      os_realloc linux64 fuel at_addr two_blocks 65568 1000 = Outcome.die ∨
      ∃ s' q, os_realloc linux64 fuel at_addr two_blocks 65568 1000 = Outcome.ok (s', q) ∧
        q ≠ 65568 ∧ linux64.BLOCK_META_SIZE ≤ q ∧
        ((s'.mem (q - linux64.BLOCK_META_SIZE)).status = STATUS_ALLOC ∨
          (s'.mem (q - linux64.BLOCK_META_SIZE)).status = STATUS_MAPPED) ∧
        ALIGN 1000 ≤ (s'.mem (q - linux64.BLOCK_META_SIZE)).size ∧
        (s'.mem (65568 - linux64.BLOCK_META_SIZE)).status = STATUS_FREE ∧
        (s'.mem (65568 - linux64.BLOCK_META_SIZE)).size
          = (two_blocks.mem (65568 - linux64.BLOCK_META_SIZE)).size) ∧
    os_realloc linux64 7 0 two_blocks 65568 1000
      = Outcome.ok (state_of (os_realloc linux64 7 0 two_blocks 65568 1000), 65840) ∧
    ((state_of (os_realloc linux64 7 0 two_blocks 65568 1000)).mem 65536).status
      = STATUS_FREE ∧
    ((state_of (os_realloc linux64 7 0 two_blocks 65568 1000)).mem 65536).size = 104 :=
  ⟨os_realloc_grow_relocates linux64 65536 two_blocks [65704, 65568] 65568 1000
    (by unfold sane; decide) (by decide) (by decide)
    (Reachable.step _ [65568] (Call.malloc 100) 4 0 _ 65704
      (Reachable.step start [] (Call.malloc 100) 2 0 _ 65568 (Reachable.at_start zero_mem)
        trivial (fun n h => by cases h; unfold fits; decide) rfl)
      trivial (fun n h => by cases h; unfold fits; decide) rfl)
    (by decide) (by decide) (by decide) (by unfold fits; decide) (by decide),
   rfl, by decide, by decide⟩

/-- C7 fails as stated.  After `os_malloc(8)` and `os_malloc(SIZE_MAX - 31)`,
whose total size wraps to `0`, the client holds `p = 65608`, whose header at
`65576` is on the list, marked allocated with size `SIZE_MAX - 31`.  The call
`os_realloc(p, SIZE_MAX - 7)` asks for more than that size and returns `p`
itself: the total size wraps to `24`, the new block is put at the program
break, which is the address of the old header, and `os_free` then marks it
free. -/
theorem os_realloc_grow_returns_same :
    Reachable linux64 any_request 65536 wrapped [65608, 65568] ∧
    wrapped.list ≠ 0 ∧
    OnList wrapped.mem wrapped.list (65608 - linux64.BLOCK_META_SIZE) ∧
    (wrapped.mem (65608 - linux64.BLOCK_META_SIZE)).status = STATUS_ALLOC ∧
    ALIGN (WORD - 8) > (wrapped.mem (65608 - linux64.BLOCK_META_SIZE)).size ∧
    os_realloc linux64 7 0 wrapped 65608 (WORD - 8)
      = Outcome.ok (state_of (os_realloc linux64 7 0 wrapped 65608 (WORD - 8)), 65608) ∧
    ((state_of (os_realloc linux64 7 0 wrapped 65608 (WORD - 8))).mem
      (65608 - linux64.BLOCK_META_SIZE)).status = STATUS_FREE :=
  ⟨Reachable.step _ [65568] (Call.malloc (WORD - 32)) 4 0 _ 65608
      (Reachable.step start [] (Call.malloc 8) 2 0 _ 65568 (Reachable.at_start zero_mem)
        trivial (fun _ _ => trivial) rfl)
      trivial (fun _ _ => trivial) rfl,
    by decide, OnList.tail _ _ (by decide) (OnList.head _ (by decide)), by decide, by decide,
    rfl, by decide⟩


/-! ## Allocate, free, allocate again -/

/-- The heap path of `os_malloc` on a well-formed state: it ends in `DIE` when
the kernel refuses, dereferences `NULL` when the list is empty with the latch
set, and otherwise returns the payload of the block `b` that
`find_best_free_block` serves from the coalesced list, with the latch set. -/
theorem os_malloc_heap_served (P : Platform) (fuel at_addr : Nat) (s : State)
    (bs : List Blk) (n : Nat) (hsane : sane P) (hwf : Wf P s bs) (hn : n ≠ 0)
    (hthr : s.current_threshold ≤ INT_MAX)
    (hsmall : ALIGN n + P.BLOCK_META_SIZE ≤ s.current_threshold)
    (hf : 2 * bs.length + 3 ≤ fuel) :
    os_malloc P fuel at_addr s n = Outcome.die ∨
    (bs = [] ∧ s.first_alloc ≠ 0 ∧ os_malloc P fuel at_addr s n = Outcome.segv) ∨
    ∃ bs0 k s' b bs', os_malloc P fuel at_addr s n = Outcome.ok (s', b + P.BLOCK_META_SIZE) ∧
      Wf P s' bs' ∧ s'.first_alloc ≠ 0 ∧ s'.current_threshold = s.current_threshold ∧
      served P.BLOCK_META_SIZE (ALIGN n) k b (coalesce_list P.BLOCK_META_SIZE bs0) bs' := by
  have hIM : INT_MAX = 2147483647 := rfl
  have hW : WORD = 18446744073709551616 := rfl
  obtain ⟨hal, hpos, hle, hpg⟩ := hsane
  have hsane : sane P := ⟨hal, hpos, hle, hpg⟩
  have hA : ALIGN P.BLOCK_META_SIZE = P.BLOCK_META_SIZE := ALIGN_of_mod _ hal (by
    have : MMAP_THRESHOLD = 131072 := by decide
    omega)
  have hT : wadd (ALIGN n) (ALIGN P.BLOCK_META_SIZE) = ALIGN n + P.BLOCK_META_SIZE := by
    rw [hA]; exact wadd_of_lt _ _ (by omega)
  have hmap : ¬ ALIGN n + P.BLOCK_META_SIZE > s.current_threshold := by omega
  have hsz : ALIGN n + P.BLOCK_META_SIZE ≤ INT_MAX := by omega
  unfold os_malloc
  simp only [hn, if_false, hT, hmap]
  by_cases hfa : s.first_alloc = 0
  · rcases heap_prelude_wf P s bs hsane hwf hfa with hd | ⟨s1, e1, e2, e3, e4, e5, e6, e7, e8⟩
    · left; rw [hd]; rfl
    · rcases find_best_free_block_wf P fuel s1 _ (ALIGN n) hsane e2 (by simp)
        (by rw [e4]; decide) hsz (by simp; omega)
        with ⟨-, hd⟩ | ⟨s', b, bs', g1, g2, g3, g4, g5, g6, g7, g8, g9⟩
      · left; rw [e1]; simp only [Outcome.bind_ok]; rw [hd]; rfl
      · right; right
        refine ⟨_, _, s', b, bs', ?_, g2, ?_, ?_, g9⟩
        · rw [e1]; simp only [Outcome.bind_ok]; rw [g1]; rfl
        · rw [g4, e4]; decide
        · rw [g5, e5]
  · have hpre : heap_prelude P s = Outcome.ok s := by
      unfold heap_prelude
      simp [hfa]
    rw [hpre]
    simp only [Outcome.bind_ok]
    by_cases hbs : bs = []
    · right; left
      refine ⟨hbs, hfa, ?_⟩
      subst hbs
      have hl0 : s.list = 0 := hwf.1
      obtain ⟨k, rfl⟩ : ∃ k, fuel = k + 1 := ⟨fuel - 1, by omega⟩
      simp [find_best_free_block, coalesce_blocks, coalesce_loop, search_loop, hl0,
        extend_heap, Outcome.bind]
    · rcases find_best_free_block_wf P fuel s bs (ALIGN n) hsane hwf hbs hfa hsz
        (by omega) with ⟨-, hd⟩ | ⟨s', b, bs', g1, g2, g3, g4, g5, g6, g7, g8, g9⟩
      · left; rw [hd]; rfl
      · right; right
        refine ⟨_, _, s', b, bs', ?_, g2, ?_, g5, g9⟩
        · rw [g1]; rfl
        · rw [g4]; exact hfa

theorem no_adj_free_congr : ∀ (l1 l2 : List Blk),
    l1.map Blk.status = l2.map Blk.status → no_adj_free l1 → no_adj_free l2 := by
  intro l1
  induction l1 with
  | nil =>
    intro l2 h _
    cases l2 with
    | nil => trivial
    | cons b l2 => simp at h
  | cons a l1 ih =>
    intro l2 h hn
    cases l2 with
    | nil => simp at h
    | cons b l2 =>
      simp only [List.map_cons, List.cons.injEq] at h
      cases l1 with
      | nil =>
        cases l2 with
        | nil => trivial
        | cons b2 l2 => simp at h
      | cons a2 l1 =>
        cases l2 with
        | nil => simp at h
        | cons b2 l2 =>
          have h2 := h.2
          simp only [List.map_cons, List.cons.injEq] at h2
          simp only [no_adj_free] at hn ⊢
          refine ⟨?_, ih (b2 :: l2) h.2 hn.2⟩
          rw [← h.1, ← h2.1]
          exact hn.1

theorem no_adj_free_snoc (x : Blk) : ∀ (init : List Blk) (z : Blk),
    no_adj_free (init ++ [z]) → z.status ≠ STATUS_FREE → no_adj_free (init ++ [z, x]) := by
  intro init
  induction init with
  | nil =>
    intro z _ hz
    simp only [List.nil_append, no_adj_free, and_true]
    exact fun h => hz h.1
  | cons a init ih =>
    intro z hn hz
    cases init with
    | nil =>
      simp only [List.cons_append, List.nil_append, no_adj_free, and_true] at hn ⊢
      exact ⟨hn, fun h => hz h.1⟩
    | cons a2 init =>
      simp only [List.cons_append, no_adj_free] at hn ⊢
      exact ⟨hn.1, ih z hn.2 hz⟩

/-- Coalescing undoes a split: two free entries that stand where the free
entry `c` stood, and add up to it, merge back into `c`. -/
theorem coalesce_from_merge_back (hs : Nat) (c a r : Blk) (post : List Blk)
    (hc : c.status = STATUS_FREE) (ha : a.status = STATUS_FREE) (hr : r.status = STATUS_FREE)
    (haddr : a.addr = c.addr) (hsize : wadd a.size (wadd r.size hs) = c.size)
    (hpost : no_adj_free (c :: post)) :
    coalesce_from hs a (r :: post) = c :: post := by
  have e : ({ a with size := wadd a.size (wadd r.size hs) } : Blk) = c := by
    cases a; cases c
    simp only at haddr hsize ha hc
    simp [haddr, hsize, ha, hc]
  rw [coalesce_from, if_pos ⟨ha, hr⟩, e]
  exact coalesce_from_fixed hs post c hpost

theorem coalesce_from_merge_back_at (hs : Nat) (c a r : Blk) (post : List Blk)
    (hc : c.status = STATUS_FREE) (ha : a.status = STATUS_FREE) (hr : r.status = STATUS_FREE)
    (haddr : a.addr = c.addr) (hsize : wadd a.size (wadd r.size hs) = c.size) :
    ∀ (pre : List Blk) (x : Blk), no_adj_free (x :: (pre ++ c :: post)) →
      coalesce_from hs x (pre ++ a :: r :: post) = x :: (pre ++ c :: post) := by
  intro pre
  induction pre with
  | nil =>
    intro x h
    simp only [List.nil_append, no_adj_free] at h ⊢
    rw [coalesce_from]
    have hx : ¬ (x.status = STATUS_FREE ∧ a.status = STATUS_FREE) :=
      fun hh => h.1 ⟨hh.1, hc⟩
    rw [if_neg hx, coalesce_from_merge_back hs c a r post hc ha hr haddr hsize h.2]
  | cons y pre ih =>
    intro x h
    simp only [List.cons_append, no_adj_free] at h ⊢
    rw [coalesce_from, if_neg h.1, ih y h.2]

theorem coalesce_list_merge_back (hs : Nat) (c a r : Blk) (pre post : List Blk)
    (hc : c.status = STATUS_FREE) (ha : a.status = STATUS_FREE) (hr : r.status = STATUS_FREE)
    (haddr : a.addr = c.addr) (hsize : wadd a.size (wadd r.size hs) = c.size)
    (h : no_adj_free (pre ++ c :: post)) :
    coalesce_list hs (pre ++ a :: r :: post) = pre ++ c :: post := by
  cases pre with
  | nil =>
    simp only [List.nil_append, coalesce_list] at h ⊢
    exact coalesce_from_merge_back hs c a r post hc ha hr haddr hsize h
  | cons x pre =>
    simp only [List.cons_append, coalesce_list] at h ⊢
    exact coalesce_from_merge_back_at hs c a r post hc ha hr haddr hsize pre x h

/-- Once the block that `find_best_free_block` served is free again, the
coalesced list holds a free entry that fits the same request and that the
search can select. -/
theorem served_release (hs size k b : Nat) (cl bs1 : List Blk)
    (h : served hs size k b cl bs1) (hnaf : no_adj_free cl) (hsize : size < INT_MAX) :
    ∃ pre c post, bs1 = pre ++ c :: post ∧ c.addr = b ∧ c.status = STATUS_ALLOC ∧
      ∃ f ∈ coalesce_list hs (pre ++ { c with status := STATUS_FREE } :: post),
        f.status = STATUS_FREE ∧ size ≤ f.size ∧ f.size < INT_MAX := by
  have hIM : INT_MAX = 2147483647 := rfl
  have hW : WORD = 18446744073709551616 := rfl
  rcases h with ⟨pre, c, post, rfl, hcb, hcs, hle, hlt, rfl⟩ |
    ⟨-, init, z, rfl, hz, rfl, rfl⟩ | ⟨-, init, z, rfl, hz, rfl, -, rfl⟩
  · by_cases hbig : size + hs < c.size
    · refine ⟨pre, { addr := c.addr, size := size, status := STATUS_ALLOC },
        { addr := c.addr + (size + hs), size := c.size - (size + hs), status := STATUS_FREE }
          :: post, by simp [hbig], hcb, rfl, c, ?_, hcs, hle, hlt⟩
      have hm := coalesce_list_merge_back hs c
        { addr := c.addr, size := size, status := STATUS_FREE }
        { addr := c.addr + (size + hs), size := c.size - (size + hs), status := STATUS_FREE }
        pre post hcs rfl rfl rfl (by
          simp only [wadd]
          have e1 : (c.size - (size + hs) + hs) % WORD = c.size - (size + hs) + hs :=
            Nat.mod_eq_of_lt (by omega)
          rw [e1, Nat.mod_eq_of_lt (by omega)]
          omega) hnaf
      dsimp only
      rw [hm]
      simp
    · refine ⟨pre, { c with status := STATUS_ALLOC }, post, by simp [hbig], hcb, rfl, c, ?_,
        hcs, hle, hlt⟩
      have e : ({ addr := c.addr, size := c.size, status := STATUS_FREE } : Blk) = c := by
        cases c
        simp only at hcs
        simp [hcs]
      simp only [e]
      rw [coalesce_list_fixed hs _ hnaf]
      simp
  · refine ⟨init, { addr := z.addr, size := size, status := STATUS_ALLOC }, [], rfl, rfl, rfl,
      { addr := z.addr, size := size, status := STATUS_FREE }, ?_, rfl, le_refl _, hsize⟩
    rw [coalesce_list_fixed hs _ (no_adj_free_congr _ _ (by simp [hz]) hnaf)]
    simp
  · refine ⟨init ++ [z], { addr := b, size := size, status := STATUS_ALLOC }, [], rfl, rfl, rfl,
      { addr := b, size := size, status := STATUS_FREE }, ?_, rfl, le_refl _, hsize⟩
    have h2 := no_adj_free_snoc { addr := b, size := size, status := STATUS_FREE } init z
      hnaf hz
    have e : init ++ [z] ++ [({ addr := b, size := size, status := STATUS_FREE } : Blk)]
        = init ++ [z, { addr := b, size := size, status := STATUS_FREE }] := by simp
    simp only [e]
    rw [coalesce_list_fixed hs _ h2]
    simp

/-- After `os_malloc(n)` on the heap path and `os_free` of the pointer it
returned, `os_malloc(n)` returns, with enough fuel, and makes no kernel call:
the block that was served is free again and the search finds a block. -/
theorem malloc_again_core (P : Platform) (s : State) (bs : List Blk) (n f1 a1 : Nat)
    (s1 : State) (p : Nat) (s2 : State) (hsane : sane P) (hwf : Wf P s bs) (hn : n ≠ 0)
    (hthr : s.current_threshold = MMAP_THRESHOLD)
    (hsmall : ALIGN n + P.BLOCK_META_SIZE ≤ MMAP_THRESHOLD)
    (h1 : os_malloc P f1 a1 s n = Outcome.ok (s1, p))
    (h2 : os_free P s1 p = Outcome.ok s2) :
    ∃ N, ∀ fuel at_addr, N ≤ fuel →
      ∃ s3 q, os_malloc P fuel at_addr s2 n = Outcome.ok (s3, q) ∧
        s3.brk = s2.brk ∧ s3.log = s2.log := by
  have hIM : INT_MAX = 2147483647 := rfl
  have hW : WORD = 18446744073709551616 := rfl
  have hthrv : MMAP_THRESHOLD = 131072 := by decide
  obtain ⟨hal, hpos, hle, hpg⟩ := hsane
  have hsane : sane P := ⟨hal, hpos, hle, hpg⟩
  have hA : ALIGN P.BLOCK_META_SIZE = P.BLOCK_META_SIZE := ALIGN_of_mod _ hal (by omega)
  have hT : wadd (ALIGN n) (ALIGN P.BLOCK_META_SIZE) = ALIGN n + P.BLOCK_META_SIZE := by
    rw [hA]; exact wadd_of_lt _ _ (by omega)
  have hm := os_malloc_mono P f1 (max f1 (2 * bs.length + 3)) a1 s n _ (le_max_left _ _) h1
  rcases os_malloc_heap_served P (max f1 (2 * bs.length + 3)) a1 s bs n hsane hwf hn
    (by omega) (by omega) (le_max_right _ _) with
    hd | ⟨-, -, hsegv⟩ | ⟨bs0, k, s', b, bs1, e, hwf1, hfa1, hthr1, hserved⟩
  · rw [hm] at hd; cases hd
  · rw [hm] at hsegv; cases hsegv
  rw [hm] at e
  cases e
  obtain ⟨pre, c, post, rfl, rfl, hcs, f, hf, hfs, hfle, hflt⟩ :=
    served_release _ _ _ _ _ _ hserved (no_adj_free_coalesce_list _ _) (by omega)
  have hst1 := (seg_mem _ _ _ _ hwf1.1 c (by simp)).2
  have hc0 : c.addr ≠ 0 := seg_nonzero _ _ _ _ hwf1.1 _ (by simp [addrs])
  have hback : c.addr + P.BLOCK_META_SIZE - P.BLOCK_META_SIZE = c.addr := by omega
  have hp0 : c.addr + P.BLOCK_META_SIZE ≠ 0 := by omega
  unfold os_free at h2
  simp only [hp0, if_false, hback, hc0, hst1, hcs] at h2
  simp only [reduceCtorEq, if_false, if_true, Outcome.ok.injEq] at h2
  subst h2
  have hw2 := flip_wf P s1 pre post c STATUS_FREE hwf1 (by rw [hcs]; decide) (by decide)
  refine ⟨2 * (pre ++ { c with status := STATUS_FREE } :: post).length + 3, ?_⟩
  intro fuel at_addr hfuel
  obtain ⟨b', hb', eb', -⟩ := search_list_found (ALIGN n) _ INT_MAX 0 ⟨f, hf, hfs, hfle, hflt⟩
  have hb0 : b'.addr ≠ 0 := seg_nonzero _ _ _ _ hw2.1 _
    ((coalesce_list_sublist P.BLOCK_META_SIZE _).subset (List.mem_map_of_mem _ hb'))
  have hfound : search_list (ALIGN n) (coalesce_list P.BLOCK_META_SIZE
      (pre ++ { c with status := STATUS_FREE } :: post)) INT_MAX 0 ≠ 0 := by
    rw [← eb']; exact hb0
  rcases find_best_free_block_wf P fuel _ _ (ALIGN n) hsane hw2 (by simp) hfa1 (by omega)
    (by omega) with ⟨h0, -⟩ | ⟨s3, b3, bs3, g1, -, -, -, -, -, -, g8, -⟩
  · exact absurd h0 hfound
  · refine ⟨s3, b3 + P.BLOCK_META_SIZE, ?_, (g8 hfound).1, (g8 hfound).2⟩
    unfold os_malloc
    have hmap : ¬ ALIGN n + P.BLOCK_META_SIZE > s1.current_threshold := by
      rw [hthr1, hthr]; omega
    simp only [hn, if_false, hT, hmap]
    have hpre : ∀ t : State, t.first_alloc ≠ 0 → heap_prelude P t = Outcome.ok t := by
      intro t ht
      unfold heap_prelude
      simp [ht]
    rw [hpre { s1 with mem := set_status s1.mem c.addr STATUS_FREE } hfa1]
    simp only [Outcome.bind_ok]
    rw [g1]
    rfl

/-- On a free header whose `next` link is the header itself, the loop of
`coalesce_blocks` does not end: each turn merges the header into itself. -/
theorem coalesce_loop_self (P : Platform) (fuel : Nat) :
    ∀ (m : Mem) (c : Nat), c ≠ 0 → (m c).next = c → (m c).status = STATUS_FREE →
      coalesce_loop P fuel m c = Outcome.timeout := by
  induction fuel with
  | zero => intro m c _ _ _; rfl
  | succ k ih =>
    intro m c hc hn hs
    rw [coalesce_loop]
    have hn0 : (m c).next ≠ 0 := by rw [hn]; exact hc
    simp only [hc, hn0, if_false, hn, hs, and_self, if_true]
    apply ih _ _ hc
    · rw [merge_next_next]; simp [hn]
    · rw [merge_next_status]; exact hs

/-- C11.  In every state, `os_malloc(0)`, `os_calloc(nmemb, size)` with a zero
factor and `os_realloc(p, n)` with `n > 0` on a pointer whose header is marked
free return `NULL`, and `os_free(NULL)` and `os_free(q)` on a pointer whose
header is marked free return; each leaves the state, the log of kernel calls
included, as it was. -/
theorem invalid_inputs_rejected (P : Platform) (fuel at_addr : Nat) (s : State)
    (nmemb size p n q : Nat) (hz : nmemb = 0 ∨ size = 0) (hn : n ≠ 0)
    (hp : P.BLOCK_META_SIZE < p)
    (hpf : (s.mem (p - P.BLOCK_META_SIZE)).status = STATUS_FREE)
    (hq : P.BLOCK_META_SIZE < q)
    (hqf : (s.mem (q - P.BLOCK_META_SIZE)).status = STATUS_FREE) :
    os_malloc P fuel at_addr s 0 = Outcome.ok (s, 0) ∧
    os_calloc P fuel at_addr s nmemb size = Outcome.ok (s, 0) ∧
    os_realloc P fuel at_addr s p n = Outcome.ok (s, 0) ∧
    os_free P s 0 = Outcome.ok s ∧
    os_free P s q = Outcome.ok s := by
  have hp0 : p ≠ 0 := by omega
  have hpb : p - P.BLOCK_META_SIZE ≠ 0 := by omega
  have hq0 : q ≠ 0 := by omega
  have hqb : q - P.BLOCK_META_SIZE ≠ 0 := by omega
  refine ⟨?_, ?_, ?_, ?_, ?_⟩
  · simp [os_malloc]
  · simp [os_calloc, hz]
  · simp [os_realloc, hp0, hn, hpb, hpf]
  · simp [os_free]
  · simp [os_free, hq0, hqb, hqf]

/-- The statement of C11 after `os_malloc(100)` and `os_free` of the pointer
`65568` it returned, whose header is then marked free. -/
theorem invalid_inputs_rejected_witness :
    os_malloc linux64 0 0 (freed (os_free linux64
        (state_of (os_malloc linux64 3 0 start 100)) 65568)) 0
      = Outcome.ok (freed (os_free linux64
          (state_of (os_malloc linux64 3 0 start 100)) 65568), 0) ∧
    os_calloc linux64 0 0 (freed (os_free linux64
        (state_of (os_malloc linux64 3 0 start 100)) 65568)) 0 16
      = Outcome.ok (freed (os_free linux64
          (state_of (os_malloc linux64 3 0 start 100)) 65568), 0) ∧
    os_realloc linux64 0 0 (freed (os_free linux64
        (state_of (os_malloc linux64 3 0 start 100)) 65568)) 65568 50
      = Outcome.ok (freed (os_free linux64
          (state_of (os_malloc linux64 3 0 start 100)) 65568), 0) ∧
    os_free linux64 (freed (os_free linux64
        (state_of (os_malloc linux64 3 0 start 100)) 65568)) 0
      = Outcome.ok (freed (os_free linux64
          (state_of (os_malloc linux64 3 0 start 100)) 65568)) ∧
    os_free linux64 (freed (os_free linux64
        (state_of (os_malloc linux64 3 0 start 100)) 65568)) 65568
      = Outcome.ok (freed (os_free linux64
          (state_of (os_malloc linux64 3 0 start 100)) 65568)) :=
  invalid_inputs_rejected linux64 0 0 _ 0 16 65568 50 65568 (Or.inl rfl) (by decide)
    (by decide) (by decide) (by decide) (by decide)

/-! ## Claim C20 -/

/-- The size field behind a pointer that `os_malloc` returned is at least the
aligned request. -/
theorem os_malloc_size_field (P : Platform) (fuel at_addr : Nat) (s s' : State)
    (requested p : Nat)
    (h : os_malloc P fuel at_addr s requested = Outcome.ok (s', p)) (hp : p ≠ 0) :
    ALIGN requested ≤ (s'.mem (p - P.BLOCK_META_SIZE)).size := by
  unfold os_malloc at h
  by_cases hz : requested = 0
  · simp [hz] at h; exact absurd h.2.symm hp
  · simp only [hz, if_false] at h
    by_cases hmap : wadd (ALIGN requested) (ALIGN P.BLOCK_META_SIZE) > s.current_threshold
    · simp only [hmap, if_true] at h
      obtain ⟨h1, _, _, h4, _⟩ := map_block_spec _ _ _ _ _ _ _ _ h
      subst h1
      simp [h4]
    · simp only [hmap, if_false] at h
      obtain ⟨b, h1, _, _, h4, _⟩ := heap_branch_spec P fuel s s' _ p (ALIGN_lt _) h
      subst h1
      simpa using h4

/-- C18 at its failing input.  After `os_malloc(200000)` the list is the one
mapped block at `117440512`, and the latch is clear, as no heap allocation was
made.  A second `os_malloc(200000)` runs `add_mapped_elem` on the block at
`134217728`, which tests the latch, not the list: the list becomes that block
alone, and the first block, still mapped, is no longer on it. -/
theorem add_mapped_elem_drops_list :
    Rep one_mapping.mem one_mapping.list
      [{ addr := 117440512, size := 200000, status := STATUS_MAPPED }] ∧
    one_mapping.first_alloc = 0 ∧
    os_malloc linux64 2 134217728 one_mapping 200000
      = Outcome.ok (two_mappings, 134217760) ∧
    Rep two_mappings.mem two_mappings.list
      [{ addr := 134217728, size := 200000, status := STATUS_MAPPED }] ∧
    ¬ OnList two_mappings.mem two_mappings.list 117440512 ∧
    two_mappings.maps = [(134217728, 200032), (117440512, 200032)] := by
  refine ⟨⟨rfl, by decide, rfl, rfl, rfl⟩, rfl, rfl, ⟨rfl, by decide, rfl, rfl, rfl⟩, ?_, rfl⟩
  intro h
  have hl : two_mappings.list = 134217728 := rfl
  have hn : (two_mappings.mem 134217728).next = 0 := rfl
  rw [hl] at h
  cases h with
  | tail _ _ _ h2 =>
    rw [hn] at h2
    cases h2 with
    | tail _ _ h0 _ => exact h0 rfl

/-- C19 at its failing input.  The calls `os_malloc(8)`, `p =
os_malloc(200000)`, `os_free(p)` return, every kernel call of theirs
succeeding, and leave the list `NULL` with the latch set.  The next
`os_malloc(8)` reads `last->next` through the `NULL` list. -/
theorem os_malloc_after_unmap_derefs_null :
    Reachable linux64 (fits linux64) 65536 wiped [65568] ∧
    wiped.list = 0 ∧ wiped.first_alloc = 1 ∧
    wiped.log = [Syscall.sbrk 131072, Syscall.mmap 200032 117440512,
      Syscall.munmap 117440512 200032] ∧
    ∀ fuel at_addr, 1 ≤ fuel → os_malloc linux64 fuel at_addr wiped 8 = Outcome.segv := by
  refine ⟨?_, rfl, rfl, rfl, ?_⟩
  · exact Reachable.step _ [117440544, 65568] (Call.free 117440544) 0 0 _ 0
      (Reachable.step _ [65568] (Call.malloc 200000) 4 117440512 _ 117440544
        (Reachable.step start [] (Call.malloc 8) 3 0 _ 65568 (Reachable.at_start zero_mem)
          trivial (fun n h => by cases h; unfold fits; decide) rfl)
        trivial (fun n h => by cases h; unfold fits; decide) rfl)
      (Or.inr (by decide)) (fun n h => by cases h) rfl
  · intro fuel at_addr hf
    obtain ⟨k, rfl⟩ : ∃ k, fuel = k + 1 := ⟨fuel - 1, by omega⟩
    have hl : wiped.list = 0 := rfl
    have hfa : wiped.first_alloc ≠ 0 := by decide
    have h8 : ALIGN 8 = 8 := by decide
    have hT : ¬ wadd 8 (ALIGN linux64.BLOCK_META_SIZE) > wiped.current_threshold := by decide
    simp [os_malloc, h8, hT, heap_prelude, hfa, find_best_free_block, coalesce_blocks,
      coalesce_loop, search_loop, hl, extend_heap, Outcome.bind]

/-- C13 at its failing input.  The list is one free block of `2147614688`
bytes, more than `INT_MAX`, and the request is `8`.  The search starts from
`min_size = INT_MAX` and does not take the block; `find_best_free_block`
goes on to the tail, calls `sbrk(8 - 2147614688)` and returns the block with
size `8`, the program break now at its end. -/
theorem find_best_free_block_skips_huge :
    Rep huge.mem huge.list [{ addr := 65536, size := 2147614688, status := STATUS_FREE }] ∧
    8 ≤ (huge.mem 65536).size ∧
    find_best_free_block linux64 3 huge 8
      = Outcome.ok (state_of (find_best_free_block linux64 3 huge 8), 65536) ∧
    (state_of (find_best_free_block linux64 3 huge 8)).log
      = [Syscall.sbrk (WORD - 2147614680)] ∧
    huge.brk = 2147680256 ∧
    (state_of (find_best_free_block linux64 3 huge 8)).brk = 65576 ∧
    ((state_of (find_best_free_block linux64 3 huge 8)).mem 65536).size = 8 ∧
    ((state_of (find_best_free_block linux64 3 huge 8)).mem 65536).next = 0 :=
  ⟨⟨rfl, by decide, rfl, rfl, rfl⟩, by decide, rfl, rfl, rfl, rfl, rfl, rfl⟩

/-! ## Claim C17 -/

/-- A list that ends in `NULL` meets no header twice. -/
theorem rep_nodup (m : Mem) : ∀ (bs : List Blk) (h : Nat), Rep m h bs → (addrs bs).Nodup := by
  intro bs
  induction bs with
  | nil => intro h _; simp [addrs]
  | cons b l ih =>
    intro h hr
    have hr0 := hr
    obtain ⟨a1, a2, a3, a4, a5⟩ := hr
    have hl := ih _ a5
    simp only [addrs, List.map_cons, List.nodup_cons]
    refine ⟨?_, hl⟩
    intro hin
    obtain ⟨c, hc, hca⟩ := List.mem_map.mp hin
    obtain ⟨l1, l2, rfl⟩ := List.append_of_mem hc
    obtain ⟨mid, s1, s2⟩ := (seg_append _ _ _ _ _).mp a5
    have hmid : mid = c.addr := s2.1
    have r1 : Rep m b.addr (c :: l2) := by
      rw [← hca, ← hmid]; exact s2
    have r2 : Rep m b.addr (b :: (l1 ++ c :: l2)) := ⟨rfl, a2, a3, a4, a5⟩
    have e := congrArg List.length (rep_unique m _ _ _ r1 r2)
    simp at e
    omega

/-- The function `find_best_free_block` on a non-empty list that ends in
`NULL`, with a non-null program break: with enough fuel it ends in `DIE` (the
kernel refused) or returns a block marked allocated whose size is the
request, unless the search found a block `c` that is not split, which keeps
its size, between the request and the request plus a header. -/
theorem find_best_free_block_total (P : Platform) (fuel : Nat) (s : State) (bs : List Blk)
    (size : Nat) (hrep : Rep s.mem s.list bs) (hne : bs ≠ []) (hbrk : s.brk ≠ 0)
    (hsize : size < WORD) (hf : 2 * bs.length + 1 ≤ fuel) :
    find_best_free_block P fuel s size = Outcome.die ∨
    ∃ s' b, find_best_free_block P fuel s size = Outcome.ok (s', b) ∧
      (s'.mem b).status = STATUS_ALLOC ∧
      ((s'.mem b).size = size ∨
        ∃ c ∈ coalesce_list P.BLOCK_META_SIZE bs, c.addr = b ∧ c.status = STATUS_FREE ∧
          (s'.mem b).size = c.size ∧ size ≤ c.size ∧ c.size ≤ size + P.BLOCK_META_SIZE) := by
  obtain ⟨m', c1, c2, -, -⟩ := coalesce_loop_rep P fuel bs s.mem s.list hrep
    (rep_nodup _ _ _ hrep) hf
  have hlen : (coalesce_list P.BLOCK_META_SIZE bs).length ≤ bs.length := by
    have := (coalesce_list_sublist P.BLOCK_META_SIZE bs).length_le
    simpa [addrs] using this
  have hsearch := search_loop_rep size fuel (coalesce_list P.BLOCK_META_SIZE bs) m' s.list
    INT_MAX 0 c2 (by omega)
  have hwle : wadd size P.BLOCK_META_SIZE ≤ size + P.BLOCK_META_SIZE := by
    unfold wadd; exact Nat.mod_le _ _
  unfold find_best_free_block coalesce_blocks
  rw [c1]
  simp only [Outcome.bind_ok, hsearch]
  by_cases hr0 : search_list size (coalesce_list P.BLOCK_META_SIZE bs) INT_MAX 0 = 0
  · simp only [hr0, ne_eq, not_true_eq_false, false_and, if_false]
    have hclne := coalesce_list_ne_nil P.BLOCK_META_SIZE bs hne
    obtain ⟨init, z, hiz⟩ := exists_last _ hclne
    rw [hiz] at c2
    have hlast := last_loop_rep fuel init z m' s.list c2 (by
      have : (coalesce_list P.BLOCK_META_SIZE bs).length = init.length + 1 := by
        rw [hiz]; simp
      omega)
    have hz0 : z.addr ≠ 0 := seg_nonzero _ _ _ _ c2 _ (by simp [addrs])
    have hl0 : s.list ≠ 0 := by
      intro e
      rw [e] at hrep
      cases bs with
      | nil => exact hne rfl
      | cons b l => exact hrep.2.1 hrep.1.symm
    unfold extend_heap
    simp only [hl0, if_false, hlast, Outcome.bind_ok]
    by_cases hzf : (m' z.addr).status = STATUS_FREE
    · simp only [hzf, if_true]
      rcases sbrk_none_or_some { s with mem := m' } (wsub size (m' z.addr).size) with
        hn | ⟨r, hr⟩
      · left; rw [hn]; rfl
      · right
        rw [hr]
        simp only [or_die_some, Outcome.bind_ok]
        refine ⟨_, _, rfl, by simp, Or.inl ?_⟩
        simp only [set_status_size, set_size_size, if_true]
        rw [wadd_wsub, Nat.mod_eq_of_lt hsize]
    · simp only [hzf, if_false]
      rcases sbrk_none_or_some { s with mem := m' } (wadd size P.BLOCK_META_SIZE) with
        hn | ⟨r, hr⟩
      · left; rw [hn]; rfl
      · right
        have hr2 : r.2 = s.brk := (sbrk_spec _ _ _ hr).1
        have hr0' : r.2 ≠ 0 := by rw [hr2]; exact hbrk
        rw [hr]
        simp only [or_die_some, Outcome.bind_ok, hr0', if_false]
        refine ⟨_, _, rfl, ?_, Or.inl ?_⟩
        · by_cases e : r.2 = z.addr <;> simp [e]
        · by_cases e : r.2 = z.addr <;> simp [e]
  · right
    simp only [hr0, ne_eq, not_false_eq_true, true_and, if_true]
    rcases search_list_spec size (coalesce_list P.BLOCK_META_SIZE bs) INT_MAX 0 with
      h0 | ⟨c, hc, g1, g2, g3, g4⟩
    · exact absurd h0 hr0
    · have hcsz : (m' c.addr).size = c.size := (seg_mem _ _ _ _ c2 c hc).1
      rw [← g1, hcsz]
      by_cases hbig : c.size > wadd size P.BLOCK_META_SIZE
      · simp only [hbig, if_true]
        refine ⟨_, _, rfl, by simp, Or.inl ?_⟩
        simp [split_block_size]
      · simp only [hbig, if_false]
        refine ⟨_, _, rfl, by simp, Or.inr ⟨c, hc, rfl, g2, ?_, g3, by omega⟩⟩
        simp [hcsz]

theorem tiles_all_mapped (hs : Nat) (maps : List (Nat × Nat)) :
    ∀ (l : List Blk) (pos stop : Nat), tiles hs maps pos l stop →
      (∀ x ∈ l, x.status = STATUS_MAPPED) → pos = stop := by
  intro l
  induction l with
  | nil => intro pos stop h _; exact h
  | cons b l ih =>
    intro pos stop h hall
    have hb := hall b (List.mem_cons_self _ _)
    exact ih pos stop (h.1 hb).2 (fun x hx => hall x (List.mem_cons_of_mem _ hx))

/-- In a well-formed state, two heap entries that are neighbours on the list
are neighbours in memory, and the last heap entry ends at the program
break. -/
theorem wf_contiguous (P : Platform) (s : State) (bs : List Blk) (hwf : Wf P s bs) :
    (∀ l1 A B l2, bs = l1 ++ A :: B :: l2 → A.status ≠ STATUS_MAPPED →
      B.status ≠ STATUS_MAPPED → A.addr + P.BLOCK_META_SIZE + A.size = B.addr) ∧
    (∀ l1 A l2, bs = l1 ++ A :: l2 → A.status ≠ STATUS_MAPPED →
      (∀ x ∈ l2, x.status = STATUS_MAPPED) → A.addr + P.BLOCK_META_SIZE + A.size = s.brk) := by
  obtain ⟨-, -, -, ht, -⟩ := hwf
  constructor
  · intro l1 A B l2 e hA hB
    have h := ht (by rw [e]; simp)
    rw [e] at h
    obtain ⟨mid, -, h2⟩ := (tiles_append _ _ _ _ _ _).mp h
    obtain ⟨e1, h3⟩ := h2.2 hA
    obtain ⟨e2, -⟩ := h3.2 hB
    rw [e1, e2]
  · intro l1 A l2 e hA hall
    have h := ht (by rw [e]; simp)
    rw [e] at h
    obtain ⟨mid, -, h2⟩ := (tiles_append _ _ _ _ _ _).mp h
    obtain ⟨e1, h3⟩ := h2.2 hA
    rw [e1]
    exact tiles_all_mapped _ _ _ _ _ h3 hall

/-- The function `find_best_free_block` when the search finds a block `c` on
the coalesced list `pre ++ c :: post`: it returns `c`, marked allocated.  When
`c` is larger than the request and a header, `c` takes the size of the
request and a free block with the rest of the bytes, less its header, stands
between `c` and `post`, linked both ways; otherwise `c` keeps its size. -/
theorem find_best_free_block_found (P : Platform) (fuel : Nat) (s : State) (bs : List Blk)
    (size : Nat) (hsane : sane P) (hwf : Wf P s bs) (hf : 2 * bs.length + 1 ≤ fuel)
    (hsel : search_list size (coalesce_list P.BLOCK_META_SIZE bs) INT_MAX 0 ≠ 0) :
    ∃ s' pre c post, find_best_free_block P fuel s size = Outcome.ok (s', c.addr) ∧
      coalesce_list P.BLOCK_META_SIZE bs = pre ++ c :: post ∧
      c.status = STATUS_FREE ∧ size ≤ c.size ∧ (s'.mem c.addr).status = STATUS_ALLOC ∧
      (size + P.BLOCK_META_SIZE < c.size →
        Rep s'.mem s'.list (pre ++ { addr := c.addr, size := size, status := STATUS_ALLOC } ::
          { addr := c.addr + (size + P.BLOCK_META_SIZE),
            size := c.size - (size + P.BLOCK_META_SIZE), status := STATUS_FREE } :: post) ∧
        (s'.mem (c.addr + (size + P.BLOCK_META_SIZE))).prev = c.addr ∧
        (∀ d post', post = d :: post' →
          (s'.mem d.addr).prev = c.addr + (size + P.BLOCK_META_SIZE)) ∧
        (s'.mem c.addr).size + P.BLOCK_META_SIZE
          + (s'.mem (c.addr + (size + P.BLOCK_META_SIZE))).size = c.size) ∧
      (c.size ≤ size + P.BLOCK_META_SIZE →
        Rep s'.mem s'.list (pre ++ { c with status := STATUS_ALLOC } :: post) ∧
        (s'.mem c.addr).size = c.size) := by
  have hIM : INT_MAX = 2147483647 := rfl
  have hW : WORD = 18446744073709551616 := rfl
  have hthrv : MMAP_THRESHOLD = 131072 := by decide
  obtain ⟨hal, hpos, hle, hpg⟩ := hsane
  obtain ⟨m', c1, c2, c3, c4⟩ := coalesce_blocks_wf P fuel s bs hwf hf
  have hlen : (coalesce_list P.BLOCK_META_SIZE bs).length ≤ bs.length := by
    have := (coalesce_list_sublist P.BLOCK_META_SIZE bs).length_le
    simpa [addrs] using this
  have hsearch := search_loop_rep size fuel (coalesce_list P.BLOCK_META_SIZE bs) m' s.list
    INT_MAX 0 c2.1 (by omega)
  rcases search_list_spec size (coalesce_list P.BLOCK_META_SIZE bs) INT_MAX 0 with
    h0 | ⟨c, hc, g1, g2, g3, g4⟩
  · exact absurd h0 hsel
  have hT : wadd size P.BLOCK_META_SIZE = size + P.BLOCK_META_SIZE :=
    wadd_of_lt _ _ (by omega)
  obtain ⟨pre, post, hpp⟩ := List.append_of_mem hc
  have hwf1 : Wf P { s with mem := m' } (pre ++ c :: post) := hpp ▸ c2
  have hcm : c.status ≠ STATUS_MAPPED := by rw [g2]; decide
  have hcsz : (m' c.addr).size = c.size := (seg_mem _ _ _ _ c2.1 c hc).1
  have hc0 : c.addr ≠ 0 := by rw [g1]; exact hsel
  unfold find_best_free_block
  rw [c1]
  simp only [Outcome.bind_ok, hsearch, hT, ← g1, hc0, ne_eq, not_false_eq_true, true_and,
    if_true, hcsz]
  by_cases hbig : c.size > size + P.BLOCK_META_SIZE
  · simp only [hbig, if_true]
    have hT0 : size + P.BLOCK_META_SIZE ≠ 0 := by omega
    have hw := split_wf P { s with mem := m' } pre post c size (size + P.BLOCK_META_SIZE)
      hwf1 hpos hcm rfl hbig
    have hfresh := split_addr_fresh P { s with mem := m' } pre post c
      (size + P.BLOCK_META_SIZE) hwf1 hpos hcm (by omega) hbig
    obtain ⟨mid, s1, s2⟩ := (seg_append _ _ _ _ _).mp hwf1.1
    have hnext : Seg m' (m' c.addr).next post 0 := s2.2.2.2.2
    have hne1 : c.addr + (size + P.BLOCK_META_SIZE) ≠ c.addr := by omega
    refine ⟨_, pre, c, post, rfl, hpp, g2, g3, by simp, fun _ => ⟨hw.1, ?_, ?_, ?_⟩,
      fun h => absurd hbig (by omega)⟩
    · simp only [set_status_prev, split_block_prev_eq _ _ _ _ _ hT0]
      have hx : ¬ (c.addr + (size + P.BLOCK_META_SIZE) = (m' c.addr).next ∧
          (m' c.addr).next ≠ 0) := by
        rintro ⟨e1, e2⟩
        cases post with
        | nil => exact e2 hnext
        | cons d post' =>
          apply hfresh
          rw [e1, hnext.1]
          simp [addrs]
      simp [hx]
    · intro d post' e
      subst e
      have hd : (m' c.addr).next = d.addr := hnext.1
      have hd0 : d.addr ≠ 0 := hnext.2.1
      simp only [set_status_prev, split_block_prev_eq _ _ _ _ _ hT0, hd]
      simp [hd0]
    · simp only [set_status_size, split_block_size_eq _ _ _ _ _ hT0, hcsz, hne1]
      simp
      omega
  · simp only [hbig, if_false]
    have hw := flip_wf P { s with mem := m' } pre post c STATUS_ALLOC hwf1 hcm (by decide)
    refine ⟨_, pre, c, post, rfl, hpp, g2, g3, by simp, fun h => absurd h (by omega),
      fun _ => ⟨hw.1, ?_⟩⟩
    simp [hcsz]

/-- C14.  On a well-formed state, when the search of `find_best_free_block`
selects a block, that is a free entry `c` of the coalesced list
`pre ++ c :: post`, and with enough fuel the call returns `c` marked
allocated.  If `c.size > size + BLOCK_META_SIZE`, then `c` has the size `size`
and a free block of `c.size - (size + BLOCK_META_SIZE)` bytes at
`c + size + BLOCK_META_SIZE` is linked between `c` and the block that followed
it, `next` and `prev`, so that the two sizes and a header add up to `c.size`;
otherwise the list has the same entries and `c` keeps its size. -/
theorem split_rule (P : Platform) (s : State) (bs : List Blk) (size : Nat)
    (hsane : sane P) (hwf : Wf P s bs)
    (hsel : search_list size (coalesce_list P.BLOCK_META_SIZE bs) INT_MAX 0 ≠ 0) :
    ∃ N, ∀ fuel, N ≤ fuel →
      ∃ s' pre c post, find_best_free_block P fuel s size = Outcome.ok (s', c.addr) ∧
        coalesce_list P.BLOCK_META_SIZE bs = pre ++ c :: post ∧
        c.status = STATUS_FREE ∧ size ≤ c.size ∧ (s'.mem c.addr).status = STATUS_ALLOC ∧
        (size + P.BLOCK_META_SIZE < c.size →
          Rep s'.mem s'.list
            (pre ++ { addr := c.addr, size := size, status := STATUS_ALLOC } ::
              { addr := c.addr + (size + P.BLOCK_META_SIZE),
                size := c.size - (size + P.BLOCK_META_SIZE), status := STATUS_FREE } :: post) ∧
          (s'.mem (c.addr + (size + P.BLOCK_META_SIZE))).prev = c.addr ∧
          (∀ d post', post = d :: post' →
            (s'.mem d.addr).prev = c.addr + (size + P.BLOCK_META_SIZE)) ∧
          (s'.mem c.addr).size + P.BLOCK_META_SIZE
            + (s'.mem (c.addr + (size + P.BLOCK_META_SIZE))).size = c.size) ∧
        (c.size ≤ size + P.BLOCK_META_SIZE →
          Rep s'.mem s'.list (pre ++ { c with status := STATUS_ALLOC } :: post) ∧
          (s'.mem c.addr).size = c.size) :=
  ⟨2 * bs.length + 1, fun fuel hf =>
    find_best_free_block_found P fuel s bs size hsane hwf hf hsel⟩

/-- The statement of C14 on the list that is one free block of `131040`
bytes, for the size `104`, and scenario S1: `os_malloc(100)` from the start
leaves an allocated block of `104` bytes at the head of the list, followed by
one free block of `131072 - 32 - 104 - 32` bytes. -/
theorem split_rule_witness :
    (∃ N, ∀ fuel, N ≤ fuel →
      ∃ s' pre c post, find_best_free_block linux64 fuel one_free 104
          = Outcome.ok (s', c.addr) ∧
        coalesce_list linux64.BLOCK_META_SIZE
            [{ addr := 65536, size := 131040, status := STATUS_FREE }] = pre ++ c :: post ∧
        c.status = STATUS_FREE ∧ 104 ≤ c.size ∧ (s'.mem c.addr).status = STATUS_ALLOC ∧
        (104 + linux64.BLOCK_META_SIZE < c.size →
          Rep s'.mem s'.list
            (pre ++ { addr := c.addr, size := 104, status := STATUS_ALLOC } ::
              { addr := c.addr + (104 + linux64.BLOCK_META_SIZE),
                size := c.size - (104 + linux64.BLOCK_META_SIZE),
                status := STATUS_FREE } :: post) ∧
          (s'.mem (c.addr + (104 + linux64.BLOCK_META_SIZE))).prev = c.addr ∧
          (∀ d post', post = d :: post' →
            (s'.mem d.addr).prev = c.addr + (104 + linux64.BLOCK_META_SIZE)) ∧
          (s'.mem c.addr).size + linux64.BLOCK_META_SIZE
            + (s'.mem (c.addr + (104 + linux64.BLOCK_META_SIZE))).size = c.size) ∧
        (c.size ≤ 104 + linux64.BLOCK_META_SIZE →
          Rep s'.mem s'.list (pre ++ { c with status := STATUS_ALLOC } :: post) ∧
          (s'.mem c.addr).size = c.size)) ∧
    Rep (state_of (os_malloc linux64 3 0 start 100)).mem
      (state_of (os_malloc linux64 3 0 start 100)).list
      [{ addr := 65536, size := 104, status := STATUS_ALLOC },
       { addr := 65672, size := 131072 - 32 - 104 - 32, status := STATUS_FREE }] :=
  ⟨split_rule linux64 one_free [{ addr := 65536, size := 131040, status := STATUS_FREE }] 104
    (by unfold sane; decide)
    ⟨⟨rfl, by decide, rfl, rfl, rfl⟩, by simp [addrs],
      ⟨by decide, by decide, by decide, fun r hr => (List.not_mem_nil r hr).elim⟩,
      fun _ => ⟨fun h => absurd h (by decide), fun _ => ⟨rfl, rfl⟩⟩,
      fun h => absurd h (by decide)⟩
    (by decide),
   ⟨rfl, by decide, rfl, rfl, rfl, by decide, rfl, rfl, rfl⟩⟩


/-! ## Claim C15: coalescing and its reference definition -/

theorem blk_eta_free (b : Blk) (h : b.status = STATUS_FREE) :
    ({ addr := b.addr, size := b.size, status := STATUS_FREE } : Blk) = b := by
  cases b
  simp only at h
  simp [h]

/-- What the loop of `coalesce_blocks` computes on entries is the reference
definition, when the sizes of the entries and their headers add up inside a
`size_t`. -/
theorem coalesce_from_eq_merge_runs (hs : Nat) :
    ∀ (l : List Blk) (cur : Blk), footprint hs (cur :: l) < WORD →
      coalesce_from hs cur l =
        (if cur.status = STATUS_FREE then
          { addr := cur.addr,
            size := cur.size + ((l.takeWhile is_free).map Blk.size).sum
              + (l.takeWhile is_free).length * hs,
            status := STATUS_FREE }
        else cur) :: merge_runs_from hs (is_free cur) l := by
  intro l
  induction l with
  | nil =>
    intro cur _
    by_cases hc : cur.status = STATUS_FREE
    · simp [coalesce_from, merge_runs_from, hc, blk_eta_free]
    · simp [coalesce_from, merge_runs_from, hc]
  | cons b l ih =>
    intro cur hb
    simp only [footprint, List.map_cons, List.sum_cons] at hb
    by_cases hc : cur.status = STATUS_FREE
    · by_cases hbf : b.status = STATUS_FREE
      · have hw : wadd cur.size (wadd b.size hs) = cur.size + b.size + hs := by
          unfold wadd
          have e1 : (b.size + hs) % WORD = b.size + hs := Nat.mod_eq_of_lt (by omega)
          rw [e1, Nat.mod_eq_of_lt (by omega)]
          omega
        rw [coalesce_from, if_pos ⟨hc, hbf⟩, hw]
        rw [ih _ (by simp only [footprint, List.map_cons, List.sum_cons]; omega)]
        have hfb : is_free b = true := by simp [is_free, hbf]
        have hfc : is_free cur = true := by simp [is_free, hc]
        simp only [hc, if_true, hfc, is_free, decide_True, List.takeWhile_cons, hfb, hbf,
          List.map_cons, List.sum_cons, List.length_cons, merge_runs_from]
        congr 2
        rw [Nat.add_mul]
        omega
      · rw [coalesce_from, if_neg (fun h => hbf h.2)]
        rw [ih _ (by simp only [footprint, List.map_cons, List.sum_cons]; omega)]
        have hfb : is_free b = false := by simp [is_free, hbf]
        have hfc : is_free cur = true := by simp [is_free, hc]
        simp [hc, hbf, hfb, hfc, List.takeWhile_cons, merge_runs_from, blk_eta_free]
    · rw [coalesce_from, if_neg (fun h => hc h.1)]
      rw [ih _ (by simp only [footprint, List.map_cons, List.sum_cons]; omega)]
      have hfc : is_free cur = false := by simp [is_free, hc]
      by_cases hbf : b.status = STATUS_FREE
      · have hfb : is_free b = true := by simp [is_free, hbf]
        simp [hc, hbf, hfb, hfc, merge_runs_from]
      · have hfb : is_free b = false := by simp [is_free, hbf]
        simp [hc, hbf, hfb, hfc, merge_runs_from]

theorem coalesce_list_eq_merge_runs (hs : Nat) (bs : List Blk) (h : footprint hs bs < WORD) :
    coalesce_list hs bs = merge_runs hs bs := by
  cases bs with
  | nil => rfl
  | cons b l =>
    rw [coalesce_list, coalesce_from_eq_merge_runs hs l b h]
    by_cases hb : b.status = STATUS_FREE
    · simp [merge_runs, merge_runs_from, hb, is_free]
    · simp [merge_runs, merge_runs_from, hb, is_free]

/-- Coalescing keeps the entries that are not free, in their order. -/
theorem coalesce_from_filter (hs : Nat) :
    ∀ (l : List Blk) (cur : Blk),
      (coalesce_from hs cur l).filter (fun b => !is_free b)
        = (cur :: l).filter (fun b => !is_free b) := by
  intro l
  induction l with
  | nil => intro cur; simp [coalesce_from]
  | cons b l ih =>
    intro cur
    by_cases h : cur.status = STATUS_FREE ∧ b.status = STATUS_FREE
    · rw [coalesce_from, if_pos h, ih]
      simp [List.filter_cons, is_free, h.1, h.2]
    · rw [coalesce_from, if_neg h, List.filter_cons, ih]
      simp [List.filter_cons]

theorem coalesce_list_filter (hs : Nat) (bs : List Blk) :
    (coalesce_list hs bs).filter (fun b => !is_free b) = bs.filter (fun b => !is_free b) := by
  cases bs with
  | nil => rfl
  | cons b l => exact coalesce_from_filter hs l b

/-- Coalescing keeps the bytes of the list, when they add up inside a
`size_t`. -/
theorem coalesce_from_footprint (hs : Nat) :
    ∀ (l : List Blk) (cur : Blk), footprint hs (cur :: l) < WORD →
      footprint hs (coalesce_from hs cur l) = footprint hs (cur :: l) := by
  intro l
  induction l with
  | nil => intro cur _; simp [coalesce_from]
  | cons b l ih =>
    intro cur hb
    simp only [footprint, List.map_cons, List.sum_cons] at hb
    by_cases h : cur.status = STATUS_FREE ∧ b.status = STATUS_FREE
    · have hw : wadd cur.size (wadd b.size hs) = cur.size + b.size + hs := by
        unfold wadd
        have e1 : (b.size + hs) % WORD = b.size + hs := Nat.mod_eq_of_lt (by omega)
        rw [e1, Nat.mod_eq_of_lt (by omega)]
        omega
      rw [coalesce_from, if_pos h, hw,
        ih _ (by simp only [footprint, List.map_cons, List.sum_cons]; omega)]
      simp only [footprint, List.map_cons, List.sum_cons]
      omega
    · rw [coalesce_from, if_neg h]
      have := ih b (by simp only [footprint, List.map_cons, List.sum_cons]; omega)
      simp only [footprint, List.map_cons, List.sum_cons] at this ⊢
      omega

theorem coalesce_list_footprint (hs : Nat) (bs : List Blk) (h : footprint hs bs < WORD) :
    footprint hs (coalesce_list hs bs) = footprint hs bs := by
  cases bs with
  | nil => rfl
  | cons b l => exact coalesce_from_footprint hs l b h

theorem linked_congr (m m' : Mem) : ∀ (l : List Blk) (p : Nat), Linked m p l →
    (∀ b ∈ l, (m' b.addr).prev = (m b.addr).prev) → Linked m' p l := by
  intro l
  induction l with
  | nil => intro p _ _; trivial
  | cons b l ih =>
    intro p h hc
    exact ⟨(hc b (List.mem_cons_self _ _)).trans h.1,
      ih _ h.2 (fun d hd => hc d (List.mem_cons_of_mem _ hd))⟩

theorem merge_next_prev (P : Platform) (m : Mem) (current x : Nat) :
    (merge_next P m current x).prev =
      if (m (m current).next).next ≠ 0 ∧ x = (m (m current).next).next then current
      else (m x).prev := by
  unfold merge_next
  by_cases hn : (m (m current).next).next = 0
  · simp [hn]
  · by_cases hx : x = (m (m current).next).next
    · simp [hn, hx]
    · simp [hn, hx]

/-- The loop of `coalesce_blocks` keeps the `prev` links in order. -/
theorem coalesce_loop_linked (P : Platform) (fuel : Nat) :
    ∀ (bs : List Blk) (m : Mem) (h p : Nat), Rep m h bs → (addrs bs).Nodup →
      Linked m p bs → 2 * bs.length + 1 ≤ fuel →
      ∃ m', coalesce_loop P fuel m h = Outcome.ok m' ∧
        Linked m' p (coalesce_list P.BLOCK_META_SIZE bs) := by
  induction fuel with
  | zero => intro bs m h p _ _ _ hf; omega
  | succ n ih =>
    intro bs m h p hr hnd hlk hf
    unfold coalesce_loop
    cases bs with
    | nil =>
      have : h = 0 := hr
      simp [this, coalesce_list, Linked]
    | cons b l =>
      obtain ⟨h1, h2, h3, h4, h5⟩ := hr
      subst h1
      simp only [h2, if_false]
      cases l with
      | nil =>
        have hn : (m b.addr).next = 0 := h5
        simp only [hn, if_true]
        exact ⟨m, rfl, hlk⟩
      | cons c l =>
        obtain ⟨g1, g2, g3, g4, g5⟩ := h5
        obtain ⟨k1, k2, k3⟩ := hlk
        have hcb : c.addr ≠ b.addr := by
          intro e
          simp [addrs, e] at hnd
        have hbl : b.addr ∉ addrs l := by
          intro e
          simp only [addrs, List.map_cons, List.nodup_cons, List.mem_cons] at hnd
          exact hnd.1 (Or.inr e)
        have hndl : (addrs l).Nodup := by
          simp only [addrs, List.map_cons, List.nodup_cons] at hnd
          exact hnd.2.2
        have hn0 : (m b.addr).next ≠ 0 := by rw [g1]; exact g2
        simp only [hn0, if_false]
        rw [g1, h4, g4]
        by_cases hfree : b.status = STATUS_FREE ∧ c.status = STATUS_FREE
        · simp only [hfree, and_self, if_true]
          have hrep3 : Rep (merge_next P m b.addr) b.addr
              ({ b with size := wadd b.size (wadd c.size P.BLOCK_META_SIZE) } :: l) := by
            refine ⟨rfl, h2, ?_, ?_, ?_⟩
            · simp [merge_next_size, g1, h3, g3]
            · simp [merge_next_status, h4]
            · simp only [merge_next_next, if_true, g1]
              apply rep_congr m _ l _ g5
              intro d hd
              have hdb : d.addr ≠ b.addr := fun e => hbl (e ▸ List.mem_map_of_mem _ hd)
              simp [merge_next_size, merge_next_status, merge_next_next, hdb]
          have hnd3 : (addrs ({ b with size := wadd b.size (wadd c.size P.BLOCK_META_SIZE) }
              :: l)).Nodup := by
            simp only [addrs, List.map_cons, List.nodup_cons]
            exact ⟨hbl, hndl⟩
          have hlk3 : Linked (merge_next P m b.addr) p
              ({ b with size := wadd b.size (wadd c.size P.BLOCK_META_SIZE) } :: l) := by
            refine ⟨?_, ?_⟩
            · rw [merge_next_prev, g1]
              have hx : ¬ ((m c.addr).next ≠ 0 ∧ b.addr = (m c.addr).next) := by
                rintro ⟨e1, e2⟩
                cases l with
                | nil => exact e1 g5
                | cons d l =>
                  apply hbl
                  rw [e2, g5.1]
                  simp [addrs]
              rw [if_neg hx]
              exact k1
            · cases l with
              | nil => trivial
              | cons d l =>
                have hd : (m c.addr).next = d.addr := g5.1
                have hd0 : d.addr ≠ 0 := g5.2.1
                refine ⟨?_, ?_⟩
                · rw [merge_next_prev, g1, hd]
                  simp [hd0]
                · apply linked_congr m _ l _ k3.2
                  intro e he
                  rw [merge_next_prev, g1, hd]
                  have hed : e.addr ≠ d.addr := by
                    intro e1
                    simp only [addrs, List.map_cons, List.nodup_cons] at hndl
                    exact hndl.1 (e1 ▸ List.mem_map_of_mem _ he)
                  simp [hed]
          obtain ⟨m', e1, e2⟩ := ih _ _ _ p hrep3 hnd3 hlk3
            (by simp only [List.length_cons] at hf ⊢; omega)
          refine ⟨m', e1, ?_⟩
          simpa [coalesce_list, coalesce_from, hfree] using e2
        · simp only [hfree, if_false]
          have hrepc : Rep m c.addr (c :: l) := ⟨rfl, g2, g3, g4, g5⟩
          have hndc : (addrs (c :: l)).Nodup := by
            simp only [addrs, List.map_cons, List.nodup_cons] at hnd ⊢
            exact hnd.2
          obtain ⟨m', e1, e2⟩ := ih _ _ _ b.addr hrepc hndc ⟨k2, k3⟩
            (by simp only [List.length_cons] at hf ⊢; omega)
          obtain ⟨m2, f1, -, f3, -⟩ := coalesce_loop_rep P n _ _ _ hrepc hndc
            (by simp only [List.length_cons] at hf ⊢; omega)
          rw [e1] at f1
          cases f1
          have hb' : m' b.addr = m b.addr := f3 _ (by
            simp only [addrs, List.map_cons, List.mem_cons, not_or]
            exact ⟨Ne.symm hcb, hbl⟩)
          refine ⟨m', e1, ?_⟩
          simp only [coalesce_list, coalesce_from, hfree, if_false]
          refine ⟨by rw [hb']; exact k1, ?_⟩
          simpa [coalesce_list] using e2

theorem grows_refl (s : State) : grows s s :=
  ⟨le_refl _, [], by simp, fun d hd => by cases hd⟩

theorem grows_of_eq (s s' : State) (hb : s'.brk = s.brk) (hl : s'.log = s.log) :
    grows s s' :=
  ⟨by rw [hb], [], by simp [hl], fun d hd => by cases hd⟩

theorem grows_trans (a b c : State) (h1 : grows a b) (h2 : grows b c) : grows a c := by
  obtain ⟨b1, l1, e1, n1⟩ := h1
  obtain ⟨b2, l2, e2, n2⟩ := h2
  refine ⟨le_trans b1 b2, l1 ++ l2, by rw [e2, e1, List.append_assoc], ?_⟩
  intro d hd
  rcases List.mem_append.mp hd with h | h
  · exact n1 d h
  · exact n2 d h

theorem grows_congr (a b b' : State) (h : grows a b) (hb : b'.brk = b.brk)
    (hl : b'.log = b.log) : grows a b' :=
  grows_trans a b b' h (grows_of_eq b b' hb hl)

theorem sbrk_grows (s : State) (increment : Nat) (r : State × Nat)
    (h : sbrk s increment = some r) (hd : increment % WORD < WORD / 2) : grows s r.1 := by
  unfold sbrk at h
  dsimp only at h
  rw [if_pos hd] at h
  by_cases hc : s.brk + increment % WORD < WORD ∧
      ∀ q ∈ s.maps, disjoint s.brk (increment % WORD) q.1 q.2
  · rw [if_pos hc] at h
    cases h
    refine ⟨Nat.le_add_right _ _, [Syscall.sbrk (increment % WORD)], rfl, ?_⟩
    intro d hmem
    simp only [List.mem_singleton, Syscall.sbrk.injEq] at hmem
    rw [hmem]; exact hd
  · rw [if_neg hc] at h
    cases h

/-- The extension of the heap moves the program break up, when a free tail is
smaller than the request. -/
theorem extend_heap_grows (P : Platform) (fuel : Nat) (s : State) (init : List Blk) (z : Blk)
    (size : Nat) (s' : State) (b : Nat) (hrep : Rep s.mem s.list (init ++ [z]))
    (hz : z.status = STATUS_FREE → z.size < size) (hsize : size + P.BLOCK_META_SIZE < WORD / 2)
    (hf : init.length + 1 ≤ fuel)
    (h : extend_heap P fuel s size = Outcome.ok (s', b)) : grows s s' := by
  have hW : WORD = 18446744073709551616 := rfl
  have hlast := last_loop_rep fuel init z s.mem s.list hrep hf
  obtain ⟨hzs, hzst⟩ := seg_mem _ _ _ _ hrep z (by simp)
  unfold extend_heap at h
  by_cases hl : s.list = 0
  · simp [hl] at h
  simp only [hl, if_false, hlast, Outcome.bind_ok, hzst, hzs] at h
  by_cases hzf : z.status = STATUS_FREE
  · simp only [hzf, if_true] at h
    rw [Outcome.bind_eq_ok] at h
    obtain ⟨r, h1, h2⟩ := h
    simp only [Outcome.ok.injEq, Prod.mk.injEq] at h2
    obtain ⟨rfl, -⟩ := h2
    have hlt := hz hzf
    have hw : wsub size z.size = size - z.size := wsub_of_le _ _ (by omega) (by omega)
    have hg := sbrk_grows s _ r ((or_die_eq_ok _ _).mp h1) (by
      rw [hw, Nat.mod_eq_of_lt (by omega)]; omega)
    exact grows_congr s r.1 _ hg rfl rfl
  · simp only [hzf, if_false] at h
    rw [Outcome.bind_eq_ok] at h
    obtain ⟨r, h1, h2⟩ := h
    by_cases hr0 : r.2 = 0
    · simp [hr0] at h2
    simp only [hr0, if_false, Outcome.ok.injEq, Prod.mk.injEq] at h2
    obtain ⟨rfl, -⟩ := h2
    have hw : wadd size P.BLOCK_META_SIZE = size + P.BLOCK_META_SIZE :=
      wadd_of_lt _ _ (by omega)
    have hg := sbrk_grows s _ r ((or_die_eq_ok _ _).mp h1) (by
      rw [hw, Nat.mod_eq_of_lt (by omega)]; omega)
    exact grows_congr s r.1 _ hg rfl rfl

theorem find_best_free_block_grows (P : Platform) (fuel : Nat) (s : State) (bs : List Blk)
    (size : Nat) (s' : State) (b : Nat) (hsane : sane P) (hwf : Wf P s bs) (hne : bs ≠ [])
    (hsize : size + P.BLOCK_META_SIZE ≤ INT_MAX) (hext : s.brk ≤ s.heap_start + INT_MAX)
    (hf : 2 * bs.length + 1 ≤ fuel)
    (h : find_best_free_block P fuel s size = Outcome.ok (s', b)) : grows s s' := by
  have hIM : INT_MAX = 2147483647 := rfl
  have hW : WORD = 18446744073709551616 := rfl
  obtain ⟨m', c1, c2, -, -⟩ := coalesce_blocks_wf P fuel s bs hwf hf
  have hlen : (coalesce_list P.BLOCK_META_SIZE bs).length ≤ bs.length := by
    have := (coalesce_list_sublist P.BLOCK_META_SIZE bs).length_le
    simpa [addrs] using this
  have hsearch := search_loop_rep size fuel (coalesce_list P.BLOCK_META_SIZE bs) m' s.list
    INT_MAX 0 c2.1 (by omega)
  unfold find_best_free_block at h
  rw [c1] at h
  simp only [Outcome.bind_ok, hsearch] at h
  have hclne := coalesce_list_ne_nil P.BLOCK_META_SIZE bs hne
  by_cases hr0 : search_list size (coalesce_list P.BLOCK_META_SIZE bs) INT_MAX 0 = 0
  · simp only [hr0, ne_eq, not_true_eq_false, false_and, if_false] at h
    obtain ⟨init, z, hiz⟩ := exists_last _ hclne
    have hrep : Rep m' s.list (init ++ [z]) := hiz ▸ c2.1
    have ht := c2.2.2.2.1 hclne
    have hz : z.status = STATUS_FREE → z.size < size := by
      intro hzf
      by_contra hcon
      have hzm : z ∈ coalesce_list P.BLOCK_META_SIZE bs := by rw [hiz]; simp
      have hb := tiles_heap_mem _ _ _ _ _ ht z hzm (by rw [hzf]; decide)
      have hpos := hsane.2.1
      have hb1 : z.addr + P.BLOCK_META_SIZE + z.size ≤ s.brk := hb.2
      have hb2 : s.heap_start ≤ z.addr := hb.1
      obtain ⟨b', hb', eb', -⟩ := search_list_found size _ INT_MAX 0
        ⟨z, hzm, hzf, by omega, by omega⟩
      have hb0 : b'.addr ≠ 0 := seg_nonzero _ _ _ _ c2.1 _ (List.mem_map_of_mem _ hb')
      exact hb0 (eb'.trans hr0)
    have hg := extend_heap_grows P fuel _ init z size s' b hrep hz (by omega) (by
      have : (coalesce_list P.BLOCK_META_SIZE bs).length = init.length + 1 := by
        rw [hiz]; simp
      omega) h
    exact hg
  · simp only [hr0, ne_eq, not_false_eq_true, true_and, if_true, Outcome.ok.injEq,
      Prod.mk.injEq] at h
    obtain ⟨rfl, -⟩ := h
    exact grows_of_eq _ _ rfl rfl

theorem heap_prelude_grows (P : Platform) (s s1 : State)
    (h : heap_prelude P s = Outcome.ok s1) : grows s s1 := by
  unfold heap_prelude at h
  by_cases hfa : s.first_alloc = 0
  · simp only [hfa, if_true] at h
    rw [Outcome.bind_eq_ok] at h
    obtain ⟨r, h1, h2⟩ := h
    by_cases hr0 : r.2 = 0
    · simp [hr0] at h2
    simp only [hr0, if_false, Outcome.ok.injEq] at h2
    subst h2
    have hg := sbrk_grows _ _ r ((or_die_eq_ok _ _).mp h1) (by decide)
    exact grows_congr s r.1 _ hg rfl rfl
  · simp only [hfa, if_false, Outcome.ok.injEq] at h
    subst h
    exact grows_refl s

theorem os_free_grows (P : Platform) (s s' : State) (ptr : Nat)
    (h : os_free P s ptr = Outcome.ok s') : grows s s' := by
  unfold os_free at h
  by_cases hp : ptr = 0
  · simp only [hp, if_true, Outcome.ok.injEq] at h
    subst h; exact grows_refl s
  simp only [hp, if_false] at h
  by_cases hb : ptr - P.BLOCK_META_SIZE = 0
  · simp [hb] at h
  simp only [hb, if_false] at h
  by_cases hfree : (s.mem (ptr - P.BLOCK_META_SIZE)).status = STATUS_FREE
  · simp only [hfree, if_true, Outcome.ok.injEq] at h
    subst h; exact grows_refl s
  simp only [hfree, if_false] at h
  by_cases halloc : (s.mem (ptr - P.BLOCK_META_SIZE)).status = STATUS_ALLOC
  · simp only [halloc, if_true, Outcome.ok.injEq] at h
    subst h; exact grows_of_eq _ _ rfl rfl
  · simp only [halloc, if_false] at h
    rw [Outcome.bind_eq_ok] at h
    obtain ⟨s1, h1, h2⟩ := h
    cases h2
    rw [or_die_eq_ok] at h1
    unfold munmap at h1
    by_cases hpg : (ptr - P.BLOCK_META_SIZE) % P.PAGE_SIZE = 0
    · simp only [hpg, if_true, Option.some.injEq] at h1
      subst h1
      refine ⟨le_refl _, [_], rfl, ?_⟩
      intro d hd
      simp at hd
    · simp [hpg] at h1

theorem os_malloc_grows (P : Platform) (fuel at_addr : Nat) (s : State) (bs : List Blk)
    (n : Nat) (s' : State) (p : Nat) (hsane : sane P) (hwf : Wf P s bs)
    (hthr : s.current_threshold ≤ INT_MAX) (hfit : fits P n)
    (hext : s.brk ≤ s.heap_start + INT_MAX) (hf : 2 * bs.length + 3 ≤ fuel)
    (h : os_malloc P fuel at_addr s n = Outcome.ok (s', p)) : grows s s' := by
  have hIM : INT_MAX = 2147483647 := rfl
  have hW : WORD = 18446744073709551616 := rfl
  have hthrv : MMAP_THRESHOLD = 131072 := by decide
  have h0 := h
  obtain ⟨hal, hpos, hle, hpg⟩ := hsane
  have hsane : sane P := ⟨hal, hpos, hle, hpg⟩
  have hA : ALIGN P.BLOCK_META_SIZE = P.BLOCK_META_SIZE := ALIGN_of_mod _ hal (by omega)
  have hT : wadd (ALIGN n) (ALIGN P.BLOCK_META_SIZE) = ALIGN n + P.BLOCK_META_SIZE := by
    rw [wadd_of_lt _ _ hfit, hA]
  unfold os_malloc at h
  by_cases hn : n = 0
  · simp only [hn, if_true, Outcome.ok.injEq, Prod.mk.injEq] at h
    obtain ⟨rfl, -⟩ := h
    exact grows_refl s
  simp only [hn, if_false, hT] at h
  by_cases hmap : ALIGN n + P.BLOCK_META_SIZE > s.current_threshold
  · simp only [hmap, if_true] at h
    obtain ⟨-, -, -, -, e5, -, -, -, -, e10⟩ := map_block_spec _ _ _ _ _ _ _ _ h
    refine ⟨by rw [e5], [_], e10, ?_⟩
    intro d hd
    simp at hd
  · simp only [hmap, if_false] at h
    rw [Outcome.bind_eq_ok] at h
    obtain ⟨s1, h1, h⟩ := h
    rw [Outcome.bind_eq_ok] at h
    obtain ⟨r, h2, h3⟩ := h
    simp only [Outcome.ok.injEq, Prod.mk.injEq] at h3
    obtain ⟨rfl, -⟩ := h3
    have hg1 := heap_prelude_grows P s s1 h1
    have hsz : ALIGN n + P.BLOCK_META_SIZE ≤ INT_MAX := by omega
    by_cases hfa : s.first_alloc = 0
    · rcases heap_prelude_wf P s bs hsane hwf hfa with hd | ⟨s1', e1, e2, -, -, -, -, e7, e8⟩
      · rw [h1] at hd; cases hd
      · rw [h1] at e1
        cases e1
        have hb := hwf.2.2.2.2 hfa
        exact grows_trans s s1 r.1 hg1
          (find_best_free_block_grows P fuel s1 _ (ALIGN n) r.1 r.2 hsane e2 (by simp) hsz
            (by rw [e7, e8]; omega) (by simp; omega) h2)
    · have hpre : heap_prelude P s = Outcome.ok s := by
        unfold heap_prelude
        simp [hfa]
      rw [hpre] at h1
      cases h1
      have hne : bs ≠ [] := by
        intro e
        subst e
        exact os_malloc_wiped P fuel at_addr s n _ hwf.1 hfa hn h0
      exact find_best_free_block_grows P fuel s bs (ALIGN n) r.1 r.2 hsane hwf hne hsz hext
        (by omega) h2

theorem os_calloc_grows (P : Platform) (fuel at_addr : Nat) (s : State) (bs : List Blk)
    (nmemb size : Nat) (s' : State) (p : Nat) (hsane : sane P) (hwf : Wf P s bs)
    (hfit : ¬ (nmemb = 0 ∨ size = 0) → fits P (nmemb * size % WORD))
    (hext : s.brk ≤ s.heap_start + INT_MAX) (hf : 2 * bs.length + 3 ≤ fuel)
    (h : os_calloc P fuel at_addr s nmemb size = Outcome.ok (s', p)) : grows s s' := by
  unfold os_calloc at h
  by_cases hz : nmemb = 0 ∨ size = 0
  · simp only [hz, if_true, Outcome.ok.injEq, Prod.mk.injEq] at h
    obtain ⟨rfl, -⟩ := h
    exact grows_refl s
  · simp only [hz, if_false] at h
    rw [Outcome.bind_eq_ok] at h
    obtain ⟨r, h1, h2⟩ := h
    simp only [Outcome.ok.injEq, Prod.mk.injEq] at h2
    obtain ⟨rfl, -⟩ := h2
    have hwf0 : Wf P { s with current_threshold := P.PAGE_SIZE } bs := hwf
    have hg := os_malloc_grows P fuel at_addr _ bs _ r.1 r.2 hsane hwf0 hsane.2.2.2 (hfit hz)
      hext hf h1
    exact grows_congr s r.1 _ hg rfl rfl

theorem relocate_grows (P : Platform) (fuel at_addr : Nat) (s : State) (bs : List Blk)
    (ptr n : Nat) (checked : Bool) (s' : State) (q : Nat) (hsane : sane P) (hwf : Wf P s bs)
    (hthr : s.current_threshold ≤ INT_MAX) (hfit : fits P n)
    (hext : s.brk ≤ s.heap_start + INT_MAX) (hf : 2 * bs.length + 3 ≤ fuel)
    (h : relocate P fuel at_addr s ptr n checked = Outcome.ok (s', q)) : grows s s' := by
  unfold relocate at h
  rw [Outcome.bind_eq_ok] at h
  obtain ⟨r, h1, h⟩ := h
  have hg := os_malloc_grows P fuel at_addr s bs n r.1 r.2 hsane hwf hthr hfit hext hf h1
  by_cases hz : r.2 = 0
  · simp only [hz, if_true] at h
    cases checked
    · simp at h
    · simp only [if_true, Outcome.ok.injEq, Prod.mk.injEq] at h
      obtain ⟨rfl, -⟩ := h
      exact hg
  · simp only [hz, if_false] at h
    rw [Outcome.bind_eq_ok] at h
    obtain ⟨s2, h2, h3⟩ := h
    simp only [Outcome.ok.injEq, Prod.mk.injEq] at h3
    obtain ⟨rfl, -⟩ := h3
    exact grows_trans s r.1 s2 hg (os_free_grows P r.1 s2 ptr h2)

theorem os_realloc_grows (P : Platform) (fuel at_addr : Nat) (s : State) (bs : List Blk)
    (ptr n : Nat) (s' : State) (q : Nat) (hsane : sane P) (hwf : Wf P s bs)
    (hthr : s.current_threshold ≤ INT_MAX) (hfit : n ≠ 0 → fits P n)
    (hext : s.brk ≤ s.heap_start + INT_MAX) (hf : 2 * bs.length + 3 ≤ fuel)
    (h : os_realloc P fuel at_addr s ptr n = Outcome.ok (s', q)) : grows s s' := by
  have hfit0 : fits P n := by
    by_cases hn : n = 0
    · subst hn; exact fits_zero P
    · exact hfit hn
  unfold os_realloc at h
  by_cases hp : ptr = 0
  · simp only [hp, if_true] at h
    exact os_malloc_grows P fuel at_addr s bs n s' q hsane hwf hthr hfit0 hext hf h
  simp only [hp, if_false] at h
  by_cases hn : n = 0
  · simp only [hn, if_true] at h
    rw [Outcome.bind_eq_ok] at h
    obtain ⟨s1, h1, h2⟩ := h
    simp only [Outcome.ok.injEq, Prod.mk.injEq] at h2
    obtain ⟨rfl, -⟩ := h2
    exact os_free_grows P s s1 ptr h1
  simp only [hn, if_false] at h
  by_cases hb : ptr - P.BLOCK_META_SIZE = 0
  · simp [hb] at h
  simp only [hb, if_false] at h
  by_cases hfree : (s.mem (ptr - P.BLOCK_META_SIZE)).status = STATUS_FREE
  · simp only [hfree, if_true, Outcome.ok.injEq, Prod.mk.injEq] at h
    obtain ⟨rfl, -⟩ := h
    exact grows_refl s
  simp only [hfree, if_false] at h
  by_cases hbig : (s.mem (ptr - P.BLOCK_META_SIZE)).status = STATUS_MAPPED ∨
      wadd (ALIGN n) (ALIGN P.BLOCK_META_SIZE) ≥ MMAP_THRESHOLD
  · simp only [hbig, if_true] at h
    exact relocate_grows P fuel at_addr s bs ptr n _ s' q hsane hwf hthr hfit0 hext hf h
  simp only [hbig, if_false] at h
  by_cases hsame : (s.mem (ptr - P.BLOCK_META_SIZE)).size = ALIGN n
  · simp only [hsame, if_true, Outcome.ok.injEq, Prod.mk.injEq] at h
    obtain ⟨rfl, -⟩ := h
    exact grows_refl s
  simp only [hsame, if_false] at h
  by_cases hsplit : (s.mem (ptr - P.BLOCK_META_SIZE)).size > ALIGN n ∧
      (s.mem (ptr - P.BLOCK_META_SIZE)).size > wadd (ALIGN n) (ALIGN P.BLOCK_META_SIZE)
  · simp only [hsplit, and_self, if_true, Outcome.ok.injEq, Prod.mk.injEq] at h
    obtain ⟨rfl, -⟩ := h
    exact grows_of_eq _ _ rfl rfl
  · simp only [hsplit, if_false] at h
    exact relocate_grows P fuel at_addr s bs ptr n _ s' q hsane hwf hthr hfit0 hext hf h

/-- A call that returned, on a well-formed state whose heap spans at most
`INT_MAX` bytes, for a request that fits: the program break did not go down
and every adjustment of it was non-negative. -/
theorem run_call_grows (P : Platform) (fuel at_addr : Nat) (s : State) (bs : List Blk)
    (c : Call) (s' : State) (r : Nat) (hsane : sane P) (hwf : Wf P s bs)
    (hthr : s.current_threshold = MMAP_THRESHOLD)
    (hreq : ∀ n, request_of c = some n → fits P n)
    (hext : s.brk ≤ s.heap_start + INT_MAX)
    (h : run_call P fuel at_addr s c = Outcome.ok (s', r)) : grows s s' := by
  have hI : s.current_threshold ≤ INT_MAX := by rw [hthr]; decide
  cases c with
  | malloc size =>
    exact os_malloc_grows P _ at_addr s bs size s' r hsane hwf hI (hreq size rfl) hext
      (le_max_right fuel _) (os_malloc_mono P fuel _ at_addr s size _ (le_max_left _ _) h)
  | free ptr =>
    simp only [run_call] at h
    rw [Outcome.bind_eq_ok] at h
    obtain ⟨s1, h1, h2⟩ := h
    simp only [Outcome.ok.injEq, Prod.mk.injEq] at h2
    obtain ⟨rfl, -⟩ := h2
    exact os_free_grows P s s1 ptr h1
  | calloc nmemb size =>
    exact os_calloc_grows P _ at_addr s bs nmemb size s' r hsane hwf
      (fun hz => hreq _ (by simp [request_of, hz])) hext
      (le_max_right fuel _) (os_calloc_mono P fuel _ at_addr s nmemb size _ (le_max_left _ _) h)
  | realloc ptr size =>
    exact os_realloc_grows P _ at_addr s bs ptr size s' r hsane hwf hI
      (fun hn => hreq _ (by simp [request_of, hn])) hext
      (le_max_right fuel _) (os_realloc_mono P fuel _ at_addr s ptr size _ (le_max_left _ _) h)

/-- C12, amended.  In a state that a client reaches through requests that fit
a `size_t` and whose heap spans at most `INT_MAX` bytes, a call for a request
that fits, once it returned, has made only program-break adjustments that are
non-negative when their argument is read as a signed word, and has left the
program break at or above where it was. -/
theorem program_break_never_decreases (P : Platform) (brk0 : Nat) (s : State)
    (live : List Nat) (c : Call) (fuel at_addr : Nat) (s' : State) (r : Nat)
    (hsane : sane P) (hb0 : 0 < brk0) (hbw : brk0 < WORD)
    (hr : Reachable P (fits P) brk0 s live)
    (hext : s.brk ≤ s.heap_start + INT_MAX)
    (hreq : ∀ n, request_of c = some n → fits P n)
    (h : run_call P fuel at_addr s c = Outcome.ok (s', r)) :
    s.brk ≤ s'.brk ∧
      ∃ l, s'.log = s.log ++ l ∧ ∀ d, Syscall.sbrk d ∈ l → d < WORD / 2 := by
  obtain ⟨⟨bs, hwf, -, -⟩, ht⟩ := reachable_sound P brk0 s live hsane hb0 hbw hr
  exact run_call_grows P fuel at_addr s bs c s' r hsane hwf ht hreq hext h

/-- The statement of C12 for `os_malloc(100)` at the start of the process,
which reserves the prelude: the program break goes from `65536` to
`196608`. -/
theorem program_break_never_decreases_witness :
    start.brk = 65536 ∧ (state_of (os_malloc linux64 3 0 start 100)).brk = 196608 ∧
    start.brk ≤ (state_of (os_malloc linux64 3 0 start 100)).brk ∧
    ∃ l, (state_of (os_malloc linux64 3 0 start 100)).log = start.log ++ l ∧
      ∀ d, Syscall.sbrk d ∈ l → d < WORD / 2 :=
  ⟨rfl, rfl,
    program_break_never_decreases linux64 65536 start [] (Call.malloc 100) 3 0 _ 65568
      (by unfold sane; decide) (by decide) (by decide) (Reachable.at_start zero_mem)
      (by decide) (fun n h => by cases h; unfold fits; decide) rfl⟩

/-- C12 fails as stated.  After `os_malloc(8)` the program break is `196608`.
The call `os_malloc(SIZE_MAX - 31)`, whose total size wraps to `0`, takes the
heap path, finds no block and extends the free tail by
`(SIZE_MAX - 31) - 131000`, which as a signed word is `-131032`: the program
break is `65576` when the call returns. -/
theorem program_break_decreases :
    Reachable linux64 any_request 65536 (state_of (os_malloc linux64 2 0 start 8)) [65568] ∧
    (state_of (os_malloc linux64 2 0 start 8)).brk = 196608 ∧
    run_call linux64 4 0 (state_of (os_malloc linux64 2 0 start 8)) (Call.malloc (WORD - 32))
      = Outcome.ok (wrapped, 65608) ∧
    wrapped.brk = 65576 ∧ wrapped.brk < (state_of (os_malloc linux64 2 0 start 8)).brk ∧
    wrapped.log = [Syscall.sbrk 131072, Syscall.sbrk (WORD - 131032)] ∧
    ¬ (WORD - 131032 < WORD / 2) :=
  ⟨Reachable.step start [] (Call.malloc 8) 2 0 _ 65568 (Reachable.at_start zero_mem)
      trivial (fun _ _ => trivial) rfl,
    rfl, rfl, rfl, by decide, rfl, by decide⟩

end Osmem
